import Mathlib

/-!
# LightPath: descriptor scanner, parser, build orchestrator and function runner

A shallow embedding of `source/lightpath.c`.

Conventions of the embedding.

* A C string is a `List Char`: one `Char` per C `char`, the terminating NUL not
  stored.  `strcmp(a, b) == 0` is equality of lists and `strcpy` is a copy of the
  whole text.  In C a `strcpy` whose text and terminating NUL do not fit the
  destination array (`func_name[64]`, `current_path_mode[32]`,
  `final_path_mode[32]`, `path_mode_at_time[32]`, `custom_func_names[i][64]`)
  writes past the end of the array and has no defined behaviour; the functions
  of the parser describe the program on the copies that fit.  `statement_fits`,
  `block_fits` and `descriptor_fits` say, for a turn of a loop and for the parse
  of a descriptor, that every copy made stays inside its array.
* The tokenizer globals `source_code`, `current_pos`, `current_line`,
  `current_column` are the fields of an explicit `Tokenizer` value that is passed
  to and returned from every function that reads or writes them.
* `int` fields are `Int` (versions) or `Nat` (counters, positions); no arithmetic
  in the program can leave the range of `int` on a descriptor that fits in memory.
* `while` loops are functions recursive on a fuel argument.  For the loops of the
  tokenizer the fuel is the loop's own bound (characters left to read, room left
  in the token buffer); the loops of the parser report exhaustion as a result of
  its own, `ParseResult.out_of_fuel`.
* The C library function `atoi` is a parameter of the parser.
* Console output is not part of the results of the functions; what the statements
  of `main` itself print is the separate function `main_output`.
* The operating system (files, `system`) is a parameter `OS W` over a type of
  worlds `W`; every `system` call and every file opened for writing is recorded
  in a log.
-/

namespace LightPath

/-! ## Constants and data model -/

def MAX_COMMAND_LENGTH : Nat := 512
def MAX_COMMANDS : Nat := 100
def MAX_TOKEN_LENGTH : Nat := 256
def LIGHTPATH_VERSION : Int := 1

/-- The C character `'\0'`. -/
def NUL : Char := Char.ofNat 0

/-- The C character `'"'`. -/
def DQUOTE : Char := Char.ofNat 34

inductive TokenType where
  | TOKEN_IDENTIFIER
  | TOKEN_STRING
  | TOKEN_LBRACE
  | TOKEN_RBRACE
  | TOKEN_EQUALS
  | TOKEN_EOF
  | TOKEN_UNKNOWN
deriving DecidableEq, Repr

open TokenType

structure Token where
  type : TokenType
  value : List Char
  line : Nat
  column : Nat
deriving DecidableEq, Repr

structure Command where
  command : List Char
  build_version_at_time : Int
  path_mode_at_time : List Char
deriving DecidableEq, Repr

/-- The array `commands` and `command_count` together are the list `commands`:
its entries are `commands[0 .. command_count - 1]`. -/
structure FunctionBlock where
  commands : List Command
  final_build_version : Int
  final_path_mode : List Char
  has_build : Bool
  required_lightpath_version : Int
deriving DecidableEq, Repr

def FunctionBlock.command_count (block : FunctionBlock) : Nat := block.commands.length

/-- The arrays `custom_func_names`, `custom_funcs` and `custom_func_count` together
are the list `custom`: entry `i` is `(custom_func_names[i], custom_funcs[i])`. -/
structure LightPathProject where
  build_func : FunctionBlock
  main_func : FunctionBlock
  custom : List (List Char × FunctionBlock)
deriving DecidableEq, Repr

def LightPathProject.custom_func_count (project : LightPathProject) : Nat :=
  project.custom.length

/-! ## Tokenizer -/

structure Tokenizer where
  source_code : List Char
  current_pos : Nat
  current_line : Nat
  current_column : Nat
deriving DecidableEq, Repr

/-- The unread text `source_code + current_pos`. -/
def Tokenizer.rest (s : Tokenizer) : List Char := s.source_code.drop s.current_pos

/-- The `strdup` copies the text up to its first NUL. -/
def init_tokenizer (code : List Char) : Tokenizer :=
  { source_code := code.takeWhile (fun c => c != NUL)
    current_pos := 0
    current_line := 1
    current_column := 1 }

def peek_char (s : Tokenizer) : Char :=
  if s.current_pos ≥ s.source_code.length then NUL
  else s.source_code.getD s.current_pos NUL

def next_char (s : Tokenizer) : Char × Tokenizer :=
  if s.current_pos ≥ s.source_code.length then (NUL, s)
  else
    let c := s.source_code.getD s.current_pos NUL
    if c = '\n' then
      (c, { s with current_pos := s.current_pos + 1
                   current_line := s.current_line + 1
                   current_column := 1 })
    else
      (c, { s with current_pos := s.current_pos + 1
                   current_column := s.current_column + 1 })

def is_space (c : Char) : Bool := c = ' ' || c = '\t' || c = '\n' || c = '\r'

def skip_whitespace_loop : Nat → Tokenizer → Tokenizer
  | 0, s => s
  | n + 1, s =>
    if is_space (peek_char s) then skip_whitespace_loop n (next_char s).2 else s

def skip_whitespace (s : Tokenizer) : Tokenizer :=
  skip_whitespace_loop (s.source_code.length - s.current_pos) s

def skip_comment_loop : Nat → Tokenizer → Tokenizer
  | 0, s => s
  | n + 1, s =>
    if peek_char s ≠ '\n' ∧ peek_char s ≠ NUL then skip_comment_loop n (next_char s).2
    else s

/-- The read of `source_code[current_pos + 1]` happens only when `peek_char` is `/`,
so it is at most the terminator. -/
def skip_comment (s : Tokenizer) : Tokenizer :=
  if peek_char s = '/' ∧ s.source_code.getD (s.current_pos + 1) NUL = '/' then
    skip_comment_loop (s.source_code.length - s.current_pos) s
  else s

def is_ident_start (c : Char) : Bool :=
  ('a' ≤ c && c ≤ 'z') || ('A' ≤ c && c ≤ 'Z') || c = '_'

def is_ident_char (c : Char) : Bool :=
  ('a' ≤ c && c ≤ 'z') || ('A' ≤ c && c ≤ 'Z') || ('0' ≤ c && c ≤ '9') || c = '_'

/-- The loop of the string branch; the fuel is the room `MAX_TOKEN_LENGTH - 1 - i`
left in `token.value`. -/
def string_loop : Nat → Tokenizer → List Char → List Char × Tokenizer
  | 0, s, value => (value, s)
  | n + 1, s, value =>
    if peek_char s ≠ DQUOTE ∧ peek_char s ≠ NUL then
      string_loop n (next_char s).2 (value ++ [(next_char s).1])
    else (value, s)

/-- The loop of the identifier branch; the fuel is the room left in `token.value`. -/
def identifier_loop : Nat → Tokenizer → List Char → List Char × Tokenizer
  | 0, s, value => (value, s)
  | n + 1, s, value =>
    if is_ident_char (peek_char s) then
      identifier_loop n (next_char s).2 (value ++ [(next_char s).1])
    else (value, s)

@[irreducible] def next_token (s0 : Tokenizer) : Token × Tokenizer :=
  let line := s0.current_line
  let column := s0.current_column
  let s := skip_whitespace (skip_comment (skip_whitespace s0))
  let c := peek_char s
  if c = NUL then (⟨TOKEN_EOF, [], line, column⟩, s)
  else if c = '{' then (⟨TOKEN_LBRACE, ['{'], line, column⟩, (next_char s).2)
  else if c = '}' then (⟨TOKEN_RBRACE, ['}'], line, column⟩, (next_char s).2)
  else if c = '=' then (⟨TOKEN_EQUALS, ['='], line, column⟩, (next_char s).2)
  else if c = DQUOTE then
    let s1 := (next_char s).2
    let r := string_loop (MAX_TOKEN_LENGTH - 1) s1 []
    if peek_char r.2 = DQUOTE then (⟨TOKEN_STRING, r.1, line, column⟩, (next_char r.2).2)
    else (⟨TOKEN_STRING, r.1, line, column⟩, r.2)
  else if is_ident_start c then
    let r := identifier_loop (MAX_TOKEN_LENGTH - 1) s []
    (⟨TOKEN_IDENTIFIER, r.1, line, column⟩, r.2)
  else (⟨TOKEN_UNKNOWN, [(next_char s).1], line, column⟩, (next_char s).2)

/-! ## Parser -/

def init_function_block : FunctionBlock :=
  { commands := []
    final_build_version := 1
    final_path_mode := "application".toList
    has_build := false
    required_lightpath_version := 1 }

/-- The two `strcpy` are copies of the whole texts: the function is that of the
source where `command` fits `command[512]` and `path_mode` fits
`path_mode_at_time[32]` (`statement_fits`). -/
def add_command_with_context (block : FunctionBlock) (command : List Char)
    (build_version : Int) (path_mode : List Char) : FunctionBlock :=
  if block.command_count < MAX_COMMANDS then
    { block with commands := block.commands ++ [⟨command, build_version, path_mode⟩] }
  else block

/-- Result of a parsing loop: `ok` is a normal exit of the loop, `error` is a
`return 0` from inside it, `out_of_fuel` is a loop cut short by the fuel. -/
inductive ParseResult (α : Type) where
  | ok (a : α)
  | error
  | out_of_fuel
deriving DecidableEq, Repr

/-- Outcome of one turn of the inner `while` of `parse_build_file`. -/
inductive StatementResult where
  /-- the loop condition failed: the token read is `}` or end-of-input -/
  | exit (s : Tokenizer)
  /-- The statement `return 0`. -/
  | fail
  /-- the turn ended; the loop goes on with this tokenizer, block and context -/
  | next (s : Tokenizer) (block : FunctionBlock) (current_build_version : Int)
      (current_path_mode : List Char)
deriving DecidableEq, Repr

/-- One turn of the inner `while` of `parse_build_file`: the loop condition, which
reads a token, and the loop body.  `block` is `*current_block`.  The `strcpy` of the
`path_mode` branch are copies of the whole text: the turn is that of the source
where the text fits `current_path_mode[32]` and `final_path_mode[32]`
(`statement_fits`). -/
def parse_statement (atoi : List Char → Int) (func_name : List Char) (s : Tokenizer)
    (block : FunctionBlock) (current_build_version : Int) (current_path_mode : List Char) :
    StatementResult :=
  let t1 := next_token s
  if t1.1.type = TOKEN_RBRACE ∨ t1.1.type = TOKEN_EOF then .exit t1.2
  else if t1.1.type = TOKEN_IDENTIFIER then
    if t1.1.value = "command".toList then
      let t2 := next_token t1.2
      if t2.1.type = TOKEN_STRING then
        .next t2.2
          (add_command_with_context block t2.1.value current_build_version current_path_mode)
          current_build_version current_path_mode
      else .next t2.2 block current_build_version current_path_mode
    else if t1.1.value = "build_version".toList then
      let t2 := next_token t1.2
      if t2.1.type = TOKEN_EQUALS then
        let t3 := next_token t2.2
        if t3.1.type = TOKEN_STRING then
          let version := atoi t3.1.value
          let block1 := { block with final_build_version := version }
          if func_name = "build".toList then
            let block2 := { block1 with required_lightpath_version := version }
            if LIGHTPATH_VERSION < version then .fail
            else .next t3.2 block2 version current_path_mode
          else .next t3.2 block1 version current_path_mode
        else .next t3.2 block current_build_version current_path_mode
      else .next t2.2 block current_build_version current_path_mode
    else if t1.1.value = "path_mode".toList then
      let t2 := next_token t1.2
      if t2.1.type = TOKEN_EQUALS then
        let t3 := next_token t2.2
        if t3.1.type = TOKEN_STRING then
          .next t3.2 { block with final_path_mode := t3.1.value } current_build_version
            t3.1.value
        else .next t3.2 block current_build_version current_path_mode
      else .next t2.2 block current_build_version current_path_mode
    else if t1.1.value = "build".toList then
      .next t1.2 { block with has_build := true } current_build_version current_path_mode
    else .next t1.2 block current_build_version current_path_mode
  else .next t1.2 block current_build_version current_path_mode

/-- The inner `while` of `parse_build_file`: the body of one block.  The loop
returns the tokenizer and the block as they are when the loop exits. -/
def parse_block_body (atoi : List Char → Int) (func_name : List Char) :
    Nat → Tokenizer → FunctionBlock → Int → List Char →
      ParseResult (Tokenizer × FunctionBlock)
  | 0, _, _, _, _ => .out_of_fuel
  | n + 1, s, block, current_build_version, current_path_mode =>
    match parse_statement atoi func_name s block current_build_version current_path_mode with
    | .exit s1 => .ok (s1, block)
    | .fail => .error
    | .next s1 block1 version path_mode =>
      parse_block_body atoi func_name n s1 block1 version path_mode

/-- Outcome of one turn of the outer `while` of `parse_build_file`. -/
inductive BlockResult where
  /-- the loop condition failed: the token read is end-of-input -/
  | exit
  /-- The statement `return 0`. -/
  | fail
  /-- the inner loop ran out of fuel -/
  | out_of_fuel
  /-- the turn ended; the loop goes on with this tokenizer and project -/
  | next (s : Tokenizer) (project : LightPathProject)
deriving DecidableEq, Repr

/-- One turn of the outer `while` of `parse_build_file`: the loop condition, which
reads a token, and the loop body.  `n` is the fuel of the inner loop.  The name of
the block is kept whole: the turn is that of the source where the name fits
`func_name[64]` and `custom_func_names[i][64]` and the copies of the body fit
(`block_fits`). -/
def parse_block (atoi : List Char → Int) (n : Nat) (s : Tokenizer)
    (project : LightPathProject) : BlockResult :=
  let t1 := next_token s
  if t1.1.type = TOKEN_EOF then .exit
  else if t1.1.type = TOKEN_IDENTIFIER then
    let func_name := t1.1.value
    let t2 := next_token t1.2
    if t2.1.type ≠ TOKEN_LBRACE then .fail
    else if func_name = "build".toList then
      match parse_block_body atoi func_name n t2.2 project.build_func 1
          "application".toList with
      | .ok r => .next r.1 { project with build_func := r.2 }
      | .error => .fail
      | .out_of_fuel => .out_of_fuel
    else if func_name = "main".toList then
      match parse_block_body atoi func_name n t2.2 project.main_func 1
          "application".toList with
      | .ok r => .next r.1 { project with main_func := r.2 }
      | .error => .fail
      | .out_of_fuel => .out_of_fuel
    else if project.custom_func_count < 10 then
      match parse_block_body atoi func_name n t2.2 init_function_block 1
          "application".toList with
      | .ok r => .next r.1 { project with custom := project.custom ++ [(func_name, r.2)] }
      | .error => .fail
      | .out_of_fuel => .out_of_fuel
    else .next t2.2 project
  else .next t1.2 project

/-- The outer `while` of `parse_build_file`. -/
def parse_top_level (atoi : List Char → Int) :
    Nat → Tokenizer → LightPathProject → ParseResult LightPathProject
  | 0, _, _ => .out_of_fuel
  | n + 1, s, project =>
    match parse_block atoi n s project with
    | .exit => .ok project
    | .fail => .error
    | .out_of_fuel => .out_of_fuel
    | .next s1 project1 => parse_top_level atoi n s1 project1

def init_project : LightPathProject :=
  { build_func := init_function_block
    main_func := init_function_block
    custom := [] }

/-- The part of `parse_build_file` that follows the reading of the file: `content`
is the text read.  Every turn of either loop reads a token, and every token but
end-of-input takes a character, so the characters of the text and one more are
fuel enough (`parse_descriptor_fuel_enough`). -/
def parse_descriptor (atoi : List Char → Int) (content : List Char) :
    ParseResult LightPathProject :=
  parse_top_level atoi (content.length + 1) (init_tokenizer content) init_project

/-- The decimal digits at the head of a text, as a number. -/
def atoi_digits : List Char → Nat → Nat
  | [], acc => acc
  | c :: t, acc =>
    if '0' ≤ c ∧ c ≤ '9' then atoi_digits t (acc * 10 + (c.toNat - 48)) else acc

/-- The C library's `atoi` where `long` has 64 bits and `int` has 32 (glibc on
x86-64): `(int) strtol(text, NULL, 10)`.  White space, an optional sign and decimal
digits are read; `strtol` gives the number, or `LONG_MAX` / `LONG_MIN` where the
number is out of the range of `long`; the conversion to `int` keeps the low 32 bits
(two's complement).  It is the `atoi` of the concrete runs below. -/
def atoi_decimal (text : List Char) : Int :=
  let r := text.dropWhile (fun c => is_space c || c = Char.ofNat 11 || c = Char.ofNat 12)
  let negative : Bool :=
    match r with
    | '-' :: _ => true
    | _ => false
  let digits : List Char :=
    match r with
    | '-' :: t => t
    | '+' :: t => t
    | t => t
  let magnitude : Nat :=
    if negative then min (atoi_digits digits 0) 9223372036854775808
    else min (atoi_digits digits 0) 9223372036854775807
  let low : Nat :=
    if negative then (18446744073709551616 - magnitude) % 4294967296
    else magnitude % 4294967296
  if low < 2147483648 then (low : Int) else (low : Int) - 4294967296

/-! ## Operating system -/

/-- What the program asks of its environment; `W` is the state of the world. -/
structure OS (W : Type) where
  /-- The test `stat(filename, _) == 0`. -/
  file_exists : List Char → W → Bool
  /-- The call `fopen(filename, "r")` and the read of the whole file; `none` when it fails. -/
  read_file : List Char → W → Option (List Char)
  /-- The call `fopen(filename, "rb")` and the bytes of the file; `none` when it fails. -/
  read_bytes : List Char → W → Option (List Nat)
  /-- The call `fopen(filename, "w")`; `none` when it fails. -/
  open_write : List Char → W → Option W
  /-- The text written to an open file, up to its `fclose`. -/
  write_close : List Char → List Char → W → W
  /-- The call `system(command)`: its result and the world it leaves. -/
  system : List Char → W → Int × W

inductive Event where
  | system (command : List Char)
  | fopen_w (filename : List Char)
deriving DecidableEq, Repr

/-- The world together with the record of what the program did to it. -/
structure Run (W : Type) where
  world : W
  log : List Event

/-- One call of `system`: logged, then run. -/
def call_system {W : Type} (os : OS W) (command : List Char) (r : Run W) : Int × Run W :=
  let res := os.system command r.world
  (res.1, { world := res.2, log := r.log ++ [Event.system command] })

def execute_command {W : Type} (os : OS W) (command : List Char) (r : Run W) : Run W :=
  (call_system os command r).2

def parse_build_file {W : Type} (os : OS W) (atoi : List Char → Int)
    (filename : List Char) (w : W) : ParseResult LightPathProject :=
  match os.read_file filename w with
  | none => .error
  | some content => parse_descriptor atoi content

/-! ## Packaging -/

def pack_source_directory {W : Type} (os : OS W) (source_dir : List Char) (r : Run W) :
    Bool × Run W :=
  let zip_command :=
    "cd ".toList ++ source_dir ++ " && zip -r ../source_packed.zip . >/dev/null 2>&1".toList
  let res := call_system os zip_command r
  if res.1 ≠ 0 then (false, res.2) else (true, res.2)

/-- The text written before the commands of `main`. -/
def runtime_prologue : List Char :=
  ("/*\n * LightPath Runtime - Generado autom\xc3\xa1ticamente con fe en Jehov\xc3\xa1\n */\n\n" ++
   "#include <stdio.h>\n" ++
   "#include <stdlib.h>\n" ++
   "#include <string.h>\n" ++
   "#include <unistd.h>\n" ++
   "#include <sys/stat.h>\n" ++
   "#include <sys/wait.h>\n\n" ++
   "// Datos empaquetados (se incluyen autom\xc3\xa1ticamente)\n" ++
   "extern unsigned char source_data[];\n" ++
   "extern unsigned int source_data_len;\n\n" ++
   "int extract_and_run() \x7b\n" ++
   "    // Crear directorio temporal\n" ++
   "    char temp_dir[] = \"/tmp/lightpath_XXXXXX\";\n" ++
   "    if (!mkdtemp(temp_dir)) \x7b\n" ++
   "        return 1;\n" ++
   "    \x7d\n\n" ++
   "    // Escribir ZIP a archivo temporal\n" ++
   "    char zip_path[1024];\n" ++
   "    snprintf(zip_path, sizeof(zip_path), \"%s/app.zip\", temp_dir);\n" ++
   "    FILE* zip_file = fopen(zip_path, \"wb\");\n" ++
   "    if (!zip_file) \x7b\n" ++
   "        return 1;\n" ++
   "    \x7d\n" ++
   "    fwrite(source_data, 1, source_data_len, zip_file);\n" ++
   "    fclose(zip_file);\n\n" ++
   "    // Extraer ZIP\n" ++
   "    char unzip_cmd[1024];\n" ++
   "    snprintf(unzip_cmd, sizeof(unzip_cmd), \"cd %s && unzip -q app.zip >/dev/null 2>&1\", temp_dir);\n" ++
   "    if (system(unzip_cmd) != 0) \x7b\n" ++
   "        return 1;\n" ++
   "    \x7d\n\n" ++
   "    // Ejecutar comandos principales\n" ++
   "    char old_cwd[1024];\n" ++
   "    getcwd(old_cwd, sizeof(old_cwd));\n\n").toList

/-- The two lines written for one command of `main`. -/
def runtime_command (cmd : Command) : List Char :=
  (if cmd.path_mode_at_time = "application".toList then "    chdir(temp_dir);\n".toList
   else "    chdir(old_cwd);\n".toList) ++
  ("    system(\"".toList ++ cmd.command ++ "\");\n".toList)

/-- The `for` loop over the commands of `main`. -/
def runtime_commands : List Command → List Char
  | [] => []
  | cmd :: rest => runtime_command cmd ++ runtime_commands rest

/-- The text written after the commands of `main`. -/
def runtime_epilogue : List Char :=
  ("    // Limpiar directorio temporal\n" ++
   "    char cleanup_cmd[1024];\n" ++
   "    snprintf(cleanup_cmd, sizeof(cleanup_cmd), \"rm -rf %s\", temp_dir);\n" ++
   "    system(cleanup_cmd);\n" ++
   "    chdir(old_cwd);\n\n" ++
   "    return 0;\n" ++
   "\x7d\n\n" ++
   "int main() \x7b\n" ++
   "    return extract_and_run();\n" ++
   "\x7d\n").toList

def runtime_text (project : LightPathProject) : List Char :=
  runtime_prologue ++ runtime_commands project.main_func.commands ++ runtime_epilogue

def generate_runtime_c_code {W : Type} (os : OS W) (project : LightPathProject)
    (r : Run W) : Bool × Run W :=
  let log := r.log ++ [Event.fopen_w "lightpath_runtime.c".toList]
  match os.open_write "lightpath_runtime.c".toList r.world with
  | none => (false, { world := r.world, log := log })
  | some w =>
    (true, { world := os.write_close "lightpath_runtime.c".toList (runtime_text project) w
             log := log })

def hex_digit (n : Nat) : Char := "0123456789abcdef".toList.getD n '0'

/-- The conversion `0x%02x` of one byte. -/
def hex_byte (b : Nat) : List Char := ['0', 'x', hex_digit (b / 16 % 16), hex_digit (b % 16)]

/-- The `for` loop of the manual emission, from index `i` on. -/
def source_data_entries (file_size : Nat) : Nat → List Nat → List Char
  | _, [] => []
  | i, b :: bytes =>
    (if i % 12 = 0 then "\n  ".toList else []) ++ hex_byte b ++
    (if i + 1 < file_size then ", ".toList else []) ++
    source_data_entries file_size (i + 1) bytes

def source_data_text (bytes : List Nat) : List Char :=
  "unsigned char source_data[] = \x7b\n".toList ++
  source_data_entries bytes.length 0 bytes ++
  "\n\x7d;\n".toList ++
  "unsigned int source_data_len = ".toList ++ (Nat.repr bytes.length).toList ++ ";\n".toList

def convert_zip_to_object {W : Type} (os : OS W) (r : Run W) : Bool × Run W :=
  let res := call_system os "xxd -i source_packed.zip > source_data.c 2>/dev/null".toList r
  if res.1 ≠ 0 then
    let zip_file := os.read_bytes "source_packed.zip".toList res.2.world
    let log := res.2.log ++ [Event.fopen_w "source_data.c".toList]
    match os.open_write "source_data.c".toList res.2.world with
    | none => (false, { world := res.2.world, log := log })
    | some w =>
      match zip_file with
      | none => (false, { world := w, log := log })
      | some bytes =>
        (true, { world := os.write_close "source_data.c".toList (source_data_text bytes) w
                 log := log })
  else
    (true, (call_system os
      "sed -i 's/source_packed_zip/source_data/g' source_data.c 2>/dev/null".toList res.2).2)

/-! ## Build orchestrator, function runner and entry point -/

/-- The first `for` loop of `build_project`. -/
def run_build_commands {W : Type} (os : OS W) : List Command → Run W → Run W
  | [], r => r
  | cmd :: rest, r => run_build_commands os rest (execute_command os cmd.command r)

def build_project {W : Type} (os : OS W) (project : LightPathProject) (r0 : Run W) :
    Bool × Run W :=
  let r := run_build_commands os project.build_func.commands r0
  if project.build_func.has_build then
    if !os.file_exists "source".toList r.world then (false, r)
    else
      let packed := pack_source_directory os "source".toList r
      if !packed.1 then (false, packed.2)
      else
        let generated := generate_runtime_c_code os project packed.2
        if !generated.1 then (false, generated.2)
        else
          let converted := convert_zip_to_object os generated.2
          if !converted.1 then (false, converted.2)
          else
            let compiled := call_system os
              "gcc -o lightpath_app lightpath_runtime.c source_data.c >/dev/null 2>&1".toList
              converted.2
            if compiled.1 ≠ 0 then (false, compiled.2)
            else
              (true, (call_system os
                "rm -f source_packed.zip lightpath_runtime.c source_data.c 2>/dev/null".toList
                compiled.2).2)
  else (true, r)

/-- The inner `for` loop of `run_custom_function`: both branches of the test on
the path mode call `execute_command`. -/
def run_function_commands {W : Type} (os : OS W) : List Command → Run W → Run W
  | [], r => r
  | cmd :: rest, r =>
    if cmd.path_mode_at_time = "current".toList then
      run_function_commands os rest (execute_command os cmd.command r)
    else
      run_function_commands os rest (execute_command os cmd.command r)

/-- The outer `for` loop of `run_custom_function`, over the entries not yet
visited. -/
def run_custom_function_loop {W : Type} (os : OS W) (func_name : List Char) :
    List (List Char × FunctionBlock) → Run W → Bool × Run W
  | [], r => (false, r)
  | entry :: rest, r =>
    if entry.1 = func_name then (true, run_function_commands os entry.2.commands r)
    else run_custom_function_loop os func_name rest r

def run_custom_function {W : Type} (os : OS W) (project : LightPathProject)
    (func_name : List Char) (r : Run W) : Bool × Run W :=
  run_custom_function_loop os func_name project.custom r

/-- The function `main`; `argc` is the length of `argv`.  The result is the exit
code and the run.  The last case is never met (`parse_descriptor_fuel_enough`). -/
def main {W : Type} (os : OS W) (atoi : List Char → Int) (argv : List (List Char))
    (r : Run W) : Int × Run W :=
  if !os.file_exists "build.path".toList r.world then (1, r)
  else
    match parse_build_file os atoi "build.path".toList r.world with
    | .ok project =>
      if argv.length = 1 then
        let res := build_project os project r
        (if res.1 then 0 else 1, res.2)
      else if argv.length = 2 then
        let command := argv.getD 1 []
        if command = "main".toList then (1, r)
        else if command = "build".toList then (1, r)
        else
          let res := run_custom_function os project command r
          (if res.1 then 0 else 1, res.2)
      else (0, r)
    | .error => (1, r)
    | .out_of_fuel => (1, r)

/-! ## The tokenizer as a function of the unread text

Reference definitions, not translations of the source: `scan` says what the next
token is in terms of the unread text alone.  That `next_token` computes it is the
theorem `next_token_scan`. -/

/-- The characters the comment loop passes over. -/
def is_comment_char (c : Char) : Bool := c != '\n' && c != NUL

/-- The characters the string loop copies. -/
def is_string_char (c : Char) : Bool := c != DQUOTE && c != NUL

/-- The test of `skip_comment` on the unread text. -/
def starts_comment : List Char → Bool
  | c :: d :: _ => c = '/' && d = '/'
  | _ => false

/-- The unread text after `skip_whitespace(); skip_comment(); skip_whitespace();`. -/
def skip_text (r : List Char) : List Char :=
  let r1 := r.dropWhile is_space
  let r2 := if starts_comment r1 then r1.dropWhile is_comment_char else r1
  r2.dropWhile is_space

/-- Kind and text of the next token and the text left unread after it, read off
the unread text `r`. -/
def scan (r : List Char) : TokenType × List Char × List Char :=
  match skip_text r with
  | [] => (TOKEN_EOF, [], [])
  | c :: t =>
    if c = NUL then (TOKEN_EOF, [], c :: t)
    else if c = '{' then (TOKEN_LBRACE, ['{'], t)
    else if c = '}' then (TOKEN_RBRACE, ['}'], t)
    else if c = '=' then (TOKEN_EQUALS, ['='], t)
    else if c = DQUOTE then
      let v := (t.takeWhile is_string_char).take (MAX_TOKEN_LENGTH - 1)
      let u := t.drop v.length
      (TOKEN_STRING, v, if u.headD NUL = DQUOTE then u.tail else u)
    else if is_ident_start c then
      let v := ((c :: t).takeWhile is_ident_char).take (MAX_TOKEN_LENGTH - 1)
      (TOKEN_IDENTIFIER, v, (c :: t).drop v.length)
    else (TOKEN_UNKNOWN, [c], t)

/-! ## Runs of the tokenizer and of the parser

Notions derived from the embedding: successive calls of `next_token`, and the
states that the two loops of `parse_build_file` come to. -/

/-- The tokenizer after `k` calls of `next_token`. -/
def tokenizer_after : Nat → Tokenizer → Tokenizer
  | 0, s => s
  | k + 1, s => tokenizer_after k (next_token s).2

/-- Kinds and texts of the tokens that successive calls of `next_token` return, up
to and with the first end-of-input token; at most `n` calls are made. -/
def token_stream : Nat → Tokenizer → List (TokenType × List Char)
  | 0, _ => []
  | n + 1, s =>
    if (next_token s).1.type = TOKEN_EOF then [(TOKEN_EOF, (next_token s).1.value)]
    else ((next_token s).1.type, (next_token s).1.value) :: token_stream n (next_token s).2

/-- The tokens of a descriptor text: a text of `n` characters has at most `n` tokens
before the end-of-input token. -/
def scan_text (text : List Char) : List (TokenType × List Char) :=
  token_stream (text.length + 1) (init_tokenizer text)

/-- The variables of the inner loop of `parse_build_file` at the head of a turn. -/
structure BodyState where
  s : Tokenizer
  block : FunctionBlock
  current_build_version : Int
  current_path_mode : List Char

/-- A turn of the inner loop leads from `x` to `y`. -/
def body_step (atoi : List Char → Int) (func_name : List Char) (x y : BodyState) : Prop :=
  parse_statement atoi func_name x.s x.block x.current_build_version x.current_path_mode =
    .next y.s y.block y.current_build_version y.current_path_mode

/-- The inner loop, begun at `x`, comes to the head of a turn at `y`. -/
def body_reaches (atoi : List Char → Int) (func_name : List Char) :
    BodyState → BodyState → Prop :=
  Relation.ReflTransGen (body_step atoi func_name)

/-- A turn of the outer loop leads from `x` to `y`. -/
def top_step (atoi : List Char → Int) (x y : Tokenizer × LightPathProject) : Prop :=
  ∃ n, parse_block atoi n x.1 x.2 = .next y.1 y.2

/-- The outer loop, begun at `x`, comes to the head of a turn at `y`. -/
def top_reaches (atoi : List Char → Int) :
    Tokenizer × LightPathProject → Tokenizer × LightPathProject → Prop :=
  Relation.ReflTransGen (top_step atoi)

/-- The parse of `text` comes to the head of a turn of the outer loop with
tokenizer `s` and project `project`. -/
def at_top_level (atoi : List Char → Int) (text : List Char) (s : Tokenizer)
    (project : LightPathProject) : Prop :=
  top_reaches atoi (init_tokenizer text, init_project) (s, project)

/-- The block `current_block` points to once the name of a block is classified;
`none` is the null pointer. -/
def entered_block (project : LightPathProject) (func_name : List Char) :
    Option FunctionBlock :=
  if func_name = "build".toList then some project.build_func
  else if func_name = "main".toList then some project.main_func
  else if project.custom_func_count < 10 then some init_function_block
  else none

/-- The parse of `text` comes, in a body of the block `func_name`, to the head of a
turn of the inner loop (a statement position) with the variables `x`. -/
def at_statement (atoi : List Char → Int) (text : List Char) (func_name : List Char)
    (x : BodyState) : Prop :=
  ∃ s project block,
    at_top_level atoi text s project ∧
    (next_token s).1.type = TOKEN_IDENTIFIER ∧
    (next_token s).1.value = func_name ∧
    (next_token (next_token s).2).1.type = TOKEN_LBRACE ∧
    entered_block project func_name = some block ∧
    body_reaches atoi func_name
      ⟨(next_token (next_token s).2).2, block, 1, "application".toList⟩ x

/-- A world for concrete runs: the one file read is `build.path`, holding
`descriptor`; every file exists and opens; `system` returns `status command`. -/
def scripted_os (descriptor : List Char) (status : List Char → Int) : OS Unit :=
  { file_exists := fun _ _ => true
    read_file := fun filename _ =>
      if filename = "build.path".toList then some descriptor else none
    read_bytes := fun _ _ => some []
    open_write := fun _ _ => some ()
    write_close := fun _ _ _ => ()
    system := fun command _ => (status command, ()) }

/-! ## The capacities of the arrays

The parser copies the text of a token with `strcpy` into arrays of 32, 64 and 512
characters, and a token holds up to 255.  The predicates below follow the parse
and say that every copy made stays inside its array; where one does not, the
program writes past the end of the array and its behaviour is not defined. -/

/-- The size of `current_path_mode`, `final_path_mode` and `path_mode_at_time`. -/
def PATH_MODE_SIZE : Nat := 32

/-- The size of `func_name` and of an entry of `custom_func_names`. -/
def FUNC_NAME_SIZE : Nat := 64

/-- A `strcpy` of `text` into an array of `size` characters stays inside the array:
there is room for the text and its terminating NUL. -/
def strcpy_fits (size : Nat) (text : List Char) : Bool := decide (text.length < size)

/-- The copies of one turn of the inner `while` of `parse_build_file` stay inside
their arrays.  At `command "<text>"`, `add_command_with_context` copies, when the
block has room, the text into `command[512]` and `current_path_mode` into
`path_mode_at_time[32]`; at `path_mode = "<text>"` the text is copied into
`current_path_mode[32]` and `final_path_mode[32]`.  No other turn copies. -/
def statement_fits (s : Tokenizer) (block : FunctionBlock) (current_path_mode : List Char) :
    Bool :=
  let t1 := next_token s
  if t1.1.type = TOKEN_IDENTIFIER then
    if t1.1.value = "command".toList then
      let t2 := next_token t1.2
      if t2.1.type = TOKEN_STRING ∧ block.command_count < MAX_COMMANDS then
        strcpy_fits MAX_COMMAND_LENGTH t2.1.value &&
          strcpy_fits PATH_MODE_SIZE current_path_mode
      else true
    else if t1.1.value = "path_mode".toList then
      let t2 := next_token t1.2
      let t3 := next_token t2.2
      if t2.1.type = TOKEN_EQUALS ∧ t3.1.type = TOKEN_STRING then
        strcpy_fits PATH_MODE_SIZE t3.1.value
      else true
    else true
  else true

/-- The copies of the turns of the inner `while`, from the state given to the end of
the body, stay inside their arrays. -/
def body_fits (atoi : List Char → Int) (func_name : List Char) :
    Nat → Tokenizer → FunctionBlock → Int → List Char → Bool
  | 0, _, _, _, _ => true
  | n + 1, s, block, current_build_version, current_path_mode =>
    statement_fits s block current_path_mode &&
    match parse_statement atoi func_name s block current_build_version current_path_mode with
    | .next s1 block1 version path_mode => body_fits atoi func_name n s1 block1 version path_mode
    | _ => true

/-- The copies of one turn of the outer `while` of `parse_build_file` stay inside
their arrays: the name of the block, copied into `func_name[64]` and, for a custom
block that is stored, from there into `custom_func_names[i][64]`, and the copies of
the turns of the body. -/
def block_fits (atoi : List Char → Int) (n : Nat) (s : Tokenizer)
    (project : LightPathProject) : Bool :=
  let t1 := next_token s
  if t1.1.type = TOKEN_IDENTIFIER then
    strcpy_fits FUNC_NAME_SIZE t1.1.value &&
    (let t2 := next_token t1.2
     if t2.1.type = TOKEN_LBRACE then
       match entered_block project t1.1.value with
       | some block => body_fits atoi t1.1.value n t2.2 block 1 "application".toList
       | none => true
     else true)
  else true

/-- The copies of the turns of the outer `while`, from the state given to the end of
the parse, stay inside their arrays. -/
def top_level_fits (atoi : List Char → Int) :
    Nat → Tokenizer → LightPathProject → Bool
  | 0, _, _ => true
  | n + 1, s, project =>
    block_fits atoi n s project &&
    match parse_block atoi n s project with
    | .next s1 project1 => top_level_fits atoi n s1 project1
    | _ => true

/-- Every copy that the parse of the text `content` makes stays inside its array:
the descriptor fits. -/
def descriptor_fits (atoi : List Char → Int) (content : List Char) : Bool :=
  top_level_fits atoi (content.length + 1) (init_tokenizer content) init_project

/-- The text that follows the first occurrence of `pattern` in a text, if `pattern`
occurs in it. -/
def after_first (pattern : List Char) : List Char → Option (List Char)
  | [] => if pattern = [] then some [] else none
  | c :: t =>
    if pattern.isPrefixOf (c :: t) then some ((c :: t).drop pattern.length)
    else after_first pattern t

/-- The texts `patterns` occur in `text` one after the other, in this order. -/
def occur_in_order : List (List Char) → List Char → Bool
  | [], _ => true
  | pattern :: rest, text =>
    match after_first pattern text with
    | some t => occur_in_order rest t
    | none => false

/-! ## The statements of a block body and the stamps they give

Reference definitions after the grammar of the descriptor: the list of statements
of a body, and the stamp that each command takes from the assignments before it.
The theorems `parse_statement_reads` and `body_commands_stamped` relate the inner
loop of the source to them. -/

/-- A statement of a block body, as the descriptor grammar reads it. -/
inductive Statement where
  /-- The statement `command "<text>"`. -/
  | command (text : List Char)
  /-- The statement `build_version = "<text>"`. -/
  | build_version (text : List Char)
  /-- The statement `path_mode = "<text>"`. -/
  | path_mode (text : List Char)
  /-- A bare `build`. -/
  | marker
  /-- any other shape: the tokens it takes are not recorded -/
  | other
deriving DecidableEq, Repr

/-- The statement at the head of the unread text and the tokenizer after it;
`none` when the next token is `}` or end-of-input, which ends the body. -/
def read_statement (s : Tokenizer) : Option (Statement × Tokenizer) :=
  let t1 := next_token s
  if t1.1.type = TOKEN_RBRACE ∨ t1.1.type = TOKEN_EOF then none
  else if t1.1.type = TOKEN_IDENTIFIER then
    if t1.1.value = "command".toList then
      let t2 := next_token t1.2
      if t2.1.type = TOKEN_STRING then some (.command t2.1.value, t2.2)
      else some (.other, t2.2)
    else if t1.1.value = "build_version".toList then
      let t2 := next_token t1.2
      if t2.1.type = TOKEN_EQUALS then
        let t3 := next_token t2.2
        if t3.1.type = TOKEN_STRING then some (.build_version t3.1.value, t3.2)
        else some (.other, t3.2)
      else some (.other, t2.2)
    else if t1.1.value = "path_mode".toList then
      let t2 := next_token t1.2
      if t2.1.type = TOKEN_EQUALS then
        let t3 := next_token t2.2
        if t3.1.type = TOKEN_STRING then some (.path_mode t3.1.value, t3.2)
        else some (.other, t3.2)
      else some (.other, t2.2)
    else if t1.1.value = "build".toList then some (.marker, t1.2)
    else some (.other, t1.2)
  else some (.other, t1.2)

/-- The statements of a block body, in order, from the tokenizer `s` on; at most
`n` statements are read. -/
def body_statements : Nat → Tokenizer → List Statement
  | 0, _ => []
  | n + 1, s =>
    match read_statement s with
    | none => []
    | some r => r.1 :: body_statements n r.2

/-- The build version in effect after the statements `preceding` of a body: the
value of the latest `build_version` assignment among them, or 1 if there is none. -/
def version_in_effect (atoi : List Char → Int) (preceding : List Statement) : Int :=
  match (preceding.filterMap fun st =>
      match st with
      | .build_version text => some (atoi text)
      | _ => none).getLast? with
  | some version => version
  | none => 1

/-- The path mode in effect after the statements `preceding` of a body: the text of
the latest `path_mode` assignment among them, or `application` if there is none. -/
def path_mode_in_effect (preceding : List Statement) : List Char :=
  match (preceding.filterMap fun st =>
      match st with
      | .path_mode text => some text
      | _ => none).getLast? with
  | some path_mode => path_mode
  | none => "application".toList

/-- The commands of the statements `statements` that follow the statements
`preceding` in a body, each stamped with the values in effect at its own
statement. -/
def stamped_commands (atoi : List Char → Int) :
    List Statement → List Statement → List Command
  | _, [] => []
  | preceding, .command text :: rest =>
    ⟨text, version_in_effect atoi preceding, path_mode_in_effect preceding⟩ ::
      stamped_commands atoi (preceding ++ [.command text]) rest
  | preceding, st :: rest => stamped_commands atoi (preceding ++ [st]) rest

/-- The texts that `next_token` returns whole as one identifier token: a letter or
`_`, then fewer than 255 letters, digits and `_`. -/
def is_identifier_text : List Char → Bool
  | [] => false
  | c :: k => is_ident_start c && k.all is_ident_char && decide (k.length < 255)

/-- The texts that a string literal can hold whole: at most 255 characters, none of
them `"` or NUL. -/
def is_literal_text (a : List Char) : Bool :=
  a.all is_string_char && decide (a.length ≤ 255)

/-! ## An empty directory, the output of `main`, the places of a project

Notions derived from the embedding, for the statements of the theorems. -/

/-- A world for concrete runs in an empty directory: no file exists or opens, and
`system` returns 0. -/
def empty_directory_os : OS Unit :=
  { file_exists := fun _ _ => false
    read_file := fun _ _ => none
    read_bytes := fun _ _ => none
    open_write := fun _ _ => none
    write_close := fun _ _ _ => ()
    system := fun _ _ => (0, ()) }

/-- The text that `show_usage` prints. -/
def show_usage : List Char := "LightPath usage, Error!\n".toList

/-- The texts that the statements of `main` itself print (`printf`, `show_usage`),
in order.  What the functions called by `main` print is not part of it. -/
def main_output {W : Type} (os : OS W) (atoi : List Char → Int) (argv : List (List Char))
    (r : Run W) : List (List Char) :=
  if !os.file_exists "build.path".toList r.world then
    ["The file build.path is not on the directory, Error!\n".toList]
  else
    match parse_build_file os atoi "build.path".toList r.world with
    | .ok _ =>
      if argv.length = 1 then []
      else if argv.length = 2 then
        let command := argv.getD 1 []
        if command = "main".toList then
          ["\"main\" Function is a pre-builded function, Error!\n".toList]
        else if command = "build".toList then
          ["\"build\" Function is a pre-builded function, Error!\n".toList]
        else []
      else [show_usage]
    | .error => ["Parse build.path failed, Error!\n".toList]
    | .out_of_fuel => ["Parse build.path failed, Error!\n".toList]

/-- The outer loop, begun at `start`, comes with the project `project` to a block
named `func_name` whose body it enters, and the inner loop comes, in that body, to
the head of a turn (a statement position) with the variables `x`. -/
def reaches_statement (atoi : List Char → Int) (start : Tokenizer × LightPathProject)
    (project : LightPathProject) (func_name : List Char) (x : BodyState) : Prop :=
  ∃ s block,
    top_reaches atoi start (s, project) ∧
    (next_token s).1.type = TOKEN_IDENTIFIER ∧
    (next_token s).1.value = func_name ∧
    (next_token (next_token s).2).1.type = TOKEN_LBRACE ∧
    entered_block project func_name = some block ∧
    body_reaches atoi func_name
      ⟨(next_token (next_token s).2).2, block, 1, "application".toList⟩ x

/-- The parse of `text` comes to the statement position `x` of a body of the block
`func_name`, entered when the project was `project`. -/
def at_body_statement (atoi : List Char → Int) (text : List Char)
    (project : LightPathProject) (func_name : List Char) (x : BodyState) : Prop :=
  reaches_statement atoi (init_tokenizer text, init_project) project func_name x

/-- The project once the body of the block `func_name` has been parsed into
`block`: `current_block` points into the project, so the block is in its place. -/
def store_block (project : LightPathProject) (func_name : List Char)
    (block : FunctionBlock) : LightPathProject :=
  if func_name = "build".toList then { project with build_func := block }
  else if func_name = "main".toList then { project with main_func := block }
  else { project with custom := project.custom ++ [(func_name, block)] }

/-- A place of a project that holds a block: `build_func`, `main_func` or
`custom_funcs[index]`. -/
inductive BlockSlot where
  | build
  | main
  | custom (index : Nat)
deriving DecidableEq, Repr

/-- The place where the body of a block named `func_name` is parsed into when the
project is `project`: for a custom name, the next free entry. -/
def slot_of (project : LightPathProject) (func_name : List Char) : BlockSlot :=
  if func_name = "build".toList then .build
  else if func_name = "main".toList then .main
  else .custom project.custom_func_count

/-- The block stored at a place of a project, if there is one. -/
def slot_block (project : LightPathProject) : BlockSlot → Option FunctionBlock
  | .build => some project.build_func
  | .main => some project.main_func
  | .custom index => (project.custom.get? index).map Prod.snd

/-- The build marker of the block stored at a place; `false` where no block is
stored. -/
def slot_marker (project : LightPathProject) (slot : BlockSlot) : Bool :=
  match slot_block project slot with
  | some block => block.has_build
  | none => false

/-- The token read at the statement position `x` is the identifier `build`. -/
def marker_at (x : BodyState) : Prop :=
  (next_token x.s).1.type = TOKEN_IDENTIFIER ∧ (next_token x.s).1.value = "build".toList

/-! ## A block entered again

Reference definitions for what the statements of a body leave in the fields of the
block the body is parsed into, whatever the block held before.  The theorem
`body_block_after` relates the inner loop of the source to them. -/

/-- The `final_build_version` of a block after the statements of a body: the value
of the latest `build_version` assignment among them, or the value `before` the body
if there is none. -/
def final_version_after (atoi : List Char → Int) (before : Int)
    (statements : List Statement) : Int :=
  statements.foldl (fun version st =>
    match st with
    | .build_version text => atoi text
    | _ => version) before

/-- The `final_path_mode` of a block after the statements of a body: the text of
the latest `path_mode` assignment among them, or the value `before` the body if
there is none. -/
def final_path_mode_after (before : List Char) (statements : List Statement) :
    List Char :=
  statements.foldl (fun path_mode st =>
    match st with
    | .path_mode text => text
    | _ => path_mode) before

/-- The build marker of a block after the statements of a body: set if it was set
`before` the body or one of the statements is a bare `build`. -/
def marker_after (before : Bool) (statements : List Statement) : Bool :=
  before || statements.contains .marker

/-- The block `block` once a body with the statements `statements` has been parsed
into it as a body of the block named `func_name`: the commands of the body, stamped
from the context (1, `application`), follow those the block held, as far as there
is room; the other fields go on from the values the block had. -/
def block_after_body (atoi : List Char → Int) (func_name : List Char)
    (block : FunctionBlock) (statements : List Statement) : FunctionBlock :=
  { commands := block.commands ++
      (stamped_commands atoi [] statements).take (MAX_COMMANDS - block.command_count)
    final_build_version := final_version_after atoi block.final_build_version statements
    final_path_mode := final_path_mode_after block.final_path_mode statements
    has_build := marker_after block.has_build statements
    required_lightpath_version :=
      if func_name = "build".toList then
        final_version_after atoi block.required_lightpath_version statements
      else block.required_lightpath_version }

/-- The descriptor `build { path_mode = "current" command "x" ... } build { command
"y" ... }`, with `j` commands `x` in the first body and `k` commands `y` in the
second. -/
def build_twice_text (j k : Nat) (x y : List Char) : List Char :=
  "build \x7b path_mode = \"current\"".toList ++
    ((List.replicate j (" command \"".toList ++ (x ++ "\"".toList))).flatten ++
      (" \x7d build \x7b".toList ++
        ((List.replicate k (" command \"".toList ++ (y ++ "\"".toList))).flatten ++
          " \x7d".toList)))

/-! ## Theorems: tokenizer -/

theorem rest_length (s : Tokenizer) :
    s.rest.length = s.source_code.length - s.current_pos := by
  simp [Tokenizer.rest]

theorem peek_char_eq (s : Tokenizer) : peek_char s = s.rest.headD NUL := by
  unfold peek_char Tokenizer.rest
  split
  · rw [List.drop_of_length_le (by omega)]; rfl
  · rename_i h
    have h1 : s.current_pos < s.source_code.length := by omega
    rw [List.getD_eq_getElem _ _ h1, List.drop_eq_getElem_cons h1]
    rfl

theorem next_char_source (s : Tokenizer) : (next_char s).2.source_code = s.source_code := by
  unfold next_char; split
  · rfl
  · dsimp only; split <;> rfl

theorem next_char_fst (s : Tokenizer) : (next_char s).1 = s.rest.headD NUL := by
  rw [← peek_char_eq]
  unfold next_char peek_char; split
  · rfl
  · dsimp only; split <;> rfl

theorem next_char_rest (s : Tokenizer) : (next_char s).2.rest = s.rest.tail := by
  unfold next_char Tokenizer.rest; split
  · rename_i h
    dsimp only
    rw [List.drop_of_length_le (by omega)]; rfl
  · dsimp only; split <;> simp [List.tail_drop]

theorem dropWhile_eq_drop_takeWhile (p : Char → Bool) (l : List Char) :
    l.dropWhile p = l.drop (l.takeWhile p).length := by
  induction l with
  | nil => rfl
  | cons a l ih =>
    by_cases h : p a <;> simp [List.dropWhile, List.takeWhile, h, ih]

theorem skip_whitespace_loop_source (n : Nat) (s : Tokenizer) :
    (skip_whitespace_loop n s).source_code = s.source_code := by
  induction n generalizing s with
  | zero => rfl
  | succ n ih =>
    unfold skip_whitespace_loop; split
    · rw [ih, next_char_source]
    · rfl

theorem skip_whitespace_loop_rest (n : Nat) (s : Tokenizer) (h : s.rest.length ≤ n) :
    (skip_whitespace_loop n s).rest = s.rest.dropWhile is_space := by
  induction n generalizing s with
  | zero =>
    have : s.rest = [] := List.length_eq_zero.mp (by omega)
    simp [skip_whitespace_loop, this]
  | succ n ih =>
    unfold skip_whitespace_loop
    rw [peek_char_eq]
    cases hr : s.rest with
    | nil => simp [is_space, NUL, hr]
    | cons c t =>
      have hlen : (next_char s).2.rest.length ≤ n := by
        rw [next_char_rest, hr]; rw [hr] at h; simpa using h
      by_cases hc : is_space c
      · simp only [List.headD_cons, hc, if_true, List.dropWhile_cons]
        rw [ih _ hlen, next_char_rest, hr]; rfl
      · simp [hc, hr, List.dropWhile_cons]

theorem skip_whitespace_source (s : Tokenizer) :
    (skip_whitespace s).source_code = s.source_code :=
  skip_whitespace_loop_source _ s

theorem skip_whitespace_rest (s : Tokenizer) :
    (skip_whitespace s).rest = s.rest.dropWhile is_space :=
  skip_whitespace_loop_rest _ s (by rw [rest_length])

theorem skip_comment_loop_source (n : Nat) (s : Tokenizer) :
    (skip_comment_loop n s).source_code = s.source_code := by
  induction n generalizing s with
  | zero => rfl
  | succ n ih =>
    unfold skip_comment_loop; split
    · rw [ih, next_char_source]
    · rfl

theorem skip_comment_loop_rest (n : Nat) (s : Tokenizer) (h : s.rest.length ≤ n) :
    (skip_comment_loop n s).rest = s.rest.dropWhile is_comment_char := by
  induction n generalizing s with
  | zero =>
    have : s.rest = [] := List.length_eq_zero.mp (by omega)
    simp [skip_comment_loop, this]
  | succ n ih =>
    unfold skip_comment_loop
    rw [peek_char_eq]
    cases hr : s.rest with
    | nil => simp [hr]
    | cons c t =>
      have hlen : (next_char s).2.rest.length ≤ n := by
        rw [next_char_rest, hr]; rw [hr] at h; simpa using h
      by_cases hc : is_comment_char c
      · have hc2 : c ≠ '\n' ∧ c ≠ NUL := by simpa [is_comment_char] using hc
        simp only [List.headD_cons, hc2, ne_eq, not_false_eq_true, and_self, if_true,
          List.dropWhile_cons, hc]
        rw [ih _ hlen, next_char_rest, hr]; rfl
      · have hc2 : ¬ (c ≠ '\n' ∧ c ≠ NUL) := by simpa [is_comment_char] using hc
        simp only [List.headD_cons, hc2, if_false, List.dropWhile_cons, hc]
        simp [hr]

theorem skip_comment_source (s : Tokenizer) :
    (skip_comment s).source_code = s.source_code := by
  unfold skip_comment; split
  · exact skip_comment_loop_source _ s
  · rfl

theorem getD_eq_headD_drop (l : List Char) (n : Nat) (d : Char) :
    l.getD n d = (l.drop n).headD d := by
  induction l generalizing n with
  | nil => simp
  | cons a l ih =>
    cases n with
    | zero => simp
    | succ n => simp [ih n]

theorem getD_succ_eq (s : Tokenizer) :
    s.source_code.getD (s.current_pos + 1) NUL = s.rest.tail.headD NUL := by
  rw [getD_eq_headD_drop]
  simp [Tokenizer.rest, List.tail_drop]

theorem skip_comment_rest (s : Tokenizer) :
    (skip_comment s).rest =
      if starts_comment s.rest then s.rest.dropWhile is_comment_char else s.rest := by
  unfold skip_comment
  rw [peek_char_eq, getD_succ_eq]
  cases hr : s.rest with
  | nil => simp [starts_comment, NUL, hr]
  | cons c t =>
    cases t with
    | nil => simp [starts_comment, NUL, hr]
    | cons d u =>
      by_cases h : c = '/' ∧ d = '/'
      · simp only [List.headD_cons, List.tail_cons, h, and_self, if_true, starts_comment,
          decide_True, Bool.and_self]
        rw [skip_comment_loop_rest _ s (by rw [rest_length]), hr, h.1, h.2]
      · simp only [List.headD_cons, List.tail_cons, h, if_false, starts_comment]
        have : (decide (c = '/') && decide (d = '/')) = false := by
          simpa using h
        simp [this, hr]

theorem skip_all_source (s : Tokenizer) :
    (skip_whitespace (skip_comment (skip_whitespace s))).source_code = s.source_code := by
  rw [skip_whitespace_source, skip_comment_source, skip_whitespace_source]

theorem skip_all_rest (s : Tokenizer) :
    (skip_whitespace (skip_comment (skip_whitespace s))).rest = skip_text s.rest := by
  rw [skip_whitespace_rest, skip_comment_rest, skip_whitespace_rest]
  rfl

theorem string_loop_source (n : Nat) (s : Tokenizer) (value : List Char) :
    (string_loop n s value).2.source_code = s.source_code := by
  induction n generalizing s value with
  | zero => rfl
  | succ n ih =>
    unfold string_loop; split
    · rw [ih, next_char_source]
    · rfl

theorem string_loop_spec (n : Nat) (s : Tokenizer) (value : List Char) :
    (string_loop n s value).1 = value ++ (s.rest.takeWhile is_string_char).take n ∧
    (string_loop n s value).2.rest =
      s.rest.drop ((s.rest.takeWhile is_string_char).take n).length := by
  induction n generalizing s value with
  | zero => simp [string_loop]
  | succ n ih =>
    unfold string_loop
    rw [peek_char_eq]
    cases hr : s.rest with
    | nil => simp [hr]
    | cons c t =>
      by_cases hc : is_string_char c
      · have hc2 : c ≠ DQUOTE ∧ c ≠ NUL := by simpa [is_string_char] using hc
        simp only [List.headD_cons, hc2, ne_eq, not_false_eq_true, and_self, if_true]
        obtain ⟨h1, h2⟩ := ih (next_char s).2 (value ++ [(next_char s).1])
        rw [h1, h2, next_char_rest, next_char_fst, hr]
        simp [List.takeWhile_cons, hc]
      · have hc2 : ¬ (c ≠ DQUOTE ∧ c ≠ NUL) := by simpa [is_string_char] using hc
        simp only [List.headD_cons, hc2, if_false]
        simp [List.takeWhile_cons, hc, hr]

theorem identifier_loop_source (n : Nat) (s : Tokenizer) (value : List Char) :
    (identifier_loop n s value).2.source_code = s.source_code := by
  induction n generalizing s value with
  | zero => rfl
  | succ n ih =>
    unfold identifier_loop; split
    · rw [ih, next_char_source]
    · rfl

theorem identifier_loop_spec (n : Nat) (s : Tokenizer) (value : List Char) :
    (identifier_loop n s value).1 = value ++ (s.rest.takeWhile is_ident_char).take n ∧
    (identifier_loop n s value).2.rest =
      s.rest.drop ((s.rest.takeWhile is_ident_char).take n).length := by
  induction n generalizing s value with
  | zero => simp [identifier_loop]
  | succ n ih =>
    unfold identifier_loop
    rw [peek_char_eq]
    cases hr : s.rest with
    | nil => simp [hr, is_ident_char, NUL]
    | cons c t =>
      by_cases hc : is_ident_char c
      · simp only [List.headD_cons, hc, if_true]
        obtain ⟨h1, h2⟩ := ih (next_char s).2 (value ++ [(next_char s).1])
        rw [h1, h2, next_char_rest, next_char_fst, hr]
        simp [List.takeWhile_cons, hc]
      · simp only [List.headD_cons, hc]
        simp [List.takeWhile_cons, hc, hr]

theorem next_token_source (s : Tokenizer) :
    (next_token s).2.source_code = s.source_code := by
  unfold next_token
  dsimp only
  split_ifs <;>
    simp only [next_char_source, string_loop_source, identifier_loop_source, skip_all_source]

/-- The token returned by `next_token` and the text it leaves unread are those
that `scan` reads off the unread text. -/
theorem next_token_scan (s : Tokenizer) :
    (next_token s).1.type = (scan s.rest).1 ∧
    (next_token s).1.value = (scan s.rest).2.1 ∧
    (next_token s).2.rest = (scan s.rest).2.2 := by
  unfold next_token scan
  dsimp only
  have hs := skip_all_rest s
  generalize skip_whitespace (skip_comment (skip_whitespace s)) = s1 at hs
  rw [peek_char_eq s1]
  rw [← hs]
  cases hr : s1.rest with
  | nil => simp [hr]
  | cons c t =>
    simp only [List.headD_cons]
    by_cases h0 : c = NUL
    · simp [h0, hr]
    simp only [if_neg h0]
    by_cases h1 : c = '{'
    · simp [if_pos h1, next_char_rest, hr]
    simp only [if_neg h1]
    by_cases h2 : c = '}'
    · simp [if_pos h2, next_char_rest, hr]
    simp only [if_neg h2]
    by_cases h3 : c = '='
    · simp [if_pos h3, next_char_rest, hr]
    simp only [if_neg h3]
    by_cases h4 : c = DQUOTE
    · simp only [if_pos h4]
      obtain ⟨e1, e2⟩ := string_loop_spec (MAX_TOKEN_LENGTH - 1) (next_char s1).2 []
      rw [next_char_rest, hr, List.tail_cons] at e1 e2
      rw [peek_char_eq, e2]
      split_ifs <;> simp [e1, e2, next_char_rest]
    simp only [if_neg h4]
    by_cases h5 : is_ident_start c
    · simp only [h5, if_true]
      obtain ⟨e1, e2⟩ := identifier_loop_spec (MAX_TOKEN_LENGTH - 1) s1 []
      rw [hr] at e1 e2
      simp [e1, e2]
    · simp [h5, next_char_rest, next_char_fst, hr]

theorem skip_text_suffix (r : List Char) : skip_text r <:+ r := by
  unfold skip_text
  dsimp only
  refine (List.dropWhile_suffix _).trans ?_
  split
  · exact (List.dropWhile_suffix _).trans (List.dropWhile_suffix _)
  · exact List.dropWhile_suffix _

theorem is_ident_start_char (c : Char) (h : is_ident_start c = true) :
    is_ident_char c = true := by
  unfold is_ident_start at h
  unfold is_ident_char
  simp only [Bool.or_eq_true, Bool.and_eq_true, decide_eq_true_eq] at h ⊢
  tauto

/-- The text left unread by a token is a suffix of the text before it, a proper one
unless the token is end-of-input. -/
theorem scan_suffix (r : List Char) :
    (scan r).2.2 <:+ r ∧ ((scan r).1 ≠ TOKEN_EOF → (scan r).2.2.length < r.length) := by
  have hsuf := skip_text_suffix r
  unfold scan
  cases hr : skip_text r with
  | nil => simp
  | cons c t =>
    rw [hr] at hsuf
    have hlen : t.length < r.length := by
      have := hsuf.length_le
      simp only [List.length_cons] at this
      omega
    have ht : t <:+ r := (List.suffix_cons c t).trans hsuf
    dsimp only
    by_cases h0 : c = NUL
    · simp [if_pos h0, hsuf]
    simp only [if_neg h0]
    by_cases h1 : c = '{'
    · simp [if_pos h1, ht, hlen]
    simp only [if_neg h1]
    by_cases h2 : c = '}'
    · simp [if_pos h2, ht, hlen]
    simp only [if_neg h2]
    by_cases h3 : c = '='
    · simp [if_pos h3, ht, hlen]
    simp only [if_neg h3]
    by_cases h4 : c = DQUOTE
    · simp only [if_pos h4]
      have hu : ∀ k, t.drop k <:+ r := fun k => (List.drop_suffix k t).trans ht
      split_ifs
      · refine ⟨(List.tail_suffix _).trans (hu _), fun _ => ?_⟩
        have := ((List.tail_suffix _).trans (List.drop_suffix
          (List.take (MAX_TOKEN_LENGTH - 1) (List.takeWhile is_string_char t)).length t)).length_le
        omega
      · refine ⟨hu _, fun _ => ?_⟩
        have := (List.drop_suffix
          (List.take (MAX_TOKEN_LENGTH - 1) (List.takeWhile is_string_char t)).length t).length_le
        omega
    simp only [if_neg h4]
    by_cases h5 : is_ident_start c
    · simp only [h5, if_true]
      have h6 := is_ident_start_char c h5
      refine ⟨(List.drop_suffix _ _).trans hsuf, fun _ => ?_⟩
      simp only [List.takeWhile_cons, h6, if_true, MAX_TOKEN_LENGTH, List.take_succ_cons,
        List.length_cons, List.drop_succ_cons]
      have := (List.drop_suffix
        (List.take 254 (List.takeWhile is_ident_char t)).length t).length_le
      omega
    · simp [h5, ht, hlen]

theorem next_token_rest_le (s : Tokenizer) : (next_token s).2.rest.length ≤ s.rest.length := by
  rw [(next_token_scan s).2.2]
  exact (scan_suffix s.rest).1.length_le

theorem next_token_rest_lt (s : Tokenizer) (h : (next_token s).1.type ≠ TOKEN_EOF) :
    (next_token s).2.rest.length < s.rest.length := by
  rw [(next_token_scan s).2.2]
  rw [(next_token_scan s).1] at h
  exact (scan_suffix s.rest).2 h

/-! ## Theorems: termination of the parser -/

theorem parse_statement_exit_le (atoi : List Char → Int) (func_name : List Char)
    (s : Tokenizer) (block : FunctionBlock) (v : Int) (m : List Char) (s1 : Tokenizer)
    (h : parse_statement atoi func_name s block v m = .exit s1) :
    s1.rest.length ≤ s.rest.length := by
  unfold parse_statement at h
  dsimp only at h
  have l1 := next_token_rest_le s
  generalize next_token s = t1 at h l1
  split_ifs at h
  all_goals
    simp only [StatementResult.exit.injEq] at h
    subst h
    exact l1

/-- A turn of the inner loop that does not leave the loop has read a token that is
not end-of-input, so it has taken at least one character. -/
theorem parse_statement_next_lt (atoi : List Char → Int) (func_name : List Char)
    (s : Tokenizer) (block : FunctionBlock) (v : Int) (m : List Char) (s1 : Tokenizer)
    (block1 : FunctionBlock) (v1 : Int) (m1 : List Char)
    (h : parse_statement atoi func_name s block v m = .next s1 block1 v1 m1) :
    s1.rest.length < s.rest.length := by
  have l2 := next_token_rest_le (next_token s).2
  have l3 := next_token_rest_le (next_token (next_token s).2).2
  have l1 := next_token_rest_lt s
  unfold parse_statement at h
  dsimp only at h
  generalize next_token s = t1 at h l1 l2 l3
  generalize next_token t1.2 = t2 at h l2 l3
  generalize next_token t2.2 = t3 at h l3
  split_ifs at h with h1
  all_goals
    have l1 := l1 (fun e => h1 (Or.inr e))
    simp only [StatementResult.next.injEq] at h
    obtain ⟨rfl, -, -, -⟩ := h
    omega

theorem parse_block_body_succ (atoi : List Char → Int) (func_name : List Char) (n : Nat)
    (s : Tokenizer) (block : FunctionBlock) (v : Int) (m : List Char) :
    parse_block_body atoi func_name (n + 1) s block v m =
      match parse_statement atoi func_name s block v m with
      | .exit s1 => .ok (s1, block)
      | .fail => .error
      | .next s1 block1 version path_mode =>
        parse_block_body atoi func_name n s1 block1 version path_mode := by
  rw [parse_block_body]

theorem parse_block_body_fuel (atoi : List Char → Int) (func_name : List Char) (n : Nat)
    (s : Tokenizer) (block : FunctionBlock) (v : Int) (m : List Char)
    (h : s.rest.length < n) :
    parse_block_body atoi func_name n s block v m ≠ .out_of_fuel ∧
    ∀ r, parse_block_body atoi func_name n s block v m = .ok r →
      r.1.rest.length ≤ s.rest.length := by
  induction n generalizing s block v m with
  | zero => omega
  | succ n ih =>
    rw [parse_block_body_succ]
    have hex := parse_statement_exit_le atoi func_name s block v m
    have hlt := parse_statement_next_lt atoi func_name s block v m
    generalize parse_statement atoi func_name s block v m = st at hex hlt
    cases st with
    | exit s1 =>
      refine ⟨by simp, fun r hr => ?_⟩
      simp only [ParseResult.ok.injEq] at hr
      subst hr
      exact hex _ rfl
    | fail => exact ⟨by simp, fun r hr => by simp at hr⟩
    | next s1 block1 v1 m1 =>
      have hlt := hlt _ _ _ _ rfl
      obtain ⟨h1, h2⟩ := ih s1 block1 v1 m1 (by omega)
      exact ⟨h1, fun r hr => by have := h2 r hr; omega⟩

/-- More fuel does not change the result of a loop that did not run out of it. -/
theorem parse_block_body_mono (atoi : List Char → Int) (func_name : List Char) (n k : Nat)
    (s : Tokenizer) (block : FunctionBlock) (v : Int) (m : List Char) (hk : n ≤ k)
    (h : parse_block_body atoi func_name n s block v m ≠ .out_of_fuel) :
    parse_block_body atoi func_name k s block v m =
      parse_block_body atoi func_name n s block v m := by
  induction n generalizing k s block v m with
  | zero => exact absurd rfl h
  | succ n ih =>
    obtain ⟨k, rfl⟩ : ∃ j, k = j + 1 := ⟨k - 1, by omega⟩
    rw [parse_block_body_succ] at h ⊢
    rw [parse_block_body_succ]
    generalize parse_statement atoi func_name s block v m = st at h
    cases st with
    | exit s1 => rfl
    | fail => rfl
    | next s1 block1 v1 m1 => exact ih k s1 block1 v1 m1 (by omega) h

theorem parse_block_body_fuel_eq (atoi : List Char → Int) (func_name : List Char) (n k : Nat)
    (s : Tokenizer) (block : FunctionBlock) (v : Int) (m : List Char)
    (hn : s.rest.length < n) (hk : s.rest.length < k) :
    parse_block_body atoi func_name n s block v m =
      parse_block_body atoi func_name k s block v m := by
  rw [parse_block_body_mono atoi func_name (s.rest.length + 1) n s block v m (by omega)
      (parse_block_body_fuel _ _ _ _ _ _ _ (by omega)).1,
    parse_block_body_mono atoi func_name (s.rest.length + 1) k s block v m (by omega)
      (parse_block_body_fuel _ _ _ _ _ _ _ (by omega)).1]

theorem init_tokenizer_rest (content : List Char) :
    (init_tokenizer content).rest = content.takeWhile (fun c => c != NUL) := by
  simp [init_tokenizer, Tokenizer.rest]

theorem init_tokenizer_rest_le (content : List Char) :
    (init_tokenizer content).rest.length ≤ content.length := by
  rw [init_tokenizer_rest]
  exact (List.takeWhile_sublist _).length_le

theorem parse_top_level_succ (atoi : List Char → Int) (n : Nat) (s : Tokenizer)
    (project : LightPathProject) :
    parse_top_level atoi (n + 1) s project =
      match parse_block atoi n s project with
      | .exit => .ok project
      | .fail => .error
      | .out_of_fuel => .out_of_fuel
      | .next s1 project1 => parse_top_level atoi n s1 project1 := by
  rw [parse_top_level]

/-- A turn of the outer loop whose inner loop has fuel for the unread text does not
run out of fuel, and if the outer loop goes on it has taken a character. -/
theorem parse_block_fuel (atoi : List Char → Int) (n : Nat) (s : Tokenizer)
    (project : LightPathProject) (h : s.rest.length ≤ n) :
    parse_block atoi n s project ≠ .out_of_fuel ∧
    ∀ s1 project1, parse_block atoi n s project = .next s1 project1 →
      s1.rest.length < s.rest.length := by
  unfold parse_block
  dsimp only
  have l1 := next_token_rest_lt s
  have l2 := next_token_rest_le (next_token s).2
  generalize next_token s = t1 at l1 l2
  generalize next_token t1.2 = t2 at l2
  split_ifs with h1 h2 h3 h4 h5 h6
  · simp
  · simp
  all_goals have l1 := l1 h1
  · have hb := parse_block_body_fuel atoi t1.1.value n t2.2 project.build_func 1
      "application".toList (by omega)
    generalize parse_block_body atoi t1.1.value n t2.2 project.build_func 1
      "application".toList = res at hb
    cases res with
    | ok r =>
      refine ⟨by simp, fun s1 p1 e => ?_⟩
      simp only [BlockResult.next.injEq] at e
      have := hb.2 r rfl
      rw [← e.1]; omega
    | error => simp
    | out_of_fuel => exact absurd rfl hb.1
  · have hb := parse_block_body_fuel atoi t1.1.value n t2.2 project.main_func 1
      "application".toList (by omega)
    generalize parse_block_body atoi t1.1.value n t2.2 project.main_func 1
      "application".toList = res at hb
    cases res with
    | ok r =>
      refine ⟨by simp, fun s1 p1 e => ?_⟩
      simp only [BlockResult.next.injEq] at e
      have := hb.2 r rfl
      rw [← e.1]; omega
    | error => simp
    | out_of_fuel => exact absurd rfl hb.1
  · have hb := parse_block_body_fuel atoi t1.1.value n t2.2 init_function_block 1
      "application".toList (by omega)
    generalize parse_block_body atoi t1.1.value n t2.2 init_function_block 1
      "application".toList = res at hb
    cases res with
    | ok r =>
      refine ⟨by simp, fun s1 p1 e => ?_⟩
      simp only [BlockResult.next.injEq] at e
      have := hb.2 r rfl
      rw [← e.1]; omega
    | error => simp
    | out_of_fuel => exact absurd rfl hb.1
  · refine ⟨by simp, fun s1 p1 e => ?_⟩
    simp only [BlockResult.next.injEq] at e
    rw [← e.1]; omega
  · refine ⟨by simp, fun s1 p1 e => ?_⟩
    simp only [BlockResult.next.injEq] at e
    rw [← e.1]; omega

theorem parse_block_mono (atoi : List Char → Int) (n k : Nat) (s : Tokenizer)
    (project : LightPathProject) (hk : n ≤ k)
    (h : parse_block atoi n s project ≠ .out_of_fuel) :
    parse_block atoi k s project = parse_block atoi n s project := by
  unfold parse_block at h ⊢
  dsimp only at h ⊢
  generalize next_token s = t1 at h ⊢
  generalize next_token t1.2 = t2 at h ⊢
  split_ifs at h ⊢ with h1 h2 h3 h4 h5 h6
  · rfl
  · rfl
  · have hm := parse_block_body_mono atoi t1.1.value n k t2.2 project.build_func 1
      "application".toList hk
    generalize parse_block_body atoi t1.1.value n t2.2 project.build_func 1
      "application".toList = res at h hm
    cases res with
    | ok r => rw [hm (by simp)]
    | error => rw [hm (by simp)]
    | out_of_fuel => exact absurd rfl h
  · have hm := parse_block_body_mono atoi t1.1.value n k t2.2 project.main_func 1
      "application".toList hk
    generalize parse_block_body atoi t1.1.value n t2.2 project.main_func 1
      "application".toList = res at h hm
    cases res with
    | ok r => rw [hm (by simp)]
    | error => rw [hm (by simp)]
    | out_of_fuel => exact absurd rfl h
  · have hm := parse_block_body_mono atoi t1.1.value n k t2.2 init_function_block 1
      "application".toList hk
    generalize parse_block_body atoi t1.1.value n t2.2 init_function_block 1
      "application".toList = res at h hm
    cases res with
    | ok r => rw [hm (by simp)]
    | error => rw [hm (by simp)]
    | out_of_fuel => exact absurd rfl h
  · rfl
  · rfl

theorem parse_block_fuel_eq (atoi : List Char → Int) (n k : Nat) (s : Tokenizer)
    (project : LightPathProject) (hn : s.rest.length ≤ n) (hk : s.rest.length ≤ k) :
    parse_block atoi n s project = parse_block atoi k s project := by
  rw [parse_block_mono atoi s.rest.length n s project hn
      (parse_block_fuel _ _ _ _ (le_refl _)).1,
    parse_block_mono atoi s.rest.length k s project hk
      (parse_block_fuel _ _ _ _ (le_refl _)).1]

theorem parse_top_level_fuel (atoi : List Char → Int) (n : Nat) (s : Tokenizer)
    (project : LightPathProject) (h : s.rest.length < n) :
    parse_top_level atoi n s project ≠ .out_of_fuel := by
  induction n generalizing s project with
  | zero => omega
  | succ n ih =>
    rw [parse_top_level_succ]
    have hb := parse_block_fuel atoi n s project (by omega)
    generalize parse_block atoi n s project = res at hb
    cases res with
    | exit => simp
    | fail => simp
    | out_of_fuel => exact absurd rfl hb.1
    | next s1 p1 => exact ih _ _ (by have := hb.2 s1 p1 rfl; omega)

theorem parse_top_level_mono (atoi : List Char → Int) (n k : Nat) (s : Tokenizer)
    (project : LightPathProject) (hk : n ≤ k)
    (h : parse_top_level atoi n s project ≠ .out_of_fuel) :
    parse_top_level atoi k s project = parse_top_level atoi n s project := by
  induction n generalizing k s project with
  | zero => exact absurd rfl h
  | succ n ih =>
    obtain ⟨k, rfl⟩ : ∃ j, k = j + 1 := ⟨k - 1, by omega⟩
    rw [parse_top_level_succ] at h ⊢
    rw [parse_top_level_succ]
    have hm := parse_block_mono atoi n k s project (by omega)
    generalize parse_block atoi n s project = res at h hm
    cases res with
    | exit => rw [hm (by simp)]
    | fail => rw [hm (by simp)]
    | out_of_fuel => exact absurd rfl h
    | next s1 p1 => rw [hm (by simp)]; exact ih _ _ _ (by omega) h

theorem parse_top_level_fuel_eq (atoi : List Char → Int) (n k : Nat) (s : Tokenizer)
    (project : LightPathProject) (hn : s.rest.length < n) (hk : s.rest.length < k) :
    parse_top_level atoi n s project = parse_top_level atoi k s project := by
  rw [parse_top_level_mono atoi (s.rest.length + 1) n s project (by omega)
      (parse_top_level_fuel _ _ _ _ (by omega)),
    parse_top_level_mono atoi (s.rest.length + 1) k s project (by omega)
      (parse_top_level_fuel _ _ _ _ (by omega))]

theorem body_reaches_result (atoi : List Char → Int) (func_name : List Char)
    (x y : BodyState) (h : body_reaches atoi func_name x y) :
    y.s.rest.length ≤ x.s.rest.length ∧
    ∀ n, x.s.rest.length < n →
      parse_block_body atoi func_name n x.s x.block x.current_build_version
          x.current_path_mode =
        parse_block_body atoi func_name n y.s y.block y.current_build_version
          y.current_path_mode := by
  induction h using Relation.ReflTransGen.head_induction_on with
  | refl => exact ⟨le_refl _, fun _ _ => rfl⟩
  | @head a c hstep _ ih =>
    have hlt := parse_statement_next_lt _ _ _ _ _ _ _ _ _ _ hstep
    refine ⟨by omega, fun n hn => ?_⟩
    obtain ⟨n, rfl⟩ : ∃ j, n = j + 1 := ⟨n - 1, by omega⟩
    rw [parse_block_body_succ, hstep]
    dsimp only
    rw [ih.2 n (by omega)]
    exact parse_block_body_fuel_eq _ _ _ _ _ _ _ _ (by omega) (by omega)

theorem top_reaches_result (atoi : List Char → Int) (x y : Tokenizer × LightPathProject)
    (h : top_reaches atoi x y) :
    y.1.rest.length ≤ x.1.rest.length ∧
    ∀ n, x.1.rest.length < n →
      parse_top_level atoi n x.1 x.2 = parse_top_level atoi n y.1 y.2 := by
  induction h using Relation.ReflTransGen.head_induction_on with
  | refl => exact ⟨le_refl _, fun _ _ => rfl⟩
  | @head a c hstep _ ih =>
    obtain ⟨n0, hn0⟩ := hstep
    have hcanon : ∀ n, a.1.rest.length ≤ n →
        parse_block atoi n a.1 a.2 = .next c.1 c.2 := by
      intro n hn
      rcases Nat.le_total n0 n with hle | hle
      · rw [parse_block_mono atoi n0 n a.1 a.2 hle (by rw [hn0]; simp), hn0]
      · rw [← parse_block_mono atoi n n0 a.1 a.2 hle (parse_block_fuel _ _ _ _ hn).1, hn0]
    have hlt := (parse_block_fuel atoi _ a.1 a.2 (le_refl _)).2 _ _ (hcanon _ (le_refl _))
    refine ⟨by omega, fun n hn => ?_⟩
    obtain ⟨n, rfl⟩ : ∃ j, n = j + 1 := ⟨n - 1, by omega⟩
    rw [parse_top_level_succ, hcanon n (by omega)]
    dsimp only
    rw [ih.2 n (by omega)]
    exact parse_top_level_fuel_eq _ _ _ _ _ (by omega) (by omega)

/-- The result of parsing `text` is the result of the outer loop from any state the
parse comes to. -/
theorem parse_descriptor_from (atoi : List Char → Int) (text : List Char) (s : Tokenizer)
    (project : LightPathProject) (h : at_top_level atoi text s project) :
    parse_descriptor atoi text = parse_top_level atoi (s.rest.length + 1) s project := by
  obtain ⟨h1, h2⟩ := top_reaches_result atoi _ _ h
  have h1 : s.rest.length ≤ (init_tokenizer text).rest.length := h1
  have hl := init_tokenizer_rest_le text
  have h3 : (init_tokenizer text).rest.length < text.length + 1 := by omega
  unfold parse_descriptor
  rw [h2 (text.length + 1) h3]
  exact parse_top_level_fuel_eq atoi (text.length + 1) (s.rest.length + 1) s project
    (by omega) (by omega)

theorem skip_text_of_nul (t : List Char) : skip_text (NUL :: t) = NUL :: t := by
  have h1 : is_space NUL = false := by decide
  have h2 : (NUL = '/') = False := by simp only [eq_iff_iff, iff_false]; decide
  cases t with
  | nil => simp [skip_text, List.dropWhile_cons, h1, starts_comment]
  | cons d u => simp [skip_text, List.dropWhile_cons, h1, starts_comment, h2]

theorem scan_eof_stable (r : List Char) (h : (scan r).1 = TOKEN_EOF) :
    (scan (scan r).2.2).1 = TOKEN_EOF := by
  unfold scan at h ⊢
  cases hr : skip_text r with
  | nil => simp [skip_text]
  | cons c t =>
    rw [hr] at h
    dsimp only at h ⊢
    by_cases h0 : c = NUL
    · simp only [if_pos h0]
      rw [h0, skip_text_of_nul]
      simp
    · simp only [if_neg h0] at h
      split_ifs at h

theorem next_token_eof_stable (s : Tokenizer) (h : (next_token s).1.type = TOKEN_EOF) :
    (next_token (next_token s).2).1.type = TOKEN_EOF := by
  rw [(next_token_scan _).1, (next_token_scan s).2.2]
  rw [(next_token_scan s).1] at h
  exact scan_eof_stable _ h

theorem eof_within (n : Nat) (s : Tokenizer) (h : s.rest.length ≤ n) :
    ∃ k, k ≤ n ∧ (next_token (tokenizer_after k s)).1.type = TOKEN_EOF := by
  induction n generalizing s with
  | zero =>
    refine ⟨0, le_refl _, ?_⟩
    by_contra hne
    have := next_token_rest_lt s hne
    omega
  | succ n ih =>
    by_cases he : (next_token s).1.type = TOKEN_EOF
    · exact ⟨0, Nat.zero_le _, he⟩
    · have hlt := next_token_rest_lt s he
      obtain ⟨k, hk, hk2⟩ := ih (next_token s).2 (by omega)
      exact ⟨k + 1, by omega, hk2⟩

theorem eof_forever (k : Nat) (s : Tokenizer) (h : (next_token s).1.type = TOKEN_EOF) :
    (next_token (tokenizer_after k s)).1.type = TOKEN_EOF := by
  induction k generalizing s with
  | zero => exact h
  | succ k ih => exact ih _ (next_token_eof_stable s h)

/-- C9: a call of `next_token` that does not return end-of-input moves `current_pos`
forward by at least one character; from a freshly initialised tokenizer one of the
first `length text + 1` calls returns end-of-input; and after a call that returned
end-of-input every later call returns end-of-input. -/
theorem C9_token_stream_ends (text : List Char) :
    (∀ s : Tokenizer, (next_token s).1.type ≠ TOKEN_EOF →
      s.current_pos + 1 ≤ (next_token s).2.current_pos) ∧
    (∃ k, k ≤ text.length ∧
      (next_token (tokenizer_after k (init_tokenizer text))).1.type = TOKEN_EOF) ∧
    (∀ s : Tokenizer, (next_token s).1.type = TOKEN_EOF →
      ∀ k, (next_token (tokenizer_after k (next_token s).2)).1.type = TOKEN_EOF) := by
  refine ⟨fun s hne => ?_, eof_within _ _ (init_tokenizer_rest_le text), fun s h k => ?_⟩
  · have hlt := next_token_rest_lt s hne
    rw [rest_length, rest_length, next_token_source] at hlt
    omega
  · exact eof_forever k _ (next_token_eof_stable s h)

theorem C9_token_stream_ends_witness :
    (init_tokenizer "ab = c".toList).current_pos + 1 ≤
      (next_token (init_tokenizer "ab = c".toList)).2.current_pos :=
  (C9_token_stream_ends "ab = c".toList).1 (init_tokenizer "ab = c".toList) (by decide!)

/-- C10: when, after white space and comment are skipped, the next character is
`"`, `next_token` returns a string token whose text is the characters after the
quote up to the first `"`, the end of the text or 255 characters, whichever comes
first, copied as they are; the text holds no `"` and at most 255 characters, and
the tokenizer is left after the text, past the closing quote only if the next
character is one. -/
theorem C10_string_literal (s : Tokenizer) (body : List Char)
    (h : (skip_whitespace (skip_comment (skip_whitespace s))).rest = DQUOTE :: body) :
    (next_token s).1.type = TOKEN_STRING ∧
    (next_token s).1.value =
      (body.takeWhile (fun c => c != DQUOTE && c != NUL)).take (MAX_TOKEN_LENGTH - 1) ∧
    (next_token s).1.value <+: body ∧
    (∀ c ∈ (next_token s).1.value, c ≠ DQUOTE) ∧
    (next_token s).1.value.length ≤ 255 ∧
    (next_token s).2.rest =
      if (body.drop (next_token s).1.value.length).headD NUL = DQUOTE
      then body.drop ((next_token s).1.value.length + 1)
      else body.drop (next_token s).1.value.length := by
  obtain ⟨h1, h2, h3⟩ := next_token_scan s
  rw [skip_all_rest] at h
  have hq0 : DQUOTE ≠ NUL := by decide
  have hq1 : DQUOTE ≠ '{' := by decide
  have hq2 : DQUOTE ≠ '}' := by decide
  have hq3 : DQUOTE ≠ '=' := by decide
  unfold scan at h1 h2 h3
  rw [h] at h1 h2 h3
  simp only [if_neg hq0, if_neg hq1, if_neg hq2, if_neg hq3, if_true] at h1 h2 h3
  have hv : (next_token s).1.value =
      (body.takeWhile (fun c => c != DQUOTE && c != NUL)).take (MAX_TOKEN_LENGTH - 1) := h2
  refine ⟨h1, hv, ?_, ?_, ?_, ?_⟩
  · rw [hv]
    exact (List.take_prefix _ _).trans (List.takeWhile_prefix _)
  · intro c hc
    rw [hv] at hc
    have := List.mem_takeWhile_imp (List.mem_of_mem_take hc)
    simp only [Bool.and_eq_true, bne_iff_ne, ne_eq] at this
    exact this.1
  · rw [hv, List.length_take]
    exact Nat.min_le_left _ _
  · rw [h3, ← h2]
    split_ifs
    · rw [List.tail_drop]
    · rfl

theorem C10_string_literal_witness :
    (next_token (init_tokenizer "  \"a\\b\" x".toList)).1.value <+: "a\\b\" x".toList :=
  (C10_string_literal (init_tokenizer "  \"a\\b\" x".toList) "a\\b\" x".toList
    (by decide)).2.2.1

/-- C4: the descriptor of two comment lines followed by `foo`: the second comment
is not discarded.  Its two slashes and its text `b` are returned as tokens, while
the text after the first comment line alone scans to the identifier `foo`. -/
theorem C4_second_comment_line_is_tokenized :
    scan_text "//a\n//b\nfoo".toList =
      [(TOKEN_UNKNOWN, "/".toList), (TOKEN_UNKNOWN, "/".toList),
       (TOKEN_IDENTIFIER, "b".toList), (TOKEN_IDENTIFIER, "foo".toList), (TOKEN_EOF, [])] ∧
    scan_text "//b\nfoo".toList = [(TOKEN_IDENTIFIER, "foo".toList), (TOKEN_EOF, [])] := by
  decide!

/-! ## Theorems: a block past the cap, a failed compile -/

/-- C5: ten custom blocks are stored and an eleventh, `k`, holds a `command`
statement.  The body of `k` is not scanned as a block body: its tokens are read at
top level, where `command` is an identifier not followed by `{`, and the parse
fails.  The same descriptor without the block `k` parses to its ten blocks. -/
theorem C5_block_past_the_cap_fails_the_parse :
    parse_descriptor atoi_decimal
      "a\x7b\x7db\x7b\x7dc\x7b\x7dd\x7b\x7de\x7b\x7df\x7b\x7dg\x7b\x7dh\x7b\x7di\x7b\x7dj\x7b\x7dk\x7bcommand \"x\"\x7d".toList
      = .error ∧
    parse_descriptor atoi_decimal
      "a\x7b\x7db\x7b\x7dc\x7b\x7dd\x7b\x7de\x7b\x7df\x7b\x7dg\x7b\x7dh\x7b\x7di\x7b\x7dj\x7b\x7d".toList
      = .ok { build_func := init_function_block
              main_func := init_function_block
              custom := ["a", "b", "c", "d", "e", "f", "g", "h", "i", "j"].map
                (fun name => (name.toList, init_function_block)) } := by
  decide!

/-- C6: the build block has the marker, every step up to the compile step succeeds
and the compiler returns 1.  `build_project` returns failure and the last command
it issues is the compiler: the cleanup command is not issued.  With a compiler
that returns 0 the cleanup command follows. -/
theorem C6_failed_compile_skips_cleanup :
    (build_project
        (scripted_os [] (fun command =>
          if command =
            "gcc -o lightpath_app lightpath_runtime.c source_data.c >/dev/null 2>&1".toList
          then 1 else 0))
        { init_project with build_func := { init_function_block with has_build := true } }
        ⟨(), []⟩).1 = false ∧
    (build_project
        (scripted_os [] (fun command =>
          if command =
            "gcc -o lightpath_app lightpath_runtime.c source_data.c >/dev/null 2>&1".toList
          then 1 else 0))
        { init_project with build_func := { init_function_block with has_build := true } }
        ⟨(), []⟩).2.log =
      [Event.system "cd source && zip -r ../source_packed.zip . >/dev/null 2>&1".toList,
       Event.fopen_w "lightpath_runtime.c".toList,
       Event.system "xxd -i source_packed.zip > source_data.c 2>/dev/null".toList,
       Event.system
         "sed -i 's/source_packed_zip/source_data/g' source_data.c 2>/dev/null".toList,
       Event.system
         "gcc -o lightpath_app lightpath_runtime.c source_data.c >/dev/null 2>&1".toList] ∧
    (build_project (scripted_os [] (fun _ => 0))
        { init_project with build_func := { init_function_block with has_build := true } }
        ⟨(), []⟩).2.log =
      [Event.system "cd source && zip -r ../source_packed.zip . >/dev/null 2>&1".toList,
       Event.fopen_w "lightpath_runtime.c".toList,
       Event.system "xxd -i source_packed.zip > source_data.c 2>/dev/null".toList,
       Event.system
         "sed -i 's/source_packed_zip/source_data/g' source_data.c 2>/dev/null".toList,
       Event.system
         "gcc -o lightpath_app lightpath_runtime.c source_data.c >/dev/null 2>&1".toList,
       Event.system
         "rm -f source_packed.zip lightpath_runtime.c source_data.c 2>/dev/null".toList] := by
  decide

/-! ## Theorems: build orchestrator and function runner -/

theorem run_build_commands_eq {W : Type} (os : OS W) (commands : List Command) (r : Run W) :
    run_build_commands os commands r =
      commands.foldl (fun run cmd => execute_command os cmd.command run) r := by
  induction commands generalizing r with
  | nil => rfl
  | cons cmd rest ih => simp [run_build_commands, ih]

theorem foldl_execute_log {W : Type} (os : OS W) (commands : List Command) (r : Run W) :
    (commands.foldl (fun run cmd => execute_command os cmd.command run) r).log =
      r.log ++ commands.map (fun cmd => Event.system cmd.command) := by
  induction commands generalizing r with
  | nil => simp
  | cons cmd rest ih =>
    rw [List.foldl_cons, ih]
    simp [execute_command, call_system]

theorem run_function_commands_eq {W : Type} (os : OS W) (commands : List Command)
    (r : Run W) :
    run_function_commands os commands r =
      commands.foldl (fun run cmd => execute_command os cmd.command run) r := by
  induction commands generalizing r with
  | nil => rfl
  | cons cmd rest ih =>
    unfold run_function_commands
    split <;> rw [ih, List.foldl_cons]

theorem run_custom_function_loop_eq {W : Type} (os : OS W) (func_name : List Char)
    (entries : List (List Char × FunctionBlock)) (r : Run W) :
    run_custom_function_loop os func_name entries r =
      match entries.find? (fun entry => entry.1 == func_name) with
      | some entry =>
        (true, entry.2.commands.foldl (fun run cmd => execute_command os cmd.command run) r)
      | none => (false, r) := by
  induction entries with
  | nil => rfl
  | cons entry rest ih =>
    unfold run_custom_function_loop
    by_cases h : entry.1 = func_name
    · rw [if_pos h, List.find?_cons_of_pos _ (by simpa using h), run_function_commands_eq]
    · rw [if_neg h, List.find?_cons_of_neg _ (by simpa using h), ih]

theorem dropWhile_space_append (w r : List Char) (hw : ∀ c ∈ w, is_space c = true)
    (hr : is_space (r.headD NUL) = false) : (w ++ r).dropWhile is_space = r := by
  induction w with
  | nil =>
    cases r with
    | nil => rfl
    | cons c t => simp only [List.nil_append, List.dropWhile_cons]; simp_all
  | cons a w ih =>
    simp only [List.cons_append, List.dropWhile_cons, hw a (List.mem_cons_self _ _), if_true]
    exact ih (fun c hc => hw c (List.mem_cons_of_mem _ hc))

theorem skip_text_append (w r : List Char) (hw : ∀ c ∈ w, is_space c = true)
    (hr : is_space (r.headD NUL) = false) (hc : r.headD NUL ≠ '/') :
    skip_text (w ++ r) = r := by
  unfold skip_text
  dsimp only
  rw [dropWhile_space_append w r hw hr]
  have hs : starts_comment r = false := by
    cases r with
    | nil => rfl
    | cons c t =>
      cases t with
      | nil => rfl
      | cons d u => simp only [starts_comment]; simp_all
  rw [hs]
  simp only [Bool.false_eq_true, if_false]
  exact dropWhile_space_append [] r (by simp) hr

theorem scan_lbrace (w r : List Char) (hw : ∀ c ∈ w, is_space c = true) :
    scan (w ++ '{' :: r) = (TOKEN_LBRACE, ['{'], r) := by
  unfold scan
  rw [skip_text_append w _ hw (by simp only [List.headD_cons]; decide)
    (by simp only [List.headD_cons]; decide)]
  dsimp only
  rw [if_neg (by decide), if_pos rfl]

theorem scan_rbrace (w r : List Char) (hw : ∀ c ∈ w, is_space c = true) :
    scan (w ++ '}' :: r) = (TOKEN_RBRACE, ['}'], r) := by
  unfold scan
  rw [skip_text_append w _ hw (by simp only [List.headD_cons]; decide)
    (by simp only [List.headD_cons]; decide)]
  dsimp only
  rw [if_neg (by decide), if_neg (by decide), if_pos rfl]

theorem scan_equals (w r : List Char) (hw : ∀ c ∈ w, is_space c = true) :
    scan (w ++ '=' :: r) = (TOKEN_EQUALS, ['='], r) := by
  unfold scan
  rw [skip_text_append w _ hw (by simp only [List.headD_cons]; decide)
    (by simp only [List.headD_cons]; decide)]
  dsimp only
  rw [if_neg (by decide), if_neg (by decide), if_neg (by decide), if_pos rfl]

theorem scan_end (w : List Char) (hw : ∀ c ∈ w, is_space c = true) :
    scan w = (TOKEN_EOF, [], []) := by
  unfold scan
  have := skip_text_append w [] hw (by decide) (by decide)
  rw [List.append_nil] at this
  rw [this]

theorem scan_string (w a r : List Char) (hw : ∀ c ∈ w, is_space c = true)
    (ha : ∀ c ∈ a, is_string_char c = true) (hlen : a.length ≤ 255) :
    scan (w ++ DQUOTE :: (a ++ DQUOTE :: r)) = (TOKEN_STRING, a, r) := by
  unfold scan
  rw [skip_text_append w _ hw (by simp only [List.headD_cons]; decide)
    (by simp only [List.headD_cons]; decide)]
  have hq0 : DQUOTE ≠ NUL := by decide
  have hq1 : DQUOTE ≠ '{' := by decide
  have hq2 : DQUOTE ≠ '}' := by decide
  have hq3 : DQUOTE ≠ '=' := by decide
  simp only [if_neg hq0, if_neg hq1, if_neg hq2, if_neg hq3, if_true]
  have ht : (a ++ DQUOTE :: r).takeWhile is_string_char = a := by
    rw [List.takeWhile_append_of_pos ha]
    simp [List.takeWhile_cons, is_string_char]
  rw [ht, List.take_of_length_le (by simpa [MAX_TOKEN_LENGTH] using hlen)]
  simp

theorem ident_start_not_special (c : Char) (h : is_ident_start c = true) :
    c ≠ NUL ∧ c ≠ '{' ∧ c ≠ '}' ∧ c ≠ '=' ∧ c ≠ DQUOTE ∧ c ≠ '/' ∧ is_space c = false := by
  refine ⟨?_, ?_, ?_, ?_, ?_, ?_, ?_⟩
  · rintro rfl; revert h; decide
  · rintro rfl; revert h; decide
  · rintro rfl; revert h; decide
  · rintro rfl; revert h; decide
  · rintro rfl; revert h; decide
  · rintro rfl; revert h; decide
  · cases hs : is_space c with
    | false => rfl
    | true =>
      unfold is_space at hs
      simp only [Bool.or_eq_true, decide_eq_true_eq] at hs
      rcases hs with ((hs | hs) | hs) | hs <;> subst hs <;> revert h <;> decide

theorem scan_identifier (w r : List Char) (c : Char) (k : List Char)
    (hw : ∀ c ∈ w, is_space c = true) (hs : is_ident_start c = true)
    (hk : ∀ d ∈ k, is_ident_char d = true) (hlen : k.length < 255)
    (hr : is_ident_char (r.headD NUL) = false) :
    scan (w ++ (c :: k) ++ r) = (TOKEN_IDENTIFIER, c :: k, r) := by
  obtain ⟨n0, n1, n2, n3, n4, n5, n6⟩ := ident_start_not_special c hs
  unfold scan
  rw [List.append_assoc, skip_text_append w _ hw (by simpa using n6) (by simpa using n5)]
  simp only [List.cons_append, if_neg n0, if_neg n1, if_neg n2, if_neg n3, if_neg n4, hs,
    if_true]
  have ht : (c :: (k ++ r)).takeWhile is_ident_char = c :: k := by
    rw [List.takeWhile_cons, if_pos (is_ident_start_char c hs),
      List.takeWhile_append_of_pos hk]
    cases r with
    | nil => simp
    | cons d u =>
      have : is_ident_char d = false := by simpa using hr
      simp [List.takeWhile_cons, this]
  rw [ht, List.take_of_length_le (by simp [MAX_TOKEN_LENGTH]; omega)]
  simp

/-- What `next_token` returns from a tokenizer whose unread text is `r`. -/
theorem next_token_of_scan (s : Tokenizer) (r u : List Char) (type : TokenType)
    (value : List Char) (hs : s.rest = r) (h : scan r = (type, value, u)) :
    (next_token s).1.type = type ∧ (next_token s).1.value = value ∧
    (next_token s).2.rest = u := by
  obtain ⟨h1, h2, h3⟩ := next_token_scan s
  rw [hs, h] at h1 h2 h3
  exact ⟨h1, h2, h3⟩

theorem scan_keyword (w k r : List Char) (hw : ∀ c ∈ w, is_space c = true)
    (hk : is_identifier_text k = true) (hr : is_ident_char (r.headD NUL) = false) :
    scan (w ++ k ++ r) = (TOKEN_IDENTIFIER, k, r) := by
  cases k with
  | nil => simp [is_identifier_text] at hk
  | cons c k =>
    simp only [is_identifier_text, Bool.and_eq_true, List.all_eq_true,
      decide_eq_true_eq] at hk
    exact scan_identifier w r c k hw hk.1.1 hk.1.2 hk.2 hr

theorem scan_literal (w a r : List Char) (hw : ∀ c ∈ w, is_space c = true)
    (ha : is_literal_text a = true) :
    scan (w ++ DQUOTE :: (a ++ DQUOTE :: r)) = (TOKEN_STRING, a, r) := by
  simp only [is_literal_text, Bool.and_eq_true, List.all_eq_true, decide_eq_true_eq] at ha
  exact scan_string w a r hw ha.1 ha.2

theorem space_not_ident_char (c : Char) (h : is_space c = true) : is_ident_char c = false := by
  unfold is_space at h
  simp only [Bool.or_eq_true, decide_eq_true_eq] at h
  rcases h with ((h | h) | h) | h <;> subst h <;> decide

theorem headD_space_append (w r : List Char) (c : Char) (hw : ∀ c ∈ w, is_space c = true)
    (hc : is_ident_char c = false) : is_ident_char ((w ++ c :: r).headD NUL) = false := by
  cases w with
  | nil => exact hc
  | cons d w => exact space_not_ident_char d (hw d (List.mem_cons_self _ _))

/-- A well-formed `command "<a>"` at a statement position: the turn appends the
command `a` stamped with the context of that moment. -/
theorem parse_statement_command (atoi : List Char → Int) (func_name : List Char)
    (s : Tokenizer) (block : FunctionBlock) (v : Int) (m w1 w2 a r : List Char)
    (hw1 : ∀ c ∈ w1, is_space c = true) (hw2 : ∀ c ∈ w2, is_space c = true)
    (ha : is_literal_text a = true)
    (hs : s.rest = w1 ++ "command".toList ++ (w2 ++ DQUOTE :: (a ++ DQUOTE :: r))) :
    parse_statement atoi func_name s block v m =
      .next (next_token (next_token s).2).2 (add_command_with_context block a v m) v m ∧
    (next_token (next_token s).2).2.rest = r := by
  obtain ⟨t1, v1, r1⟩ := next_token_of_scan s _ _ _ _ hs
    (scan_keyword w1 _ _ hw1 (by decide) (headD_space_append w2 _ DQUOTE hw2 (by decide)))
  obtain ⟨t2, v2, r2⟩ := next_token_of_scan (next_token s).2 _ _ _ _ r1
    (scan_literal w2 a r hw2 ha)
  unfold parse_statement
  dsimp only
  rw [if_neg (by rw [t1]; decide), if_pos t1, if_pos v1, if_pos t2, v2]
  exact ⟨rfl, r2⟩

/-- A well-formed `path_mode = "<t>"` at a statement position: the turn changes the
context and `final_path_mode` and leaves the commands as they are. -/
theorem parse_statement_path_mode (atoi : List Char → Int) (func_name : List Char)
    (s : Tokenizer) (block : FunctionBlock) (v : Int) (m w1 w2 w3 t r : List Char)
    (hw1 : ∀ c ∈ w1, is_space c = true) (hw2 : ∀ c ∈ w2, is_space c = true)
    (hw3 : ∀ c ∈ w3, is_space c = true) (ht : is_literal_text t = true)
    (hs : s.rest =
      w1 ++ "path_mode".toList ++ (w2 ++ '=' :: (w3 ++ DQUOTE :: (t ++ DQUOTE :: r)))) :
    parse_statement atoi func_name s block v m =
      .next (next_token (next_token (next_token s).2).2).2
        { block with final_path_mode := t } v t ∧
    (next_token (next_token (next_token s).2).2).2.rest = r := by
  obtain ⟨t1, v1, r1⟩ := next_token_of_scan s _ _ _ _ hs
    (scan_keyword w1 _ _ hw1 (by decide) (headD_space_append w2 _ '=' hw2 (by decide)))
  obtain ⟨t2, _, r2⟩ := next_token_of_scan (next_token s).2 _ _ _ _ r1
    (scan_equals w2 _ hw2)
  obtain ⟨t3, v3, r3⟩ := next_token_of_scan (next_token (next_token s).2).2 _ _ _ _ r2
    (scan_literal w3 t r hw3 ht)
  unfold parse_statement
  dsimp only
  rw [if_neg (by rw [t1]; decide), if_pos t1, if_neg (by rw [v1]; decide),
    if_neg (by rw [v1]; decide), if_pos v1, if_pos t2, if_pos t3, v3]
  exact ⟨rfl, r3⟩

/-- A `}` at a statement position ends the body. -/
theorem parse_statement_rbrace (atoi : List Char → Int) (func_name : List Char)
    (s : Tokenizer) (block : FunctionBlock) (v : Int) (m w r : List Char)
    (hw : ∀ c ∈ w, is_space c = true) (hs : s.rest = w ++ '}' :: r) :
    parse_statement atoi func_name s block v m = .exit (next_token s).2 ∧
    (next_token s).2.rest = r := by
  obtain ⟨t1, _, r1⟩ := next_token_of_scan s _ _ _ _ hs (scan_rbrace w r hw)
  unfold parse_statement
  dsimp only
  rw [if_pos (Or.inl t1)]
  exact ⟨rfl, r1⟩

/-! ## Theorems: two commands around a change of path mode -/

theorem literal_text_no_nul (a : List Char) (ha : is_literal_text a = true) :
    ∀ c ∈ a, (c != NUL) = true := by
  simp only [is_literal_text, Bool.and_eq_true, List.all_eq_true, decide_eq_true_eq] at ha
  intro c hc
  have := ha.1 c hc
  simp only [is_string_char, Bool.and_eq_true] at this
  exact this.2

/-- The descriptor `main { command "a"  path_mode = "current"  command "b" }`. -/
theorem parse_two_stamps (atoi : List Char → Int) (a b : List Char)
    (ha : is_literal_text a = true) (hb : is_literal_text b = true) :
    parse_descriptor atoi
      ("main \x7b command \"".toList ++ (a ++
        ("\"  path_mode = \"current\"  command \"".toList ++ (b ++ "\" \x7d".toList)))) =
      .ok { build_func := init_function_block
            main_func :=
              { commands := [⟨a, 1, "application".toList⟩, ⟨b, 1, "current".toList⟩]
                final_build_version := 1
                final_path_mode := "current".toList
                has_build := false
                required_lightpath_version := 1 }
            custom := [] } := by
  have hsp : ∀ c ∈ [' '], is_space c = true := by decide
  have hsp2 : ∀ c ∈ [' ', ' '], is_space c = true := by decide
  have hnil : ∀ c ∈ ([] : List Char), is_space c = true := by simp
  generalize htext : "main \x7b command \"".toList ++ (a ++
      ("\"  path_mode = \"current\"  command \"".toList ++ (b ++ "\" \x7d".toList))) = text
  -- the unread text at the start
  have h0 : (init_tokenizer text).rest =
      [] ++ "main".toList ++ ([' '] ++ '{' ::
        ([' '] ++ "command".toList ++ ([' '] ++ DQUOTE :: (a ++ DQUOTE ::
          ([' ', ' '] ++ "path_mode".toList ++ ([' '] ++ '=' :: ([' '] ++ DQUOTE ::
            ("current".toList ++ DQUOTE ::
              ([' ', ' '] ++ "command".toList ++ ([' '] ++ DQUOTE :: (b ++ DQUOTE ::
                ([' '] ++ '}' :: [])))))))))))) := by
    rw [init_tokenizer_rest, List.takeWhile_eq_self_iff.mpr, ← htext]
    · rfl
    · intro c hc
      rw [← htext] at hc
      simp only [List.mem_append] at hc
      rcases hc with hc | hc | hc | hc | hc
      · revert c; decide
      · exact literal_text_no_nul a ha c hc
      · revert c; decide
      · exact literal_text_no_nul b hb c hc
      · revert c; decide
  -- `main` and `{`
  obtain ⟨t1, v1, r1⟩ := next_token_of_scan (init_tokenizer text) _ _ _ _ h0
    (scan_keyword [] _ _ hnil (by decide) (headD_space_append [' '] _ '{' hsp (by decide)))
  obtain ⟨t2, _, r2⟩ := next_token_of_scan _ _ _ _ _ r1 (scan_lbrace [' '] _ hsp)
  -- the three statements and the closing brace
  obtain ⟨e1, q1⟩ := parse_statement_command atoi "main".toList _ init_function_block 1
    "application".toList [' '] [' '] a _ hsp hsp ha r2
  obtain ⟨e2, q2⟩ := parse_statement_path_mode atoi "main".toList _
    (add_command_with_context init_function_block a 1 "application".toList) 1
    "application".toList [' ', ' '] [' '] [' '] "current".toList _ hsp2 hsp hsp (by decide) q1
  obtain ⟨e3, q3⟩ := parse_statement_command atoi "main".toList _
    { add_command_with_context init_function_block a 1 "application".toList with
      final_path_mode := "current".toList } 1
    "current".toList [' ', ' '] [' '] b _ hsp2 hsp hb q2
  obtain ⟨e4, q4⟩ := parse_statement_rbrace atoi "main".toList _
    (add_command_with_context
      { add_command_with_context init_function_block a 1 "application".toList with
        final_path_mode := "current".toList } b 1 "current".toList) 1
    "current".toList [' '] [] hsp q3
  have hbody : ∃ s10, s10.rest = [] ∧ parse_block_body atoi "main".toList 4
      (next_token (next_token (init_tokenizer text)).2).2 init_function_block 1
      "application".toList =
      .ok (s10,
        { commands := [⟨a, 1, "application".toList⟩, ⟨b, 1, "current".toList⟩]
          final_build_version := 1
          final_path_mode := "current".toList
          has_build := false
          required_lightpath_version := 1 }) := by
    refine ⟨_, q4, ?_⟩
    rw [parse_block_body_succ, e1]
    dsimp only
    rw [parse_block_body_succ, e2]
    dsimp only
    rw [parse_block_body_succ, e3]
    dsimp only
    rw [parse_block_body_succ, e4]
    rfl
  obtain ⟨s10, q10, hbody⟩ := hbody
  have hblock : parse_block atoi 4 (init_tokenizer text) init_project =
      .next s10 { init_project with
        main_func :=
          { commands := [⟨a, 1, "application".toList⟩, ⟨b, 1, "current".toList⟩]
            final_build_version := 1
            final_path_mode := "current".toList
            has_build := false
            required_lightpath_version := 1 } } := by
    unfold parse_block
    dsimp only
    rw [if_neg (by rw [t1]; decide), if_pos t1, if_neg (by rw [t2]; simp), v1,
      if_neg (by decide), if_pos rfl]
    have hm : init_project.main_func = init_function_block := rfl
    rw [hm, hbody]
  obtain ⟨t5, _, _⟩ := next_token_of_scan s10 _ _ _ _ q10 (scan_end [] hnil)
  rw [parse_descriptor_from atoi text _ _ (Relation.ReflTransGen.single ⟨4, hblock⟩),
    parse_top_level_succ]
  unfold parse_block
  dsimp only
  rw [if_pos t5]
  rfl

/-! ## Theorems: the stamps of the commands of a body -/

theorem version_in_effect_append (atoi : List Char → Int) (preceding : List Statement)
    (st : Statement) :
    version_in_effect atoi (preceding ++ [st]) =
      match st with
      | .build_version text => atoi text
      | _ => version_in_effect atoi preceding := by
  unfold version_in_effect
  cases st <;> simp [List.filterMap_append]

theorem path_mode_in_effect_append (preceding : List Statement) (st : Statement) :
    path_mode_in_effect (preceding ++ [st]) =
      match st with
      | .path_mode text => text
      | _ => path_mode_in_effect preceding := by
  unfold path_mode_in_effect
  cases st <;> simp [List.filterMap_append]

/-- A turn of the inner loop acts as the statement that `read_statement` reads: it
leaves the loop where there is none, and otherwise fails or goes on after the
statement, with the context the statement gives and a command appended exactly for
a `command` statement. -/
theorem parse_statement_reads (atoi : List Char → Int) (func_name : List Char)
    (s : Tokenizer) (block : FunctionBlock) (v : Int) (m : List Char) :
    match read_statement s with
    | none => parse_statement atoi func_name s block v m = .exit (next_token s).2
    | some r =>
      parse_statement atoi func_name s block v m = .fail ∨
      ∃ block1,
        parse_statement atoi func_name s block v m =
          .next r.2 block1
            (match r.1 with
             | .build_version text => atoi text
             | _ => v)
            (match r.1 with
             | .path_mode text => text
             | _ => m) ∧
        block1.commands =
          match r.1 with
          | .command text => (add_command_with_context block text v m).commands
          | _ => block.commands := by
  unfold read_statement parse_statement
  dsimp only
  generalize next_token s = t1
  generalize next_token t1.2 = t2
  generalize next_token t2.2 = t3
  by_cases c1 : t1.1.type = TOKEN_RBRACE ∨ t1.1.type = TOKEN_EOF
  · simp only [if_pos c1]
  simp only [if_neg c1]
  by_cases c2 : t1.1.type = TOKEN_IDENTIFIER
  swap
  · simp only [if_neg c2]
    exact Or.inr ⟨_, rfl, rfl⟩
  simp only [if_pos c2]
  by_cases c3 : t1.1.value = "command".toList
  · simp only [if_pos c3]
    by_cases c4 : t2.1.type = TOKEN_STRING
    · simp only [if_pos c4]
      exact Or.inr ⟨_, rfl, rfl⟩
    · simp only [if_neg c4]
      exact Or.inr ⟨_, rfl, rfl⟩
  simp only [if_neg c3]
  by_cases c5 : t1.1.value = "build_version".toList
  · simp only [if_pos c5]
    by_cases c6 : t2.1.type = TOKEN_EQUALS
    swap
    · simp only [if_neg c6]
      exact Or.inr ⟨_, rfl, rfl⟩
    simp only [if_pos c6]
    by_cases c7 : t3.1.type = TOKEN_STRING
    swap
    · simp only [if_neg c7]
      exact Or.inr ⟨_, rfl, rfl⟩
    simp only [if_pos c7]
    by_cases c8 : func_name = "build".toList
    · simp only [if_pos c8]
      by_cases c9 : LIGHTPATH_VERSION < atoi t3.1.value
      · simp only [if_pos c9]
        exact Or.inl trivial
      · simp only [if_neg c9]
        exact Or.inr ⟨_, rfl, rfl⟩
    · simp only [if_neg c8]
      exact Or.inr ⟨_, rfl, rfl⟩
  simp only [if_neg c5]
  by_cases c10 : t1.1.value = "path_mode".toList
  · simp only [if_pos c10]
    by_cases c6 : t2.1.type = TOKEN_EQUALS
    swap
    · simp only [if_neg c6]
      exact Or.inr ⟨_, rfl, rfl⟩
    simp only [if_pos c6]
    by_cases c7 : t3.1.type = TOKEN_STRING
    · simp only [if_pos c7]
      exact Or.inr ⟨_, rfl, rfl⟩
    · simp only [if_neg c7]
      exact Or.inr ⟨_, rfl, rfl⟩
  simp only [if_neg c10]
  by_cases c11 : t1.1.value = "build".toList
  · simp only [if_pos c11]
    exact Or.inr ⟨_, rfl, rfl⟩
  · simp only [if_neg c11]
    exact Or.inr ⟨_, rfl, rfl⟩

theorem body_commands_stamped (atoi : List Char → Int) (func_name : List Char) (n : Nat)
    (s : Tokenizer) (block : FunctionBlock) (preceding : List Statement)
    (r : Tokenizer × FunctionBlock)
    (h : parse_block_body atoi func_name n s block (version_in_effect atoi preceding)
      (path_mode_in_effect preceding) = .ok r) :
    r.2.commands = block.commands ++
      (stamped_commands atoi preceding (body_statements n s)).take
        (MAX_COMMANDS - block.command_count) := by
  induction n generalizing s block preceding with
  | zero => simp [parse_block_body] at h
  | succ n ih =>
    rw [parse_block_body_succ] at h
    have hr := parse_statement_reads atoi func_name s block (version_in_effect atoi preceding)
      (path_mode_in_effect preceding)
    unfold body_statements
    cases hread : read_statement s with
    | none =>
      rw [hread] at hr
      dsimp only at hr
      rw [hr] at h
      simp only [ParseResult.ok.injEq] at h
      subst h
      simp [stamped_commands]
    | some rd =>
      obtain ⟨st, s1⟩ := rd
      rw [hread] at hr
      dsimp only at hr ⊢
      rcases hr with hr | ⟨block1, hr, hc⟩
      · rw [hr] at h
        simp at h
      · rw [hr] at h
        dsimp only at h
        rw [← version_in_effect_append, ← path_mode_in_effect_append] at h
        have hfin := ih _ _ _ h
        rw [hfin]
        unfold FunctionBlock.command_count
        rw [hc]
        cases st with
        | command text =>
          dsimp only
          simp only [stamped_commands]
          unfold add_command_with_context FunctionBlock.command_count
          by_cases hroom : block.commands.length < MAX_COMMANDS
          · rw [if_pos hroom]
            have e : MAX_COMMANDS - block.commands.length =
                (MAX_COMMANDS - (block.commands ++
                  [(⟨text, version_in_effect atoi preceding,
                    path_mode_in_effect preceding⟩ : Command)]).length) + 1 := by
              simp only [List.length_append, List.length_singleton]
              omega
            rw [e, List.take_succ_cons]
            simp
          · rw [if_neg hroom]
            have e : MAX_COMMANDS - block.commands.length = 0 := by omega
            rw [e]
            simp
        | build_version text => simp only [stamped_commands]
        | path_mode text => simp only [stamped_commands]
        | marker => simp only [stamped_commands]
        | other => simp only [stamped_commands]

/-- A body whose loop has ended has been read whole: more fuel reads no further
statement. -/
theorem body_statements_complete (atoi : List Char → Int) (func_name : List Char)
    (n k : Nat) (s : Tokenizer) (block : FunctionBlock) (v : Int) (m : List Char)
    (r : Tokenizer × FunctionBlock)
    (h : parse_block_body atoi func_name n s block v m = .ok r) (hk : n ≤ k) :
    body_statements k s = body_statements n s := by
  induction n generalizing k s block v m with
  | zero => simp [parse_block_body] at h
  | succ n ih =>
    obtain ⟨k, rfl⟩ : ∃ j, k = j + 1 := ⟨k - 1, by omega⟩
    rw [parse_block_body_succ] at h
    have hr := parse_statement_reads atoi func_name s block v m
    unfold body_statements
    cases hread : read_statement s with
    | none => rfl
    | some rd =>
      rw [hread] at hr
      dsimp only at hr ⊢
      rcases hr with hr | ⟨block1, hr, -⟩
      · rw [hr] at h
        simp at h
      · rw [hr] at h
        dsimp only at h
        rw [ih k _ _ _ _ h (by omega)]

theorem parse_block_body_keeps (atoi : List Char → Int) (func_name : List Char) (n : Nat)
    (s : Tokenizer) (block : FunctionBlock) (r : Tokenizer × FunctionBlock)
    (h : parse_block_body atoi func_name n s block 1 "application".toList = .ok r) :
    block.commands <+: r.2.commands :=
  ⟨_, (body_commands_stamped atoi func_name n s block [] r h).symm⟩

/-- A turn of the outer loop leaves every command recorded before it as it is. -/
theorem parse_block_keeps (atoi : List Char → Int) (n : Nat) (s s1 : Tokenizer)
    (project project1 : LightPathProject)
    (h : parse_block atoi n s project = .next s1 project1) :
    project.build_func.commands <+: project1.build_func.commands ∧
    project.main_func.commands <+: project1.main_func.commands ∧
    project.custom <+: project1.custom := by
  unfold parse_block at h
  dsimp only at h
  generalize next_token s = t1 at h
  generalize next_token t1.2 = t2 at h
  split_ifs at h with h1 h2 h3 h4 h5 h6
  · have hk := parse_block_body_keeps atoi t1.1.value n t2.2 project.build_func
    generalize parse_block_body atoi t1.1.value n t2.2 project.build_func 1
      "application".toList = res at h hk
    cases res with
    | ok r =>
      simp only [BlockResult.next.injEq] at h
      rw [← h.2]
      exact ⟨hk r rfl, List.prefix_refl _, List.prefix_refl _⟩
    | error => simp at h
    | out_of_fuel => simp at h
  · have hk := parse_block_body_keeps atoi t1.1.value n t2.2 project.main_func
    generalize parse_block_body atoi t1.1.value n t2.2 project.main_func 1
      "application".toList = res at h hk
    cases res with
    | ok r =>
      simp only [BlockResult.next.injEq] at h
      rw [← h.2]
      exact ⟨List.prefix_refl _, hk r rfl, List.prefix_refl _⟩
    | error => simp at h
    | out_of_fuel => simp at h
  · generalize parse_block_body atoi t1.1.value n t2.2 init_function_block 1
      "application".toList = res at h
    cases res with
    | ok r =>
      simp only [BlockResult.next.injEq] at h
      rw [← h.2]
      exact ⟨List.prefix_refl _, List.prefix_refl _, List.prefix_append _ _⟩
    | error => simp at h
    | out_of_fuel => simp at h
  · simp only [BlockResult.next.injEq] at h
    rw [← h.2]
    exact ⟨List.prefix_refl _, List.prefix_refl _, List.prefix_refl _⟩
  · simp only [BlockResult.next.injEq] at h
    rw [← h.2]
    exact ⟨List.prefix_refl _, List.prefix_refl _, List.prefix_refl _⟩

theorem parse_top_level_keeps (atoi : List Char → Int) (n : Nat) (s : Tokenizer)
    (project project1 : LightPathProject)
    (h : parse_top_level atoi n s project = .ok project1) :
    project.build_func.commands <+: project1.build_func.commands ∧
    project.main_func.commands <+: project1.main_func.commands ∧
    project.custom <+: project1.custom := by
  induction n generalizing s project with
  | zero => simp [parse_top_level] at h
  | succ n ih =>
    rw [parse_top_level_succ] at h
    have hk := fun s1 p1 => parse_block_keeps atoi n s s1 project p1
    generalize parse_block atoi n s project = res at h hk
    cases res with
    | exit =>
      simp only [ParseResult.ok.injEq] at h
      subst h
      exact ⟨List.prefix_refl _, List.prefix_refl _, List.prefix_refl _⟩
    | fail => simp at h
    | out_of_fuel => simp at h
    | next s1 p1 =>
      obtain ⟨a1, a2, a3⟩ := hk s1 p1 rfl
      obtain ⟨b1, b2, b3⟩ := ih s1 p1 h
      exact ⟨a1.trans b1, a2.trans b2, a3.trans b3⟩

/-! ## Theorems: the packaging steps -/

/-- C14: when the build block has the build marker and the directory `source` does
not exist once the commands of the build block have run, `build_project` returns
failure, and what it has done is run those commands: its log holds their `system`
calls and nothing else (no archive, embed, compile or cleanup command, no stub file
opened). -/
theorem C14_missing_source_directory {W : Type} (os : OS W) (project : LightPathProject)
    (r : Run W) (hm : project.build_func.has_build = true)
    (hs : os.file_exists "source".toList
      (project.build_func.commands.foldl
        (fun run cmd => execute_command os cmd.command run) r).world = false) :
    (build_project os project r).1 = false ∧
    (build_project os project r).2 =
      project.build_func.commands.foldl
        (fun run cmd => execute_command os cmd.command run) r ∧
    (build_project os project r).2.log =
      r.log ++ project.build_func.commands.map (fun cmd => Event.system cmd.command) := by
  have hb : build_project os project r = (false, run_build_commands os
      project.build_func.commands r) := by
    rw [← run_build_commands_eq] at hs
    unfold build_project
    dsimp only
    rw [if_pos hm, hs]
    rfl
  rw [hb, run_build_commands_eq]
  exact ⟨rfl, rfl, foldl_execute_log os _ r⟩

theorem C14_missing_source_directory_witness :
    (build_project empty_directory_os
      { init_project with
        build_func := { init_function_block with
          commands := [⟨"make".toList, 1, "application".toList⟩]
          has_build := true } }
      ⟨(), []⟩).2.log = [] ++ [Event.system "make".toList] :=
  (C14_missing_source_directory empty_directory_os
    { init_project with
      build_func := { init_function_block with
        commands := [⟨"make".toList, 1, "application".toList⟩]
        has_build := true } }
    ⟨(), []⟩ rfl rfl).2.2

theorem runtime_commands_eq (commands : List Command) :
    runtime_commands commands =
      (commands.map fun cmd =>
        (if cmd.path_mode_at_time = "application".toList
         then "    chdir(temp_dir);\n".toList
         else "    chdir(old_cwd);\n".toList) ++
        ("    system(\"".toList ++ cmd.command ++ "\");\n".toList)).flatten := by
  induction commands with
  | nil => rfl
  | cons cmd rest ih =>
    rw [runtime_commands, ih]
    rfl

/-- C15, as stated, fails for a command whose text holds a newline: the descriptor
`main { command "a`, newline, `b" }` parses to the one command `a`, newline, `b`,
and the group written for it is three lines, not two: the `system` line is broken
where the text is. -/
theorem C15_newline_in_command_breaks_the_line :
    parse_descriptor atoi_decimal "main \x7b command \"a\nb\" \x7d".toList =
      .ok { build_func := init_function_block
            main_func := { init_function_block with
              commands := [⟨"a\nb".toList, 1, "application".toList⟩] }
            custom := [] } ∧
    runtime_command ⟨"a\nb".toList, 1, "application".toList⟩ =
      "    chdir(temp_dir);\n    system(\"a\nb\");\n".toList ∧
    (runtime_command ⟨"a\nb".toList, 1, "application".toList⟩).count '\n' = 3 := by
  decide!

set_option maxRecDepth 1000000 in
/-- The steps of the prologue, in the order of the text. -/
theorem runtime_prologue_steps :
    occur_in_order
      ["char temp_dir[] = \"/tmp/lightpath_XXXXXX\";".toList,
       "mkdtemp(temp_dir)".toList,
       "snprintf(zip_path, sizeof(zip_path), \"%s/app.zip\", temp_dir);".toList,
       "fopen(zip_path, \"wb\")".toList,
       "fwrite(source_data, 1, source_data_len, zip_file);".toList,
       "fclose(zip_file);".toList,
       "\"cd %s && unzip -q app.zip >/dev/null 2>&1\", temp_dir);".toList,
       "system(unzip_cmd)".toList,
       "char old_cwd[1024];".toList,
       "getcwd(old_cwd, sizeof(old_cwd));".toList] runtime_prologue = true := by
  decide!

set_option maxRecDepth 1000000 in
/-- The steps of the epilogue, in the order of the text. -/
theorem runtime_epilogue_steps :
    occur_in_order
      ["snprintf(cleanup_cmd, sizeof(cleanup_cmd), \"rm -rf %s\", temp_dir);".toList,
       "system(cleanup_cmd);".toList,
       "chdir(old_cwd);".toList,
       "return 0;".toList] runtime_epilogue = true := by
  decide!

/-- C15, amended: the stub text is the fixed prologue, then for each command of the
main block, in order, a line `chdir(temp_dir);` if its stamped path mode is
`application` and `chdir(old_cwd);` otherwise, followed by `system("<command
text>");` and a newline, then the fixed epilogue.  The text of the command is
written as it is: the group has two newlines and those of the text, so it is two
lines exactly for a text without newline.  The prologue holds, in this order, the
creation of the temporary directory (`mkdtemp`), the writing of the payload
(`fwrite` of `source_data`), its extraction (`unzip`, run by `system`) and the
saving of the working directory (`getcwd` into `old_cwd`); the epilogue holds, in
this order, the recursive removal of the temporary directory (`rm -rf`, run by
`system`) and the return to the saved directory (`chdir(old_cwd)`).  The stub text
is what `generate_runtime_c_code` writes to `lightpath_runtime.c` when the file
opens, and two projects with the same commands in `main` have the same stub text,
whatever their build and custom blocks. -/
theorem C15_stub_text (project : LightPathProject) :
    runtime_text project =
      runtime_prologue ++
      (project.main_func.commands.map fun cmd =>
        (if cmd.path_mode_at_time = "application".toList
         then "    chdir(temp_dir);\n".toList
         else "    chdir(old_cwd);\n".toList) ++
        ("    system(\"".toList ++ cmd.command ++ "\");\n".toList)).flatten ++
      runtime_epilogue ∧
    (∀ cmd : Command, (runtime_command cmd).count '\n' = 2 + cmd.command.count '\n') ∧
    occur_in_order
      ["char temp_dir[] = \"/tmp/lightpath_XXXXXX\";".toList,
       "mkdtemp(temp_dir)".toList,
       "snprintf(zip_path, sizeof(zip_path), \"%s/app.zip\", temp_dir);".toList,
       "fopen(zip_path, \"wb\")".toList,
       "fwrite(source_data, 1, source_data_len, zip_file);".toList,
       "fclose(zip_file);".toList,
       "\"cd %s && unzip -q app.zip >/dev/null 2>&1\", temp_dir);".toList,
       "system(unzip_cmd)".toList,
       "char old_cwd[1024];".toList,
       "getcwd(old_cwd, sizeof(old_cwd));".toList] runtime_prologue = true ∧
    occur_in_order
      ["snprintf(cleanup_cmd, sizeof(cleanup_cmd), \"rm -rf %s\", temp_dir);".toList,
       "system(cleanup_cmd);".toList,
       "chdir(old_cwd);".toList,
       "return 0;".toList] runtime_epilogue = true ∧
    (∀ (W : Type) (os : OS W) (r : Run W) (w : W),
      os.open_write "lightpath_runtime.c".toList r.world = some w →
        (generate_runtime_c_code os project r).1 = true ∧
        (generate_runtime_c_code os project r).2.world =
          os.write_close "lightpath_runtime.c".toList (runtime_text project) w) ∧
    (∀ other : LightPathProject,
      other.main_func.commands = project.main_func.commands →
        runtime_text other = runtime_text project) := by
  refine ⟨?_, fun cmd => ?_, runtime_prologue_steps, runtime_epilogue_steps,
    fun W os r w hw => ?_, fun other h => ?_⟩
  · unfold runtime_text
    rw [runtime_commands_eq]
  · unfold runtime_command
    rw [List.count_append, List.count_append, List.count_append]
    have h1 : List.count '\n' "    system(\"".toList = 0 := by decide
    have h2 : List.count '\n' "\");\n".toList = 1 := by decide
    rw [h1, h2]
    split
    · have h3 : List.count '\n' "    chdir(temp_dir);\n".toList = 1 := by decide
      rw [h3]
      omega
    · have h3 : List.count '\n' "    chdir(old_cwd);\n".toList = 1 := by decide
      rw [h3]
      omega
  · unfold generate_runtime_c_code
    dsimp only
    rw [hw]
    exact ⟨rfl, rfl⟩
  · unfold runtime_text
    rw [h]

theorem C15_stub_text_witness :
    runtime_text
      { init_project with
        build_func := { init_function_block with
          commands := [⟨"make".toList, 1, "application".toList⟩] }
        main_func := { init_function_block with
          commands := [⟨"./app".toList, 1, "application".toList⟩,
                       ⟨"ls".toList, 1, "current".toList⟩] } } =
    runtime_text
      { init_project with
        main_func := { init_function_block with
          commands := [⟨"./app".toList, 1, "application".toList⟩,
                       ⟨"ls".toList, 1, "current".toList⟩] } } :=
  (C15_stub_text
    { init_project with
      main_func := { init_function_block with
        commands := [⟨"./app".toList, 1, "application".toList⟩,
                     ⟨"ls".toList, 1, "current".toList⟩] } }).2.2.2.2.2
    { init_project with
      build_func := { init_function_block with
        commands := [⟨"make".toList, 1, "application".toList⟩] }
      main_func := { init_function_block with
        commands := [⟨"./app".toList, 1, "application".toList⟩,
                     ⟨"ls".toList, 1, "current".toList⟩] } }
    rfl

/-! ## Theorems: what a parsed project always satisfies -/

/-- The names stored by a turn of the outer loop are not `build` and not `main`. -/
theorem parse_block_custom_names (atoi : List Char → Int) (n : Nat) (s s1 : Tokenizer)
    (project project1 : LightPathProject)
    (h : parse_block atoi n s project = .next s1 project1)
    (hp : ∀ e ∈ project.custom, e.1 ≠ "build".toList ∧ e.1 ≠ "main".toList) :
    ∀ e ∈ project1.custom, e.1 ≠ "build".toList ∧ e.1 ≠ "main".toList := by
  unfold parse_block at h
  dsimp only at h
  generalize next_token s = t1 at h
  generalize next_token t1.2 = t2 at h
  split_ifs at h with h1 h2 h3 h4 h5 h6
  · generalize parse_block_body atoi t1.1.value n t2.2 project.build_func 1
      "application".toList = res at h
    cases res with
    | ok r =>
      simp only [BlockResult.next.injEq] at h
      rw [← h.2]
      exact hp
    | error => simp at h
    | out_of_fuel => simp at h
  · generalize parse_block_body atoi t1.1.value n t2.2 project.main_func 1
      "application".toList = res at h
    cases res with
    | ok r =>
      simp only [BlockResult.next.injEq] at h
      rw [← h.2]
      exact hp
    | error => simp at h
    | out_of_fuel => simp at h
  · generalize parse_block_body atoi t1.1.value n t2.2 init_function_block 1
      "application".toList = res at h
    cases res with
    | ok r =>
      simp only [BlockResult.next.injEq] at h
      rw [← h.2]
      intro e he
      rcases List.mem_append.mp he with he | he
      · exact hp e he
      · rw [List.mem_singleton] at he
        rw [he]
        exact ⟨h4, h5⟩
    | error => simp at h
    | out_of_fuel => simp at h
  · simp only [BlockResult.next.injEq] at h
    rw [← h.2]
    exact hp
  · simp only [BlockResult.next.injEq] at h
    rw [← h.2]
    exact hp

theorem parse_top_level_custom_names (atoi : List Char → Int) (n : Nat) (s : Tokenizer)
    (project project1 : LightPathProject)
    (h : parse_top_level atoi n s project = .ok project1)
    (hp : ∀ e ∈ project.custom, e.1 ≠ "build".toList ∧ e.1 ≠ "main".toList) :
    ∀ e ∈ project1.custom, e.1 ≠ "build".toList ∧ e.1 ≠ "main".toList := by
  induction n generalizing s project with
  | zero => simp [parse_top_level] at h
  | succ n ih =>
    rw [parse_top_level_succ] at h
    have hk := fun s1 p1 => parse_block_custom_names atoi n s s1 project p1
    generalize parse_block atoi n s project = res at h hk
    cases res with
    | exit =>
      simp only [ParseResult.ok.injEq] at h
      subst h
      exact hp
    | fail => simp at h
    | out_of_fuel => simp at h
    | next s1 p1 => exact ih s1 p1 h (hk s1 p1 rfl hp)

theorem run_custom_function_not_found {W : Type} (os : OS W) (project : LightPathProject)
    (func_name : List Char) (r : Run W) (h : ∀ e ∈ project.custom, e.1 ≠ func_name) :
    run_custom_function os project func_name r = (false, r) := by
  unfold run_custom_function
  rw [run_custom_function_loop_eq, List.find?_eq_none.mpr]
  intro e he
  simpa using h e he

theorem parse_statement_required (atoi : List Char → Int) (func_name : List Char)
    (s : Tokenizer) (block : FunctionBlock) (v : Int) (m : List Char) (s1 : Tokenizer)
    (block1 : FunctionBlock) (v1 : Int) (m1 : List Char)
    (h : parse_statement atoi func_name s block v m = .next s1 block1 v1 m1)
    (hb : block.required_lightpath_version ≤ LIGHTPATH_VERSION) :
    block1.required_lightpath_version ≤ LIGHTPATH_VERSION := by
  unfold parse_statement at h
  dsimp only at h
  generalize next_token s = t1 at h
  generalize next_token t1.2 = t2 at h
  generalize next_token t2.2 = t3 at h
  split_ifs at h with c1 c2 c3 c4 c5 c6 c7 c8 c9
  all_goals
    simp only [StatementResult.next.injEq] at h
    obtain ⟨-, rfl, -, -⟩ := h
    first
      | exact hb
      | exact not_lt.mp c9
      | (unfold add_command_with_context; split <;> exact hb)

theorem parse_block_body_required (atoi : List Char → Int) (func_name : List Char)
    (n : Nat) (s : Tokenizer) (block : FunctionBlock) (v : Int) (m : List Char)
    (r : Tokenizer × FunctionBlock)
    (h : parse_block_body atoi func_name n s block v m = .ok r)
    (hb : block.required_lightpath_version ≤ LIGHTPATH_VERSION) :
    r.2.required_lightpath_version ≤ LIGHTPATH_VERSION := by
  induction n generalizing s block v m with
  | zero => simp [parse_block_body] at h
  | succ n ih =>
    rw [parse_block_body_succ] at h
    have hk := fun s1 b1 v1 m1 => parse_statement_required atoi func_name s block v m s1 b1 v1 m1
    generalize parse_statement atoi func_name s block v m = st at h hk
    cases st with
    | exit s1 =>
      simp only [ParseResult.ok.injEq] at h
      subst h
      exact hb
    | fail => simp at h
    | next s1 b1 v1 m1 => exact ih s1 b1 v1 m1 h (hk s1 b1 v1 m1 rfl hb)

theorem parse_block_required (atoi : List Char → Int) (n : Nat) (s s1 : Tokenizer)
    (project project1 : LightPathProject)
    (h : parse_block atoi n s project = .next s1 project1)
    (hp : project.build_func.required_lightpath_version ≤ LIGHTPATH_VERSION) :
    project1.build_func.required_lightpath_version ≤ LIGHTPATH_VERSION := by
  unfold parse_block at h
  dsimp only at h
  generalize next_token s = t1 at h
  generalize next_token t1.2 = t2 at h
  split_ifs at h with h1 h2 h3 h4 h5 h6
  · have hk := fun r => parse_block_body_required atoi t1.1.value n t2.2 project.build_func 1
      "application".toList r
    generalize parse_block_body atoi t1.1.value n t2.2 project.build_func 1
      "application".toList = res at h hk
    cases res with
    | ok r =>
      simp only [BlockResult.next.injEq] at h
      rw [← h.2]
      exact hk r rfl hp
    | error => simp at h
    | out_of_fuel => simp at h
  · generalize parse_block_body atoi t1.1.value n t2.2 project.main_func 1
      "application".toList = res at h
    cases res with
    | ok r =>
      simp only [BlockResult.next.injEq] at h
      rw [← h.2]
      exact hp
    | error => simp at h
    | out_of_fuel => simp at h
  · generalize parse_block_body atoi t1.1.value n t2.2 init_function_block 1
      "application".toList = res at h
    cases res with
    | ok r =>
      simp only [BlockResult.next.injEq] at h
      rw [← h.2]
      exact hp
    | error => simp at h
    | out_of_fuel => simp at h
  · simp only [BlockResult.next.injEq] at h
    rw [← h.2]
    exact hp
  · simp only [BlockResult.next.injEq] at h
    rw [← h.2]
    exact hp

theorem parse_top_level_required (atoi : List Char → Int) (n : Nat) (s : Tokenizer)
    (project project1 : LightPathProject)
    (h : parse_top_level atoi n s project = .ok project1)
    (hp : project.build_func.required_lightpath_version ≤ LIGHTPATH_VERSION) :
    project1.build_func.required_lightpath_version ≤ LIGHTPATH_VERSION := by
  induction n generalizing s project with
  | zero => simp [parse_top_level] at h
  | succ n ih =>
    rw [parse_top_level_succ] at h
    have hk := fun s1 p1 => parse_block_required atoi n s s1 project p1
    generalize parse_block atoi n s project = res at h hk
    cases res with
    | exit =>
      simp only [ParseResult.ok.injEq] at h
      subst h
      exact hp
    | fail => simp at h
    | out_of_fuel => simp at h
    | next s1 p1 => exact ih s1 p1 h (hk s1 p1 rfl hp)

theorem body_commands_first (atoi : List Char → Int) (func_name : List Char) (n : Nat)
    (s : Tokenizer) (block : FunctionBlock) (r : Tokenizer × FunctionBlock)
    (hb : block.command_count ≤ MAX_COMMANDS)
    (h : parse_block_body atoi func_name n s block 1 "application".toList = .ok r) :
    r.2.commands =
      (block.commands ++ stamped_commands atoi [] (body_statements n s)).take MAX_COMMANDS := by
  rw [body_commands_stamped atoi func_name n s block [] r h, List.take_append_eq_append_take,
    List.take_of_length_le hb]
  rfl

theorem parse_block_body_count (atoi : List Char → Int) (func_name : List Char) (n : Nat)
    (s : Tokenizer) (block : FunctionBlock) (r : Tokenizer × FunctionBlock)
    (hb : block.command_count ≤ MAX_COMMANDS)
    (h : parse_block_body atoi func_name n s block 1 "application".toList = .ok r) :
    r.2.command_count ≤ MAX_COMMANDS := by
  unfold FunctionBlock.command_count
  rw [body_commands_first atoi func_name n s block r hb h, List.length_take]
  exact Nat.min_le_left _ _

/-- The bound on the commands of the blocks of a project. -/
theorem parse_block_counts (atoi : List Char → Int) (n : Nat) (s s1 : Tokenizer)
    (project project1 : LightPathProject)
    (h : parse_block atoi n s project = .next s1 project1)
    (hp : project.build_func.command_count ≤ MAX_COMMANDS ∧
      project.main_func.command_count ≤ MAX_COMMANDS ∧
      ∀ e ∈ project.custom, e.2.command_count ≤ MAX_COMMANDS) :
    project1.build_func.command_count ≤ MAX_COMMANDS ∧
    project1.main_func.command_count ≤ MAX_COMMANDS ∧
    ∀ e ∈ project1.custom, e.2.command_count ≤ MAX_COMMANDS := by
  unfold parse_block at h
  dsimp only at h
  generalize next_token s = t1 at h
  generalize next_token t1.2 = t2 at h
  split_ifs at h with h1 h2 h3 h4 h5 h6
  · have hk := fun r => parse_block_body_count atoi t1.1.value n t2.2 project.build_func r hp.1
    generalize parse_block_body atoi t1.1.value n t2.2 project.build_func 1
      "application".toList = res at h hk
    cases res with
    | ok r =>
      simp only [BlockResult.next.injEq] at h
      rw [← h.2]
      exact ⟨hk r rfl, hp.2.1, hp.2.2⟩
    | error => simp at h
    | out_of_fuel => simp at h
  · have hk := fun r => parse_block_body_count atoi t1.1.value n t2.2 project.main_func r hp.2.1
    generalize parse_block_body atoi t1.1.value n t2.2 project.main_func 1
      "application".toList = res at h hk
    cases res with
    | ok r =>
      simp only [BlockResult.next.injEq] at h
      rw [← h.2]
      exact ⟨hp.1, hk r rfl, hp.2.2⟩
    | error => simp at h
    | out_of_fuel => simp at h
  · have hk := fun r => parse_block_body_count atoi t1.1.value n t2.2 init_function_block r
      (by decide)
    generalize parse_block_body atoi t1.1.value n t2.2 init_function_block 1
      "application".toList = res at h hk
    cases res with
    | ok r =>
      simp only [BlockResult.next.injEq] at h
      rw [← h.2]
      refine ⟨hp.1, hp.2.1, fun e he => ?_⟩
      rcases List.mem_append.mp he with he | he
      · exact hp.2.2 e he
      · rw [List.mem_singleton] at he
        rw [he]
        exact hk r rfl
    | error => simp at h
    | out_of_fuel => simp at h
  · simp only [BlockResult.next.injEq] at h
    rw [← h.2]
    exact hp
  · simp only [BlockResult.next.injEq] at h
    rw [← h.2]
    exact hp

theorem parse_top_level_counts (atoi : List Char → Int) (n : Nat) (s : Tokenizer)
    (project project1 : LightPathProject)
    (h : parse_top_level atoi n s project = .ok project1)
    (hp : project.build_func.command_count ≤ MAX_COMMANDS ∧
      project.main_func.command_count ≤ MAX_COMMANDS ∧
      ∀ e ∈ project.custom, e.2.command_count ≤ MAX_COMMANDS) :
    project1.build_func.command_count ≤ MAX_COMMANDS ∧
    project1.main_func.command_count ≤ MAX_COMMANDS ∧
    ∀ e ∈ project1.custom, e.2.command_count ≤ MAX_COMMANDS := by
  induction n generalizing s project with
  | zero => simp [parse_top_level] at h
  | succ n ih =>
    rw [parse_top_level_succ] at h
    have hk := fun s1 p1 => parse_block_counts atoi n s s1 project p1
    generalize parse_block atoi n s project = res at h hk
    cases res with
    | exit =>
      simp only [ParseResult.ok.injEq] at h
      subst h
      exact hp
    | fail => simp at h
    | out_of_fuel => simp at h
    | next s1 p1 => exact ih s1 p1 h (hk s1 p1 rfl hp)

/-! ## Theorems: more than one argument -/

/-- C17, as stated, fails: with two arguments after the program name, `main` exits
with code 1, not 0, when `build.path` is missing and when it does not parse. -/
theorem C17_exit_code_depends_on_descriptor :
    (main empty_directory_os atoi_decimal
      ["lightpath".toList, "a".toList, "b".toList] ⟨(), []⟩).1 = 1 ∧
    (main (scripted_os "oops".toList (fun _ => 0)) atoi_decimal
      ["lightpath".toList, "a".toList, "b".toList] ⟨(), []⟩).1 = 1 := by
  decide!

/-- C17, amended: with more than one argument after the program name, `main`
executes no command (the run is as it was).  If `build.path` exists and parses,
`main` prints the usage notice and exits with code 0; if `build.path` is missing, or
if it does not parse, `main` exits with code 1 and what it prints is that
diagnostic, not the usage notice. -/
theorem C17_usage_after_parse {W : Type} (os : OS W) (atoi : List Char → Int)
    (argv : List (List Char)) (r : Run W) (h : 2 < argv.length) :
    (main os atoi argv r).2 = r ∧
    (∀ project, os.file_exists "build.path".toList r.world = true →
      parse_build_file os atoi "build.path".toList r.world = .ok project →
        main os atoi argv r = (0, r) ∧ main_output os atoi argv r = [show_usage]) ∧
    (os.file_exists "build.path".toList r.world = false →
      main os atoi argv r = (1, r) ∧
      main_output os atoi argv r =
        ["The file build.path is not on the directory, Error!\n".toList]) ∧
    (os.file_exists "build.path".toList r.world = true →
      parse_build_file os atoi "build.path".toList r.world = .error →
        main os atoi argv r = (1, r) ∧
        main_output os atoi argv r = ["Parse build.path failed, Error!\n".toList]) := by
  have h1 : ¬ argv.length = 1 := by omega
  have h2 : ¬ argv.length = 2 := by omega
  refine ⟨?_, fun project hf hp => ?_, fun hf => ?_, fun hf hp => ?_⟩
  · unfold main
    cases hf : os.file_exists "build.path".toList r.world
    · rfl
    · simp only [Bool.not_true, Bool.false_eq_true, if_false]
      cases hp : parse_build_file os atoi "build.path".toList r.world with
      | ok project => simp only [if_neg h1, if_neg h2]
      | error => rfl
      | out_of_fuel => rfl
  · unfold main main_output
    rw [hf, hp]
    simp only [Bool.not_true, Bool.false_eq_true, if_false, if_neg h1, if_neg h2]
    exact ⟨trivial, trivial⟩
  · unfold main main_output
    rw [hf]
    exact ⟨rfl, rfl⟩
  · unfold main main_output
    rw [hf, hp]
    exact ⟨rfl, rfl⟩

theorem C17_usage_after_parse_witness :
    main (scripted_os "main \x7b \x7d".toList (fun _ => 0)) atoi_decimal
      ["lightpath".toList, "a".toList, "b".toList] ⟨(), []⟩ = (0, ⟨(), []⟩) :=
  ((C17_usage_after_parse (scripted_os "main \x7b \x7d".toList (fun _ => 0)) atoi_decimal
    ["lightpath".toList, "a".toList, "b".toList] ⟨(), []⟩ (by decide)).2.1
    { init_project with main_func := init_function_block } rfl (by decide!)).1

/-! ## Theorems: the texts of the tokens -/

theorem filter_dropWhile_space (r : List Char) :
    (r.dropWhile is_space).filter (fun c => !is_space c) =
      r.filter (fun c => !is_space c) := by
  induction r with
  | nil => rfl
  | cons c t ih =>
    by_cases hc : is_space c
    · simp [List.dropWhile_cons, List.filter_cons, hc, ih]
    · simp [List.dropWhile_cons, hc]

theorem dropWhile_space_head (r : List Char) (c : Char) (t : List Char)
    (h : r.dropWhile is_space = c :: t) : is_space c = false := by
  induction r with
  | nil => simp at h
  | cons d u ih =>
    by_cases hd : is_space d
    · rw [List.dropWhile_cons, if_pos hd] at h
      exact ih h
    · rw [List.dropWhile_cons, if_neg hd] at h
      simp only [List.cons.injEq] at h
      rw [← h.1]
      simpa using hd

theorem skip_text_plain (r : List Char) (h : ∀ c ∈ r, c ≠ '/') :
    skip_text r = r.dropWhile is_space := by
  unfold skip_text
  dsimp only
  have hs : starts_comment (r.dropWhile is_space) = false := by
    cases hd : r.dropWhile is_space with
    | nil => rfl
    | cons c t =>
      have hc : c ≠ '/' :=
        h c ((List.dropWhile_suffix _).subset (by rw [hd]; exact List.mem_cons_self _ _))
      cases t with
      | nil => rfl
      | cons d u => simp [starts_comment, hc]
  rw [hs]
  simp only [Bool.false_eq_true, if_false]
  cases hd : r.dropWhile is_space with
  | nil => rfl
  | cons c t =>
    rw [List.dropWhile_cons, if_neg (by simp [dropWhile_space_head r c t hd])]

/-- On a text without NUL, `"` and `/`, the characters of the text that are not
white space are the text of the next token followed by the characters that are not
white space of what the token leaves unread; an end-of-input token has no text and
leaves nothing. -/
theorem scan_texts (r : List Char) (h : ∀ c ∈ r, c ≠ NUL ∧ c ≠ DQUOTE ∧ c ≠ '/') :
    r.filter (fun c => !is_space c) =
      (scan r).2.1 ++ (scan r).2.2.filter (fun c => !is_space c) ∧
    ((scan r).1 = TOKEN_EOF → (scan r).2.1 = [] ∧ (scan r).2.2 = []) := by
  have hskip := skip_text_plain r (fun c hc => (h c hc).2.2)
  have hfil := filter_dropWhile_space r
  unfold scan
  rw [hskip]
  cases hd : r.dropWhile is_space with
  | nil =>
    rw [hd] at hfil
    simp [← hfil]
  | cons c t =>
    rw [hd] at hfil
    have hmem : c ∈ r := (List.dropWhile_suffix _).subset (by rw [hd]; exact List.mem_cons_self _ _)
    have hsp : is_space c = false := dropWhile_space_head r c t hd
    obtain ⟨h0, h4, -⟩ := h c hmem
    have hfc : (c :: t).filter (fun c => !is_space c) =
        c :: t.filter (fun c => !is_space c) := by
      rw [List.filter_cons, if_pos (by simp [hsp])]
    dsimp only
    simp only [if_neg h0]
    by_cases h1 : c = '{'
    · simp only [if_pos h1]
      rw [← hfil, hfc, h1]
      simp
    simp only [if_neg h1]
    by_cases h2 : c = '}'
    · simp only [if_pos h2]
      rw [← hfil, hfc, h2]
      simp
    simp only [if_neg h2]
    by_cases h3 : c = '='
    · simp only [if_pos h3]
      rw [← hfil, hfc, h3]
      simp
    simp only [if_neg h3, if_neg h4]
    by_cases h5 : is_ident_start c
    · simp only [h5, if_true]
      refine ⟨?_, by simp⟩
      rw [← hfil]
      have hv : ∀ d ∈ List.take (MAX_TOKEN_LENGTH - 1) (List.takeWhile is_ident_char (c :: t)),
          (!is_space d) = true := by
        intro d hd
        have hid := List.mem_takeWhile_imp (List.mem_of_mem_take hd)
        cases hs : is_space d with
        | false => rfl
        | true => rw [space_not_ident_char d hs] at hid; simp at hid
      conv_lhs => rw [← List.take_append_drop
        (List.take (MAX_TOKEN_LENGTH - 1) (List.takeWhile is_ident_char (c :: t))).length
        (c :: t)]
      rw [List.filter_append]
      congr 1
      have hpre : List.take (MAX_TOKEN_LENGTH - 1) (List.takeWhile is_ident_char (c :: t))
          <+: c :: t := (List.take_prefix _ _).trans (List.takeWhile_prefix _)
      rw [List.prefix_iff_eq_take.mp hpre] at hv
      rw [List.filter_eq_self.mpr hv]
      exact (List.prefix_iff_eq_take.mp hpre).symm
    · simp only [h5, Bool.false_eq_true, if_false]
      rw [← hfil, hfc]
      simp

theorem token_stream_texts (n : Nat) (s : Tokenizer) (hn : s.rest.length < n)
    (h : ∀ c ∈ s.rest, c ≠ NUL ∧ c ≠ DQUOTE ∧ c ≠ '/') :
    ((token_stream n s).map Prod.snd).flatten = s.rest.filter (fun c => !is_space c) := by
  induction n generalizing s with
  | zero => omega
  | succ n ih =>
    obtain ⟨e1, e2, e3⟩ := next_token_scan s
    obtain ⟨hf, he⟩ := scan_texts s.rest h
    have hlt := next_token_rest_lt s
    unfold token_stream
    by_cases heof : (next_token s).1.type = TOKEN_EOF
    · rw [if_pos heof]
      rw [e1] at heof
      obtain ⟨hv, hu⟩ := he heof
      rw [hf, hu, e2, hv]
      rfl
    · rw [if_neg heof, List.map_cons, List.flatten_cons]
      have hsub : ∀ c ∈ (next_token s).2.rest, c ≠ NUL ∧ c ≠ DQUOTE ∧ c ≠ '/' := by
        intro c hc
        rw [e3] at hc
        exact h c ((scan_suffix s.rest).1.subset hc)
      rw [ih (next_token s).2 (by have := hlt heof; omega) hsub, hf, e2, e3]

/-- C18, as stated, fails on a text that holds a NUL: the tokenizer copies the text
up to its first NUL, so the tokens of `a`, NUL, `b` are the identifier `a` and
end-of-input, and the `b` is lost. -/
theorem C18_text_after_nul_is_lost :
    ((scan_text ['a', NUL, 'b']).map Prod.snd).flatten = ['a'] ∧
    ['a', NUL, 'b'].filter (fun c => !is_space c) = ['a', NUL, 'b'] ∧
    (∀ c ∈ ['a', NUL, 'b'], c ≠ DQUOTE ∧ c ≠ '/') := by
  decide!

/-- C18, amended: for every descriptor text that holds no NUL, no `"` and no `/`,
the texts of the tokens that successive calls of `next_token` return, up to the
end-of-input token, concatenated in order, are the text without its white space
characters (space, tab, CR, LF). -/
theorem C18_token_texts_rebuild_source (text : List Char)
    (h : ∀ c ∈ text, c ≠ NUL ∧ c ≠ DQUOTE ∧ c ≠ '/') :
    ((scan_text text).map Prod.snd).flatten = text.filter (fun c => !is_space c) := by
  have hr : (init_tokenizer text).rest = text := by
    rw [init_tokenizer_rest, List.takeWhile_eq_self_iff]
    intro c hc
    simpa using (h c hc).1
  unfold scan_text
  rw [token_stream_texts _ _ (by rw [hr]; omega) (by rw [hr]; exact h), hr]

theorem C18_token_texts_rebuild_source_witness :
    ((scan_text (List.replicate 300 'a' ++ " = \x7b b1\t\n".toList)).map Prod.snd).flatten =
      (List.replicate 300 'a' ++ " = \x7b b1\t\n".toList).filter (fun c => !is_space c) :=
  C18_token_texts_rebuild_source (List.replicate 300 'a' ++ " = \x7b b1\t\n".toList)
    (by
      intro c hc
      rcases List.mem_append.mp hc with h | h
      · rw [List.eq_of_mem_replicate h]
        decide
      · clear hc
        revert h
        revert c
        decide)

/-! ## Theorems: where the parse fails and where it ends -/

theorem at_statement_iff (atoi : List Char → Int) (text func_name : List Char)
    (x : BodyState) :
    at_statement atoi text func_name x ↔
      ∃ project, at_body_statement atoi text project func_name x := by
  unfold at_statement at_body_statement reaches_statement at_top_level
  constructor
  · rintro ⟨s, project, block, h⟩
    exact ⟨project, s, block, h⟩
  · rintro ⟨project, s, block, h⟩
    exact ⟨s, project, block, h⟩

/-- A turn of the outer loop that enters a body and whose inner loop ends puts the
block in its place and goes on after the body. -/
theorem parse_block_enters (atoi : List Char → Int) (n : Nat) (s : Tokenizer)
    (project : LightPathProject) (func_name : List Char) (block : FunctionBlock)
    (hid : (next_token s).1.type = TOKEN_IDENTIFIER)
    (hval : (next_token s).1.value = func_name)
    (hlb : (next_token (next_token s).2).1.type = TOKEN_LBRACE)
    (hent : entered_block project func_name = some block) :
    parse_block atoi n s project =
      match parse_block_body atoi func_name n (next_token (next_token s).2).2 block 1
          "application".toList with
      | .ok r => .next r.1 (store_block project func_name r.2)
      | .error => .fail
      | .out_of_fuel => .out_of_fuel := by
  unfold parse_block
  dsimp only
  rw [if_neg (by rw [hid]; decide), if_pos hid, if_neg (by simp [hlb]), hval]
  unfold entered_block at hent
  unfold store_block
  split_ifs at hent ⊢ with h1 h2 h3
  all_goals
    simp only [Option.some.injEq] at hent
    subst hent
    rfl

theorem parse_block_at_eof (atoi : List Char → Int) (n : Nat) (s : Tokenizer)
    (project : LightPathProject) (h : (next_token s).1.type = TOKEN_EOF) :
    parse_block atoi n s project = .exit := by
  unfold parse_block
  dsimp only
  rw [if_pos h]

/-- A turn of the inner loop that goes on leaves the block marked exactly if it was
marked or the token read at the statement position is the identifier `build`. -/
theorem parse_statement_marker (atoi : List Char → Int) (func_name : List Char)
    (s : Tokenizer) (block : FunctionBlock) (v : Int) (m : List Char) (s1 : Tokenizer)
    (block1 : FunctionBlock) (v1 : Int) (m1 : List Char)
    (h : parse_statement atoi func_name s block v m = .next s1 block1 v1 m1) :
    block1.has_build = true ↔
      block.has_build = true ∨
      ((next_token s).1.type = TOKEN_IDENTIFIER ∧
        (next_token s).1.value = "build".toList) := by
  have k1 : "command".toList ≠ "build".toList := by decide
  have k2 : "build_version".toList ≠ "build".toList := by decide
  have k3 : "path_mode".toList ≠ "build".toList := by decide
  unfold parse_statement at h
  dsimp only at h
  generalize next_token s = t1 at h ⊢
  generalize next_token t1.2 = t2 at h
  generalize next_token t2.2 = t3 at h
  have keep : ∀ b : FunctionBlock, b.has_build = block.has_build →
      ¬ (t1.1.type = TOKEN_IDENTIFIER ∧ t1.1.value = "build".toList) →
      (b.has_build = true ↔ block.has_build = true ∨
        (t1.1.type = TOKEN_IDENTIFIER ∧ t1.1.value = "build".toList)) := by
    intro b hb hn
    rw [hb]
    tauto
  by_cases c1 : t1.1.type = TOKEN_RBRACE ∨ t1.1.type = TOKEN_EOF
  · simp only [if_pos c1] at h
    simp at h
  simp only [if_neg c1] at h
  by_cases c2 : t1.1.type = TOKEN_IDENTIFIER
  swap
  · simp only [if_neg c2, StatementResult.next.injEq] at h
    obtain ⟨-, rfl, -, -⟩ := h
    exact keep _ rfl (fun hm => c2 hm.1)
  simp only [if_pos c2] at h
  by_cases c3 : t1.1.value = "command".toList
  · have hn : ¬ (t1.1.type = TOKEN_IDENTIFIER ∧ t1.1.value = "build".toList) :=
      fun hm => k1 (c3.symm.trans hm.2)
    simp only [if_pos c3] at h
    by_cases c4 : t2.1.type = TOKEN_STRING
    · simp only [if_pos c4, StatementResult.next.injEq] at h
      obtain ⟨-, rfl, -, -⟩ := h
      refine keep _ ?_ hn
      unfold add_command_with_context
      split <;> rfl
    · simp only [if_neg c4, StatementResult.next.injEq] at h
      obtain ⟨-, rfl, -, -⟩ := h
      exact keep _ rfl hn
  simp only [if_neg c3] at h
  by_cases c5 : t1.1.value = "build_version".toList
  · have hn : ¬ (t1.1.type = TOKEN_IDENTIFIER ∧ t1.1.value = "build".toList) :=
      fun hm => k2 (c5.symm.trans hm.2)
    simp only [if_pos c5] at h
    by_cases c6 : t2.1.type = TOKEN_EQUALS
    swap
    · simp only [if_neg c6, StatementResult.next.injEq] at h
      obtain ⟨-, rfl, -, -⟩ := h
      exact keep _ rfl hn
    simp only [if_pos c6] at h
    by_cases c7 : t3.1.type = TOKEN_STRING
    swap
    · simp only [if_neg c7, StatementResult.next.injEq] at h
      obtain ⟨-, rfl, -, -⟩ := h
      exact keep _ rfl hn
    simp only [if_pos c7] at h
    by_cases c8 : func_name = "build".toList
    · simp only [if_pos c8] at h
      by_cases c9 : LIGHTPATH_VERSION < atoi t3.1.value
      · simp only [if_pos c9] at h
        simp at h
      · simp only [if_neg c9, StatementResult.next.injEq] at h
        obtain ⟨-, rfl, -, -⟩ := h
        exact keep _ rfl hn
    · simp only [if_neg c8, StatementResult.next.injEq] at h
      obtain ⟨-, rfl, -, -⟩ := h
      exact keep _ rfl hn
  simp only [if_neg c5] at h
  by_cases c10 : t1.1.value = "path_mode".toList
  · have hn : ¬ (t1.1.type = TOKEN_IDENTIFIER ∧ t1.1.value = "build".toList) :=
      fun hm => k3 (c10.symm.trans hm.2)
    simp only [if_pos c10] at h
    by_cases c6 : t2.1.type = TOKEN_EQUALS
    swap
    · simp only [if_neg c6, StatementResult.next.injEq] at h
      obtain ⟨-, rfl, -, -⟩ := h
      exact keep _ rfl hn
    simp only [if_pos c6] at h
    by_cases c7 : t3.1.type = TOKEN_STRING
    · simp only [if_pos c7, StatementResult.next.injEq] at h
      obtain ⟨-, rfl, -, -⟩ := h
      exact keep _ rfl hn
    · simp only [if_neg c7, StatementResult.next.injEq] at h
      obtain ⟨-, rfl, -, -⟩ := h
      exact keep _ rfl hn
  simp only [if_neg c10] at h
  by_cases c11 : t1.1.value = "build".toList
  · simp only [if_pos c11, StatementResult.next.injEq] at h
    obtain ⟨-, rfl, -, -⟩ := h
    exact ⟨fun _ => Or.inr ⟨c2, c11⟩, fun _ => rfl⟩
  · simp only [if_neg c11, StatementResult.next.injEq] at h
    obtain ⟨-, rfl, -, -⟩ := h
    exact keep _ rfl (fun hm => c11 hm.2)

theorem parse_statement_exit_token (atoi : List Char → Int) (func_name : List Char)
    (s : Tokenizer) (block : FunctionBlock) (v : Int) (m : List Char) (s1 : Tokenizer)
    (h : parse_statement atoi func_name s block v m = .exit s1) :
    (next_token s).1.type = TOKEN_RBRACE ∨ (next_token s).1.type = TOKEN_EOF := by
  unfold parse_statement at h
  dsimp only at h
  generalize next_token s = t1 at h ⊢
  generalize next_token t1.2 = t2 at h
  generalize next_token t2.2 = t3 at h
  split_ifs at h with c1
  exact c1

theorem body_step_unique (atoi : List Char → Int) (func_name : List Char) (x y z : BodyState)
    (hy : body_step atoi func_name x y) (hz : body_step atoi func_name x z) : y = z := by
  unfold body_step at hy hz
  rw [hy] at hz
  simp only [StatementResult.next.injEq] at hz
  obtain ⟨ys, yb, yv, ym⟩ := y
  obtain ⟨zs, zb, zv, zm⟩ := z
  simp only at hz
  simp only [BodyState.mk.injEq]
  exact hz

/-- The block that the inner loop returns is marked exactly if the block was marked
when the loop began or the loop came to a statement position where the token read
is the identifier `build`. -/
theorem parse_block_body_marker (atoi : List Char → Int) (func_name : List Char) (n : Nat)
    (x : BodyState) (r : Tokenizer × FunctionBlock)
    (h : parse_block_body atoi func_name n x.s x.block x.current_build_version
      x.current_path_mode = .ok r) :
    r.2.has_build = true ↔
      x.block.has_build = true ∨ ∃ y, body_reaches atoi func_name x y ∧ marker_at y := by
  induction n generalizing x with
  | zero => simp [parse_block_body] at h
  | succ n ih =>
    rw [parse_block_body_succ] at h
    cases hst : parse_statement atoi func_name x.s x.block x.current_build_version
        x.current_path_mode with
    | fail => rw [hst] at h; simp at h
    | exit s1 =>
      rw [hst] at h
      simp only [ParseResult.ok.injEq] at h
      subst h
      have htok := parse_statement_exit_token _ _ _ _ _ _ _ hst
      constructor
      · exact Or.inl
      · rintro (hb | ⟨y, hy, hm⟩)
        · exact hb
        · rcases Relation.ReflTransGen.cases_head hy with rfl | ⟨z, hz, -⟩
          · exfalso
            rcases htok with e | e <;> rw [hm.1] at e <;> exact absurd e (by decide)
          · unfold body_step at hz
            rw [hst] at hz
            simp at hz
    | next s1 b1 v1 m1 =>
      rw [hst] at h
      have hrec := ih ⟨s1, b1, v1, m1⟩ h
      have hmark := parse_statement_marker _ _ _ _ _ _ _ _ _ _ hst
      have hstep : body_step atoi func_name x ⟨s1, b1, v1, m1⟩ := hst
      rw [hrec]
      dsimp only
      rw [hmark]
      constructor
      · rintro ((hb | hm) | ⟨y, hy, hm⟩)
        · exact Or.inl hb
        · exact Or.inr ⟨x, Relation.ReflTransGen.refl, hm⟩
        · exact Or.inr ⟨y, Relation.ReflTransGen.head hstep hy, hm⟩
      · rintro (hb | ⟨y, hy, hm⟩)
        · exact Or.inl (Or.inl hb)
        · rcases Relation.ReflTransGen.cases_head hy with rfl | ⟨z, hz, hzy⟩
          · exact Or.inl (Or.inr hm)
          · rw [body_step_unique atoi func_name x z _ hz hstep] at hzy
            exact Or.inr ⟨y, hzy, hm⟩

theorem slot_marker_store (project : LightPathProject) (func_name : List Char)
    (block : FunctionBlock) (slot : BlockSlot) :
    slot_marker (store_block project func_name block) slot =
      if slot_of project func_name = slot then block.has_build
      else slot_marker project slot := by
  unfold store_block slot_of
  by_cases h1 : func_name = "build".toList
  · simp only [if_pos h1]
    cases slot <;> simp [slot_marker, slot_block]
  simp only [if_neg h1]
  by_cases h2 : func_name = "main".toList
  · simp only [if_pos h2]
    cases slot <;> simp [slot_marker, slot_block]
  simp only [if_neg h2]
  cases slot with
  | build => simp [slot_marker, slot_block]
  | main => simp [slot_marker, slot_block]
  | custom j =>
    unfold LightPathProject.custom_func_count
    by_cases hj : project.custom.length = j
    · subst hj
      simp [slot_marker, slot_block]
    · have hne : BlockSlot.custom project.custom.length ≠ BlockSlot.custom j := by
        simpa using hj
      rw [if_neg hne]
      unfold slot_marker slot_block
      dsimp only
      rcases Nat.lt_or_gt_of_ne hj with hlt | hgt
      · rw [List.get?_eq_none.mpr (by simp; omega), List.get?_eq_none.mpr (by omega)]
      · rw [List.get?_eq_getElem?, List.get?_eq_getElem?, List.getElem?_append_left hgt]

theorem slot_marker_entered (project : LightPathProject) (func_name : List Char)
    (block : FunctionBlock) (h : entered_block project func_name = some block) :
    slot_marker project (slot_of project func_name) = block.has_build := by
  unfold entered_block at h
  unfold slot_of
  split_ifs at h ⊢ with h1 h2 h3
  all_goals
    simp only [Option.some.injEq] at h
    subst h
  · rfl
  · rfl
  · unfold slot_marker slot_block LightPathProject.custom_func_count
    dsimp only
    rw [List.get?_eq_none.mpr (le_refl _)]
    rfl

theorem top_step_unique (atoi : List Char → Int) (x y z : Tokenizer × LightPathProject)
    (hy : top_step atoi x y) (hz : top_step atoi x z) : y = z := by
  obtain ⟨n1, h1⟩ := hy
  obtain ⟨n2, h2⟩ := hz
  have e : parse_block atoi n1 x.1 x.2 = parse_block atoi n2 x.1 x.2 := by
    rcases Nat.le_total n1 n2 with hle | hle
    · exact (parse_block_mono atoi n1 n2 x.1 x.2 hle (by rw [h1]; simp)).symm
    · exact parse_block_mono atoi n2 n1 x.1 x.2 hle (by rw [h2]; simp)
  rw [h1, h2] at e
  simp only [BlockResult.next.injEq] at e
  exact Prod.ext e.1 e.2

/-- The markers after a turn of the outer loop: a place is marked exactly if it was
marked or the turn parsed into it a body in which the inner loop came to a
statement position where the token read is the identifier `build`. -/
theorem parse_block_marker (atoi : List Char → Int) (n : Nat) (s s1 : Tokenizer)
    (project project1 : LightPathProject)
    (h : parse_block atoi n s project = .next s1 project1) (slot : BlockSlot) :
    slot_marker project1 slot = true ↔
      slot_marker project slot = true ∨
      ∃ block x,
        (next_token s).1.type = TOKEN_IDENTIFIER ∧
        (next_token (next_token s).2).1.type = TOKEN_LBRACE ∧
        entered_block project (next_token s).1.value = some block ∧
        body_reaches atoi (next_token s).1.value
          ⟨(next_token (next_token s).2).2, block, 1, "application".toList⟩ x ∧
        slot_of project (next_token s).1.value = slot ∧ marker_at x := by
  by_cases hid : (next_token s).1.type = TOKEN_IDENTIFIER
  swap
  · unfold parse_block at h
    dsimp only at h
    rw [if_neg hid] at h
    split_ifs at h
    simp only [BlockResult.next.injEq] at h
    rw [← h.2]
    exact ⟨Or.inl, fun hh => hh.elim id (fun ⟨_, _, e, _⟩ => absurd e hid)⟩
  by_cases hlb : (next_token (next_token s).2).1.type = TOKEN_LBRACE
  swap
  · unfold parse_block at h
    dsimp only at h
    rw [if_neg (by rw [hid]; decide), if_pos hid, if_pos hlb] at h
    simp at h
  cases hent : entered_block project (next_token s).1.value with
  | none =>
    have hp : project1 = project := by
      unfold entered_block at hent
      unfold parse_block at h
      dsimp only at h
      rw [if_neg (by rw [hid]; decide), if_pos hid, if_neg (by simp [hlb])] at h
      split_ifs at hent h
      simp only [BlockResult.next.injEq] at h
      exact h.2.symm
    rw [hp]
    exact ⟨Or.inl, fun hh => hh.elim id (fun ⟨_, _, _, _, e, _⟩ => by simp at e)⟩
  | some block =>
    rw [parse_block_enters atoi n s project _ block hid rfl hlb hent] at h
    cases hbody : parse_block_body atoi (next_token s).1.value n
        (next_token (next_token s).2).2 block 1 "application".toList with
    | error => rw [hbody] at h; simp at h
    | out_of_fuel => rw [hbody] at h; simp at h
    | ok r =>
      rw [hbody] at h
      simp only [BlockResult.next.injEq] at h
      have hm := parse_block_body_marker atoi _ n
        ⟨(next_token (next_token s).2).2, block, 1, "application".toList⟩ r hbody
      dsimp only at hm
      rw [← h.2, slot_marker_store]
      by_cases hslot : slot_of project (next_token s).1.value = slot
      · have he := slot_marker_entered project _ block hent
        rw [hslot] at he
        rw [if_pos hslot, hm, he]
        constructor
        · rintro (hb | ⟨y, hy, hmk⟩)
          · exact Or.inl hb
          · exact Or.inr ⟨block, y, hid, hlb, rfl, hy, hslot, hmk⟩
        · rintro (hb | ⟨b, y, -, -, hb, hy, -, hmk⟩)
          · exact Or.inl hb
          · simp only [Option.some.injEq] at hb
            subst hb
            exact Or.inr ⟨y, hy, hmk⟩
      · rw [if_neg hslot]
        exact ⟨Or.inl, fun hh => hh.elim id
          (fun ⟨_, _, _, _, _, _, e, _⟩ => absurd e hslot)⟩

/-- The markers at the end of the parse, from any head of a turn of the outer
loop. -/
theorem parse_top_level_marker (atoi : List Char → Int) (n : Nat) (s : Tokenizer)
    (project project1 : LightPathProject)
    (h : parse_top_level atoi n s project = .ok project1) (slot : BlockSlot) :
    slot_marker project1 slot = true ↔
      slot_marker project slot = true ∨
      ∃ entered func_name x,
        reaches_statement atoi (s, project) entered func_name x ∧
        slot_of entered func_name = slot ∧ marker_at x := by
  induction n generalizing s project with
  | zero => simp [parse_top_level] at h
  | succ n ih =>
    rw [parse_top_level_succ] at h
    cases hb : parse_block atoi n s project with
    | fail => rw [hb] at h; simp at h
    | out_of_fuel => rw [hb] at h; simp at h
    | exit =>
      rw [hb] at h
      simp only [ParseResult.ok.injEq] at h
      subst h
      have heof : (next_token s).1.type = TOKEN_EOF := by
        by_contra hne
        unfold parse_block at hb
        dsimp only at hb
        rw [if_neg hne] at hb
        split_ifs at hb
        all_goals
          revert hb
          split <;> simp
      constructor
      · exact Or.inl
      · rintro (hm | ⟨entered, func_name, x, ⟨s0, block, hr, hid, -⟩, -, -⟩)
        · exact hm
        · exfalso
          rcases Relation.ReflTransGen.cases_head hr with e | ⟨z, ⟨k, hz⟩, -⟩
          · simp only [Prod.mk.injEq] at e
            rw [← e.1, heof] at hid
            exact absurd hid (by decide)
          · rw [parse_block_at_eof atoi k s project heof] at hz
            simp at hz
    | next s1 p1 =>
      rw [hb] at h
      have hrec := ih s1 p1 h
      have hturn := parse_block_marker atoi n s s1 project p1 hb slot
      have hstep : top_step atoi (s, project) (s1, p1) := ⟨n, hb⟩
      rw [hrec, hturn]
      constructor
      · rintro ((hm | ⟨block, x, hid, hlb, hent, hy, hslot, hmk⟩) |
          ⟨entered, func_name, x, ⟨s0, block, hr, hrest⟩, hslot, hmk⟩)
        · exact Or.inl hm
        · exact Or.inr ⟨project, _, x,
            ⟨s, block, Relation.ReflTransGen.refl, hid, rfl, hlb, hent, hy⟩, hslot, hmk⟩
        · exact Or.inr ⟨entered, func_name, x,
            ⟨s0, block, Relation.ReflTransGen.head hstep hr, hrest⟩, hslot, hmk⟩
      · rintro (hm | ⟨entered, func_name, x,
          ⟨s0, block, hr, hid, hval, hlb, hent, hy⟩, hslot, hmk⟩)
        · exact Or.inl (Or.inl hm)
        · rcases Relation.ReflTransGen.cases_head hr with e | ⟨z, hz, hzr⟩
          · simp only [Prod.mk.injEq] at e
            obtain ⟨rfl, rfl⟩ := e
            subst hval
            exact Or.inl (Or.inr ⟨block, x, hid, hlb, hent, hy, hslot, hmk⟩)
          · rw [top_step_unique atoi _ z _ hz hstep] at hzr
            exact Or.inr ⟨entered, func_name, x,
              ⟨s0, block, hzr, hid, hval, hlb, hent, hy⟩, hslot, hmk⟩

/-! ## Theorems: a block entered again -/

theorem add_command_fields (block : FunctionBlock) (command : List Char) (v : Int)
    (m : List Char) :
    (add_command_with_context block command v m).final_build_version =
      block.final_build_version ∧
    (add_command_with_context block command v m).final_path_mode = block.final_path_mode ∧
    (add_command_with_context block command v m).has_build = block.has_build ∧
    (add_command_with_context block command v m).required_lightpath_version =
      block.required_lightpath_version := by
  unfold add_command_with_context
  split_ifs <;> exact ⟨rfl, rfl, rfl, rfl⟩

/-- The fields of the block after a turn of the inner loop, by the statement that
`read_statement` reads. -/
theorem parse_statement_fields (atoi : List Char → Int) (func_name : List Char)
    (s : Tokenizer) (block : FunctionBlock) (v : Int) (m : List Char) :
    match read_statement s with
    | none => True
    | some r =>
      parse_statement atoi func_name s block v m = .fail ∨
      ∃ block1,
        parse_statement atoi func_name s block v m =
          .next r.2 block1
            (match r.1 with
             | .build_version text => atoi text
             | _ => v)
            (match r.1 with
             | .path_mode text => text
             | _ => m) ∧
        block1.final_build_version =
          (match r.1 with
           | .build_version text => atoi text
           | _ => block.final_build_version) ∧
        block1.final_path_mode =
          (match r.1 with
           | .path_mode text => text
           | _ => block.final_path_mode) ∧
        block1.has_build = (block.has_build || r.1 == Statement.marker) ∧
        block1.required_lightpath_version =
          (match r.1 with
           | .build_version text =>
             if func_name = "build".toList then atoi text
             else block.required_lightpath_version
           | _ => block.required_lightpath_version) := by
  unfold read_statement parse_statement
  dsimp only
  generalize next_token s = t1
  generalize next_token t1.2 = t2
  generalize next_token t2.2 = t3
  have hb : ∀ b : Bool, b = (b || false) := fun b => by simp
  by_cases c1 : t1.1.type = TOKEN_RBRACE ∨ t1.1.type = TOKEN_EOF
  · simp only [if_pos c1]
  simp only [if_neg c1]
  by_cases c2 : t1.1.type = TOKEN_IDENTIFIER
  swap
  · simp only [if_neg c2]
    exact Or.inr ⟨_, rfl, rfl, rfl, hb _, rfl⟩
  simp only [if_pos c2]
  by_cases c3 : t1.1.value = "command".toList
  · simp only [if_pos c3]
    by_cases c4 : t2.1.type = TOKEN_STRING
    · simp only [if_pos c4]
      have hf := add_command_fields block t2.1.value v m
      exact Or.inr ⟨_, rfl, hf.1, hf.2.1, hf.2.2.1.trans (hb _), hf.2.2.2⟩
    · simp only [if_neg c4]
      exact Or.inr ⟨_, rfl, rfl, rfl, hb _, rfl⟩
  simp only [if_neg c3]
  by_cases c5 : t1.1.value = "build_version".toList
  · simp only [if_pos c5]
    by_cases c6 : t2.1.type = TOKEN_EQUALS
    swap
    · simp only [if_neg c6]
      exact Or.inr ⟨_, rfl, rfl, rfl, hb _, rfl⟩
    simp only [if_pos c6]
    by_cases c7 : t3.1.type = TOKEN_STRING
    swap
    · simp only [if_neg c7]
      exact Or.inr ⟨_, rfl, rfl, rfl, hb _, rfl⟩
    simp only [if_pos c7]
    by_cases c8 : func_name = "build".toList
    · simp only [if_pos c8]
      by_cases c9 : LIGHTPATH_VERSION < atoi t3.1.value
      · simp only [if_pos c9]
        exact Or.inl trivial
      · simp only [if_neg c9]
        exact Or.inr ⟨_, rfl, rfl, rfl, hb _, rfl⟩
    · simp only [if_neg c8]
      exact Or.inr ⟨_, rfl, rfl, rfl, hb _, rfl⟩
  simp only [if_neg c5]
  by_cases c10 : t1.1.value = "path_mode".toList
  · simp only [if_pos c10]
    by_cases c6 : t2.1.type = TOKEN_EQUALS
    swap
    · simp only [if_neg c6]
      exact Or.inr ⟨_, rfl, rfl, rfl, hb _, rfl⟩
    simp only [if_pos c6]
    by_cases c7 : t3.1.type = TOKEN_STRING
    · simp only [if_pos c7]
      exact Or.inr ⟨_, rfl, rfl, rfl, hb _, rfl⟩
    · simp only [if_neg c7]
      exact Or.inr ⟨_, rfl, rfl, rfl, hb _, rfl⟩
  simp only [if_neg c10]
  by_cases c11 : t1.1.value = "build".toList
  · simp only [if_pos c11]
    exact Or.inr ⟨_, rfl, rfl, rfl, by simp, rfl⟩
  · simp only [if_neg c11]
    exact Or.inr ⟨_, rfl, rfl, rfl, hb _, rfl⟩

theorem marker_after_cons (before : Bool) (st : Statement) (rest : List Statement) :
    marker_after before (st :: rest) = marker_after (before || st == Statement.marker) rest := by
  unfold marker_after
  have e : (Statement.marker == st) = (st == Statement.marker) := by cases st <;> rfl
  rw [List.contains_cons, e, Bool.or_assoc]

/-- The fields of the block when the inner loop ends, by the statements of the
body. -/
theorem body_fields (atoi : List Char → Int) (func_name : List Char) (n : Nat)
    (s : Tokenizer) (block : FunctionBlock) (v : Int) (m : List Char)
    (r : Tokenizer × FunctionBlock)
    (h : parse_block_body atoi func_name n s block v m = .ok r) :
    r.2.final_build_version =
      final_version_after atoi block.final_build_version (body_statements n s) ∧
    r.2.final_path_mode =
      final_path_mode_after block.final_path_mode (body_statements n s) ∧
    r.2.has_build = marker_after block.has_build (body_statements n s) ∧
    r.2.required_lightpath_version =
      if func_name = "build".toList then
        final_version_after atoi block.required_lightpath_version (body_statements n s)
      else block.required_lightpath_version := by
  induction n generalizing s block v m with
  | zero => simp [parse_block_body] at h
  | succ n ih =>
    rw [parse_block_body_succ] at h
    have hr := parse_statement_reads atoi func_name s block v m
    have hf := parse_statement_fields atoi func_name s block v m
    unfold body_statements
    cases hread : read_statement s with
    | none =>
      rw [hread] at hr
      dsimp only at hr
      rw [hr] at h
      simp only [ParseResult.ok.injEq] at h
      subst h
      simp [final_version_after, final_path_mode_after, marker_after]
    | some rd =>
      obtain ⟨st, s1⟩ := rd
      rw [hread] at hf
      dsimp only at hf ⊢
      rcases hf with hf | ⟨block1, hf, h1, h2, h3, h4⟩
      · rw [hf] at h
        simp at h
      · rw [hf] at h
        dsimp only at h
        obtain ⟨i1, i2, i3, i4⟩ := ih _ _ _ _ h
        rw [i1, i2, i3, i4, h1, h2, h3, h4, marker_after_cons]
        refine ⟨?_, ?_, rfl, ?_⟩
        · cases st <;> rfl
        · cases st <;> rfl
        · by_cases c : func_name = "build".toList
          · simp only [if_pos c]
            cases st <;> rfl
          · simp only [if_neg c]
            cases st <;> rfl

/-- The block that a body leaves, by the statements of the body and the block the
body was parsed into. -/
theorem body_block_after (atoi : List Char → Int) (func_name : List Char) (n : Nat)
    (s : Tokenizer) (block : FunctionBlock) (r : Tokenizer × FunctionBlock)
    (h : parse_block_body atoi func_name n s block 1 "application".toList = .ok r) :
    r.2 = block_after_body atoi func_name block (body_statements n s) := by
  have hc := body_commands_stamped atoi func_name n s block [] r h
  obtain ⟨h1, h2, h3, h4⟩ := body_fields atoi func_name n s block _ _ r h
  obtain ⟨rs, rb⟩ := r
  obtain ⟨c, fv, fm, hb, rq⟩ := rb
  unfold block_after_body
  dsimp only at hc h1 h2 h3 h4 ⊢
  rw [hc, h1, h2, h3, h4]

/-- The block after `k` insertions of the same command: the insertions that find
room are appended. -/
theorem iterate_add_command (a : List Char) (v : Int) (m : List Char) (k : Nat)
    (b : FunctionBlock) :
    (fun b => add_command_with_context b a v m)^[k] b =
      { b with commands := b.commands ++
          List.replicate (min k (MAX_COMMANDS - b.command_count)) ⟨a, v, m⟩ } := by
  induction k generalizing b with
  | zero => simp
  | succ k ih =>
    rw [Function.iterate_succ_apply, ih]
    unfold add_command_with_context FunctionBlock.command_count
    by_cases hroom : b.commands.length < MAX_COMMANDS
    · rw [if_pos hroom]
      have e : min (k + 1) (MAX_COMMANDS - b.commands.length) =
          min k (MAX_COMMANDS - (b.commands ++ [(⟨a, v, m⟩ : Command)]).length) + 1 := by
        simp only [List.length_append, List.length_singleton]
        omega
      rw [e, List.replicate_succ]
      simp
    · rw [if_neg hroom]
      have e1 : min (k + 1) (MAX_COMMANDS - b.commands.length) = 0 := by omega
      have e2 : min k (MAX_COMMANDS - b.commands.length) = 0 := by omega
      rw [e1, e2]

/-- A run of `k` statements `command "<a>"` at a statement position: the inner loop
comes to the statement position after them, with `k` insertions made. -/
theorem body_reaches_commands (atoi : List Char → Int) (func_name a : List Char)
    (ha : is_literal_text a = true) (v : Int) (m : List Char) (k : Nat) (s : Tokenizer)
    (block : FunctionBlock) (r : List Char)
    (hs : s.rest =
      (List.replicate k (" command \"".toList ++ (a ++ "\"".toList))).flatten ++ r) :
    ∃ s1, s1.rest = r ∧
      body_reaches atoi func_name ⟨s, block, v, m⟩
        ⟨s1, (fun b => add_command_with_context b a v m)^[k] block, v, m⟩ := by
  induction k generalizing s block with
  | zero =>
    refine ⟨s, ?_, Relation.ReflTransGen.refl⟩
    rw [hs]
    rfl
  | succ k ih =>
    have hsp : ∀ c ∈ [' '], is_space c = true := by decide
    have hs1 : s.rest = [' '] ++ "command".toList ++ ([' '] ++ DQUOTE :: (a ++ DQUOTE ::
        ((List.replicate k (" command \"".toList ++ (a ++ "\"".toList))).flatten ++ r))) := by
      rw [hs, List.replicate_succ, List.flatten_cons]
      simp only [List.append_assoc]
      rfl
    obtain ⟨e, q⟩ := parse_statement_command atoi func_name s block v m [' '] [' '] a _
      hsp hsp ha hs1
    obtain ⟨s1, q1, hreach⟩ := ih _ (add_command_with_context block a v m) q
    refine ⟨s1, q1, ?_⟩
    rw [Function.iterate_succ_apply]
    exact Relation.ReflTransGen.head
      (show body_step atoi func_name ⟨s, block, v, m⟩
        ⟨_, add_command_with_context block a v m, v, m⟩ from e) hreach

/-- A turn of the outer loop at a block whose body the inner loop reads to a `}`. -/
theorem top_step_of_body (atoi : List Char → Int) (s : Tokenizer)
    (project : LightPathProject) (func_name : List Char) (block : FunctionBlock)
    (y : BodyState)
    (hid : (next_token s).1.type = TOKEN_IDENTIFIER)
    (hval : (next_token s).1.value = func_name)
    (hlb : (next_token (next_token s).2).1.type = TOKEN_LBRACE)
    (hent : entered_block project func_name = some block)
    (hreach : body_reaches atoi func_name
      ⟨(next_token (next_token s).2).2, block, 1, "application".toList⟩ y)
    (hexit : (next_token y.s).1.type = TOKEN_RBRACE) :
    top_step atoi (s, project) ((next_token y.s).2, store_block project func_name y.block) := by
  refine ⟨s.rest.length + 1, ?_⟩
  have hl : (next_token (next_token s).2).2.rest.length < s.rest.length + 1 := by
    have h1 := next_token_rest_le s
    have h2 := next_token_rest_le (next_token s).2
    omega
  rw [parse_block_enters atoi _ s project func_name block hid hval hlb hent,
    (body_reaches_result atoi func_name _ _ hreach).2 _ hl, parse_block_body_succ]
  unfold parse_statement
  dsimp only
  rw [if_pos (Or.inl hexit)]

/-- The descriptor `build_twice_text j k x y`: the commands of the second body
follow those of the first as far as there is room, the second body stamps from
(1, `application`) again, and `final_path_mode` stays as the first body left it. -/
theorem parse_build_twice (atoi : List Char → Int) (j k : Nat) (x y : List Char)
    (hx : is_literal_text x = true) (hy : is_literal_text y = true) :
    parse_descriptor atoi (build_twice_text j k x y) =
      .ok { build_func :=
              { commands :=
                  List.replicate (min j MAX_COMMANDS) ⟨x, 1, "current".toList⟩ ++
                  List.replicate (min k (MAX_COMMANDS - min j MAX_COMMANDS))
                    ⟨y, 1, "application".toList⟩
                final_build_version := 1
                final_path_mode := "current".toList
                has_build := false
                required_lightpath_version := 1 }
            main_func := init_function_block
            custom := [] } := by
  have hsp : ∀ c ∈ [' '], is_space c = true := by decide
  have hnil : ∀ c ∈ ([] : List Char), is_space c = true := by simp
  generalize htext : build_twice_text j k x y = text
  have hcmd : ∀ (i : Nat) (a : List Char), is_literal_text a = true →
      ∀ c ∈ (List.replicate i (" command \"".toList ++ (a ++ "\"".toList))).flatten,
        (c != NUL) = true := by
    intro i a ha c hc
    obtain ⟨l, hl, hcl⟩ := List.mem_flatten.mp hc
    rw [List.eq_of_mem_replicate hl] at hcl
    simp only [List.mem_append] at hcl
    clear hc hl
    rcases hcl with hcl | hcl | hcl
    · revert c; decide
    · exact literal_text_no_nul a ha c hcl
    · revert c; decide
  -- the unread text at the start
  have h0 : (init_tokenizer text).rest =
      [] ++ "build".toList ++ ([' '] ++ '{' ::
        ([' '] ++ "path_mode".toList ++ ([' '] ++ '=' :: ([' '] ++ DQUOTE ::
          ("current".toList ++ DQUOTE ::
            ((List.replicate j (" command \"".toList ++ (x ++ "\"".toList))).flatten ++
              ([' '] ++ '}' :: ([' '] ++ "build".toList ++ ([' '] ++ '{' ::
                ((List.replicate k (" command \"".toList ++ (y ++ "\"".toList))).flatten ++
                  ([' '] ++ '}' :: []))))))))))) := by
    rw [init_tokenizer_rest, List.takeWhile_eq_self_iff.mpr, ← htext]
    · rfl
    · intro c hc
      rw [← htext] at hc
      unfold build_twice_text at hc
      simp only [List.mem_append] at hc
      rcases hc with hc | hc | hc | hc | hc
      · revert c; decide
      · exact hcmd j x hx c hc
      · revert c; decide
      · exact hcmd k y hy c hc
      · revert c; decide
  -- the first `build` and `{`
  obtain ⟨t1, v1, r1⟩ := next_token_of_scan (init_tokenizer text) _ _ _ _ h0
    (scan_keyword [] _ _ hnil (by decide) (headD_space_append [' '] _ '{' hsp (by decide)))
  obtain ⟨t2, _, r2⟩ := next_token_of_scan _ _ _ _ _ r1 (scan_lbrace [' '] _ hsp)
  -- the first body
  obtain ⟨e1, q1⟩ := parse_statement_path_mode atoi "build".toList _ init_function_block 1
    "application".toList [' '] [' '] [' '] "current".toList _ hsp hsp hsp (by decide) r2
  obtain ⟨s1, q2, reach1⟩ := body_reaches_commands atoi "build".toList x hx 1
    "current".toList j _ { init_function_block with final_path_mode := "current".toList }
    _ q1
  obtain ⟨t3, _, r3⟩ := next_token_of_scan s1 _ _ _ _ q2 (scan_rbrace [' '] _ hsp)
  have step1 := top_step_of_body atoi (init_tokenizer text) init_project "build".toList
    init_function_block _ t1 v1 t2 rfl
    (Relation.ReflTransGen.head
      (show body_step atoi "build".toList
        ⟨(next_token (next_token (init_tokenizer text)).2).2, init_function_block, 1,
          "application".toList⟩
        ⟨_, { init_function_block with final_path_mode := "current".toList }, 1,
          "current".toList⟩ from e1) reach1) t3
  -- the second `build` and `{`
  obtain ⟨t4, v4, r4⟩ := next_token_of_scan (next_token s1).2 _ _ _ _ r3
    (scan_keyword [' '] _ _ hsp (by decide) (headD_space_append [' '] _ '{' hsp (by decide)))
  obtain ⟨t5, _, r5⟩ := next_token_of_scan _ _ _ _ _ r4 (scan_lbrace [' '] _ hsp)
  -- the second body
  obtain ⟨s2, q3, reach2⟩ := body_reaches_commands atoi "build".toList y hy 1
    "application".toList k _
    ((fun b => add_command_with_context b x 1 "current".toList)^[j]
      { init_function_block with final_path_mode := "current".toList }) _ r5
  obtain ⟨t6, _, r6⟩ := next_token_of_scan s2 _ _ _ _ q3 (scan_rbrace [' '] _ hsp)
  have step2 := top_step_of_body atoi (next_token s1).2
    (store_block init_project "build".toList
      ((fun b => add_command_with_context b x 1 "current".toList)^[j]
        { init_function_block with final_path_mode := "current".toList }))
    "build".toList _ _ t4 v4 t5 rfl reach2 t6
  -- the end of the text
  obtain ⟨t7, _, _⟩ := next_token_of_scan (next_token s2).2 _ _ _ _ r6 (scan_end [] hnil)
  rw [parse_descriptor_from atoi text _ _
      (Relation.ReflTransGen.head step1 (Relation.ReflTransGen.single step2)),
    parse_top_level_succ]
  unfold parse_block
  dsimp only
  rw [if_pos t7]
  dsimp only
  rw [iterate_add_command, iterate_add_command]
  simp only [store_block, FunctionBlock.command_count, init_function_block, init_project,
    if_true, List.nil_append, List.length_replicate, Nat.sub_zero, ParseResult.ok.injEq]
  rfl

/-- A turn of the outer loop, by the name of the block it reads: the body of a
`build` or `main` block is parsed into the block the project holds, the body of a
block of another name into a new block appended to the custom mapping while it has
fewer than ten entries, and every other turn leaves the project as it is. -/
theorem parse_block_turn (atoi : List Char → Int) (n : Nat) (s s1 : Tokenizer)
    (project project1 : LightPathProject)
    (h : parse_block atoi n s project = .next s1 project1) :
    ((next_token s).1.type = TOKEN_IDENTIFIER ∧
        (next_token s).1.value = "build".toList →
      project1 =
        { project with
          build_func := block_after_body atoi "build".toList project.build_func
            (body_statements n (next_token (next_token s).2).2) }) ∧
    ((next_token s).1.type = TOKEN_IDENTIFIER ∧
        (next_token s).1.value = "main".toList →
      project1 =
        { project with
          main_func := block_after_body atoi "main".toList project.main_func
            (body_statements n (next_token (next_token s).2).2) }) ∧
    ((next_token s).1.type = TOKEN_IDENTIFIER ∧
        (next_token s).1.value ≠ "build".toList ∧
        (next_token s).1.value ≠ "main".toList ∧ project.custom_func_count < 10 →
      project1 =
        { project with
          custom := project.custom ++
            [((next_token s).1.value,
              block_after_body atoi (next_token s).1.value init_function_block
                (body_statements n (next_token (next_token s).2).2))] }) ∧
    ((next_token s).1.type ≠ TOKEN_IDENTIFIER ∨
        ((next_token s).1.value ≠ "build".toList ∧
          (next_token s).1.value ≠ "main".toList ∧ 10 ≤ project.custom_func_count) →
      project1 = project) := by
  unfold parse_block at h
  dsimp only at h
  generalize next_token s = t1 at h ⊢
  generalize next_token t1.2 = t2 at h ⊢
  split_ifs at h with h1 h2 h3 h4 h5 h6
  · have hk := body_block_after atoi t1.1.value n t2.2 project.build_func
    generalize parse_block_body atoi t1.1.value n t2.2 project.build_func 1
      "application".toList = res at h hk
    cases res with
    | ok r =>
      simp only [BlockResult.next.injEq] at h
      rw [← h.2, hk r rfl, h4]
      refine ⟨fun _ => rfl, fun c => absurd c.2 (by decide), fun c => absurd rfl c.2.1, ?_⟩
      rintro (c | c)
      · exact absurd h2 c
      · exact absurd rfl c.1
    | error => simp at h
    | out_of_fuel => simp at h
  · have hk := body_block_after atoi t1.1.value n t2.2 project.main_func
    generalize parse_block_body atoi t1.1.value n t2.2 project.main_func 1
      "application".toList = res at h hk
    cases res with
    | ok r =>
      simp only [BlockResult.next.injEq] at h
      rw [← h.2, hk r rfl, h5]
      refine ⟨fun c => absurd c.2 (by decide), fun _ => rfl, fun c => absurd rfl c.2.2.1, ?_⟩
      rintro (c | c)
      · exact absurd h2 c
      · exact absurd rfl c.2.1
    | error => simp at h
    | out_of_fuel => simp at h
  · have hk := body_block_after atoi t1.1.value n t2.2 init_function_block
    generalize parse_block_body atoi t1.1.value n t2.2 init_function_block 1
      "application".toList = res at h hk
    cases res with
    | ok r =>
      simp only [BlockResult.next.injEq] at h
      rw [← h.2, hk r rfl]
      refine ⟨fun c => absurd c.2 h4, fun c => absurd c.2 h5, fun _ => rfl, ?_⟩
      rintro (c | c)
      · exact absurd h2 c
      · have := c.2.2
        omega
    | error => simp at h
    | out_of_fuel => simp at h
  · simp only [BlockResult.next.injEq] at h
    rw [← h.2]
    refine ⟨fun c => absurd c.2 h4, fun c => absurd c.2 h5, fun c => ?_, fun _ => rfl⟩
    have := c.2.2.2
    omega
  · simp only [BlockResult.next.injEq] at h
    rw [← h.2]
    exact ⟨fun c => absurd c.1 h2, fun c => absurd c.1 h2, fun c => absurd c.1 h2,
      fun _ => rfl⟩

theorem final_version_after_none (atoi : List Char → Int) (before : Int)
    (statements : List Statement)
    (h : ∀ text, Statement.build_version text ∉ statements) :
    final_version_after atoi before statements = before := by
  unfold final_version_after
  induction statements generalizing before with
  | nil => rfl
  | cons st rest ih =>
    rw [List.foldl_cons]
    have hrest : ∀ text, Statement.build_version text ∉ rest :=
      fun text c => h text (List.mem_cons_of_mem _ c)
    cases st with
    | build_version text => exact absurd (List.mem_cons_self _ _) (h text)
    | command text => exact ih _ hrest
    | path_mode text => exact ih _ hrest
    | marker => exact ih _ hrest
    | other => exact ih _ hrest

theorem final_path_mode_after_none (before : List Char) (statements : List Statement)
    (h : ∀ text, Statement.path_mode text ∉ statements) :
    final_path_mode_after before statements = before := by
  unfold final_path_mode_after
  induction statements generalizing before with
  | nil => rfl
  | cons st rest ih =>
    rw [List.foldl_cons]
    have hrest : ∀ text, Statement.path_mode text ∉ rest :=
      fun text c => h text (List.mem_cons_of_mem _ c)
    cases st with
    | path_mode text => exact absurd (List.mem_cons_self _ _) (h text)
    | command text => exact ih _ hrest
    | build_version text => exact ih _ hrest
    | marker => exact ih _ hrest
    | other => exact ih _ hrest

/-- C21, as stated, fails at the two caps.  In the descriptor `build { path_mode =
"current" command "x" ... } build { command "y" }` with a hundred commands `x`, the
command `y` of the later body is not appended: the block holds the hundred commands
of the first body.  In the descriptor `a{}b{}c{}d{}e{}f{}g{}h{}i{}j{}k{}` the
eleventh declaration of a custom name creates no entry: the mapping holds the ten
entries `a` to `j`. -/
theorem C21_declarations_stop_at_the_caps :
    parse_descriptor atoi_decimal (build_twice_text 100 1 "x".toList "y".toList) =
      .ok { build_func :=
              { commands := List.replicate 100 ⟨"x".toList, 1, "current".toList⟩
                final_build_version := 1
                final_path_mode := "current".toList
                has_build := false
                required_lightpath_version := 1 }
            main_func := init_function_block
            custom := [] } ∧
    parse_descriptor atoi_decimal
      "a\x7b\x7db\x7b\x7dc\x7b\x7dd\x7b\x7de\x7b\x7df\x7b\x7dg\x7b\x7dh\x7b\x7di\x7b\x7dj\x7b\x7dk\x7b\x7d".toList
      = .ok { build_func := init_function_block
              main_func := init_function_block
              custom := ["a", "b", "c", "d", "e", "f", "g", "h", "i", "j"].map
                (fun name => (name.toList, init_function_block)) } :=
  ⟨parse_build_twice atoi_decimal 100 1 "x".toList "y".toList (by decide) (by decide),
    by decide!⟩

/-- C21, amended: take a turn of the outer loop all of whose copies fit their
arrays (`block_fits`: the name of the block is shorter than 64 characters and every
path mode assigned in the body shorter than 32).  If it reads a block named `build`
(or `main`), it parses the body into the block the project already holds: the
commands of the body, stamped from the context (1, `application`) whatever the
earlier bodies left, follow the commands the block held, as far as the block has
room for them (`MAX_COMMANDS`); `final_build_version`, `final_path_mode`, the
marker and `required_lightpath_version` go on from the values the block had, and
the other blocks are as they were.  If it reads a block of another name, it appends
to the custom mapping, while it has fewer than ten entries, a new entry whose block
is what the body leaves in a freshly initialised block, also when the name is
stored already.  Every other turn leaves the project as it is.  (The turn having
ended with the fuel `n`, `body_statements n` gives all the statements of the body:
`body_statements_complete`.)  A body without a `build_version` (`path_mode`)
assignment leaves `final_build_version` (`final_path_mode`) as it was, and a marker
that was set stays set.  For all texts `x` and `y` of string literals, the
descriptor `build { path_mode = "current"`, `j` times `command "x"`, `} build {`,
`k` times `command "y"`, `}` gives `build` the first hundred of the `j` commands
`x` stamped `current` followed by the `k` commands `y` stamped `application`, with
`final_path_mode` still `current`. -/
theorem C21_block_declared_again (atoi : List Char → Int) :
    (∀ (n : Nat) (s s1 : Tokenizer) (project project1 : LightPathProject),
      block_fits atoi n s project = true →
      parse_block atoi n s project = .next s1 project1 →
        ((next_token s).1.type = TOKEN_IDENTIFIER ∧
            (next_token s).1.value = "build".toList →
          project1 =
            { project with
              build_func := block_after_body atoi "build".toList project.build_func
                (body_statements n (next_token (next_token s).2).2) }) ∧
        ((next_token s).1.type = TOKEN_IDENTIFIER ∧
            (next_token s).1.value = "main".toList →
          project1 =
            { project with
              main_func := block_after_body atoi "main".toList project.main_func
                (body_statements n (next_token (next_token s).2).2) }) ∧
        ((next_token s).1.type = TOKEN_IDENTIFIER ∧
            (next_token s).1.value ≠ "build".toList ∧
            (next_token s).1.value ≠ "main".toList ∧ project.custom_func_count < 10 →
          project1 =
            { project with
              custom := project.custom ++
                [((next_token s).1.value,
                  block_after_body atoi (next_token s).1.value init_function_block
                    (body_statements n (next_token (next_token s).2).2))] }) ∧
        ((next_token s).1.type ≠ TOKEN_IDENTIFIER ∨
            ((next_token s).1.value ≠ "build".toList ∧
              (next_token s).1.value ≠ "main".toList ∧
              10 ≤ project.custom_func_count) →
          project1 = project)) ∧
    (∀ (func_name : List Char) (block : FunctionBlock) (statements : List Statement),
      (block_after_body atoi func_name block statements).commands =
        block.commands ++
          (stamped_commands atoi [] statements).take
            (MAX_COMMANDS - block.command_count) ∧
      ((∀ text, Statement.build_version text ∉ statements) →
        (block_after_body atoi func_name block statements).final_build_version =
          block.final_build_version ∧
        (block_after_body atoi func_name block statements).required_lightpath_version =
          block.required_lightpath_version) ∧
      ((∀ text, Statement.path_mode text ∉ statements) →
        (block_after_body atoi func_name block statements).final_path_mode =
          block.final_path_mode) ∧
      (block.has_build = true →
        (block_after_body atoi func_name block statements).has_build = true)) ∧
    (∀ (j k : Nat) (x y : List Char),
      is_literal_text x = true → is_literal_text y = true →
        parse_descriptor atoi (build_twice_text j k x y) =
          .ok { build_func :=
                  { commands :=
                      List.replicate (min j MAX_COMMANDS) ⟨x, 1, "current".toList⟩ ++
                      List.replicate (min k (MAX_COMMANDS - min j MAX_COMMANDS))
                        ⟨y, 1, "application".toList⟩
                    final_build_version := 1
                    final_path_mode := "current".toList
                    has_build := false
                    required_lightpath_version := 1 }
                main_func := init_function_block
                custom := [] }) := by
  refine ⟨fun n s s1 project project1 _ h => parse_block_turn atoi n s s1 project project1 h,
    ?_, parse_build_twice atoi⟩
  intro func_name block statements
  refine ⟨rfl, fun h => ?_, fun h => ?_, fun h => ?_⟩
  · unfold block_after_body
    dsimp only
    rw [final_version_after_none atoi _ _ h, final_version_after_none atoi _ _ h, ite_self]
    exact ⟨rfl, rfl⟩
  · exact final_path_mode_after_none _ _ h
  · unfold block_after_body marker_after
    dsimp only
    rw [h, Bool.true_or]

theorem C21_block_declared_again_witness :
    ({ build_func :=
         { commands := [⟨"a".toList, 0, "current".toList⟩,
                        ⟨"b".toList, 1, "application".toList⟩]
           final_build_version := 0
           final_path_mode := "current".toList
           has_build := true
           required_lightpath_version := 0 }
       main_func := init_function_block
       custom := [] } : LightPathProject) =
      { build_func :=
          block_after_body atoi_decimal "build".toList
            { commands := [⟨"a".toList, 0, "current".toList⟩]
              final_build_version := 0
              final_path_mode := "current".toList
              has_build := true
              required_lightpath_version := 0 }
            (body_statements 20
              (next_token (next_token (tokenizer_after 12 (init_tokenizer
                "build \x7b build_version = \"0\" path_mode = \"current\" command \"a\" build \x7d build \x7b command \"b\" \x7d".toList))).2).2)
        main_func := init_function_block
        custom := [] } :=
  ((C21_block_declared_again atoi_decimal).1 20
    (tokenizer_after 12 (init_tokenizer
      "build \x7b build_version = \"0\" path_mode = \"current\" command \"a\" build \x7d build \x7b command \"b\" \x7d".toList))
    (tokenizer_after 17 (init_tokenizer
      "build \x7b build_version = \"0\" path_mode = \"current\" command \"a\" build \x7d build \x7b command \"b\" \x7d".toList))
    { build_func :=
        { commands := [⟨"a".toList, 0, "current".toList⟩]
          final_build_version := 0
          final_path_mode := "current".toList
          has_build := true
          required_lightpath_version := 0 }
      main_func := init_function_block
      custom := [] }
    _ (by decide!) (by decide!)).1 ⟨by decide!, by decide!⟩

/-! ## Theorems: texts that do not fit their arrays

The descriptors below are read to a `strcpy` whose text, with its terminating NUL,
is longer than the destination array. -/

/-- C1: in the descriptor `main { path_mode = "<32 characters>" command "a" command
"b" }` the parse comes, at the first statement position of the body, to the
assignment of a path mode of 32 characters: with its terminating NUL the text does
not fit `current_path_mode[32]`, from where the stamp of each command is copied
into `path_mode_at_time[32]`.  The descriptor does not fit. -/
theorem C1_long_path_mode_overruns_the_stamp :
    (next_token (tokenizer_after 2 (init_tokenizer
      ("main \x7b path_mode = \"".toList ++ (List.replicate 32 'p' ++
        "\" command \"a\" command \"b\" \x7d".toList))))).1.value = "path_mode".toList ∧
    (next_token (tokenizer_after 3 (init_tokenizer
      ("main \x7b path_mode = \"".toList ++ (List.replicate 32 'p' ++
        "\" command \"a\" command \"b\" \x7d".toList))))).1.type = TOKEN_EQUALS ∧
    (next_token (tokenizer_after 4 (init_tokenizer
      ("main \x7b path_mode = \"".toList ++ (List.replicate 32 'p' ++
        "\" command \"a\" command \"b\" \x7d".toList))))).1.type = TOKEN_STRING ∧
    (next_token (tokenizer_after 4 (init_tokenizer
      ("main \x7b path_mode = \"".toList ++ (List.replicate 32 'p' ++
        "\" command \"a\" command \"b\" \x7d".toList))))).1.value = List.replicate 32 'p' ∧
    strcpy_fits PATH_MODE_SIZE (List.replicate 32 'p') = false ∧
    statement_fits (tokenizer_after 2 (init_tokenizer
      ("main \x7b path_mode = \"".toList ++ (List.replicate 32 'p' ++
        "\" command \"a\" command \"b\" \x7d".toList)))) init_function_block
      "application".toList = false ∧
    descriptor_fits atoi_decimal
      ("main \x7b path_mode = \"".toList ++ (List.replicate 32 'p' ++
        "\" command \"a\" command \"b\" \x7d".toList)) = false := by
  decide!

/-- C11: in the descriptor `main { path_mode = "<32 characters>"`, 101 times
`command "c"`, `}` the parse comes, at the first statement position of the body, to
the assignment of a path mode of 32 characters, which does not fit
`current_path_mode[32]`; each insertion then copies it into a
`path_mode_at_time[32]`, the hundredth into the one that `command_count` follows.
The descriptor does not fit. -/
theorem C11_long_path_mode_overruns_the_count :
    (next_token (tokenizer_after 2 (init_tokenizer
      ("main \x7b path_mode = \"".toList ++ (List.replicate 32 'p' ++ ("\"".toList ++
        ((List.replicate 101 " command \"c\"".toList).flatten ++
          " \x7d".toList))))))).1.value = "path_mode".toList ∧
    (next_token (tokenizer_after 3 (init_tokenizer
      ("main \x7b path_mode = \"".toList ++ (List.replicate 32 'p' ++ ("\"".toList ++
        ((List.replicate 101 " command \"c\"".toList).flatten ++
          " \x7d".toList))))))).1.type = TOKEN_EQUALS ∧
    (next_token (tokenizer_after 4 (init_tokenizer
      ("main \x7b path_mode = \"".toList ++ (List.replicate 32 'p' ++ ("\"".toList ++
        ((List.replicate 101 " command \"c\"".toList).flatten ++
          " \x7d".toList))))))).1.type = TOKEN_STRING ∧
    (next_token (tokenizer_after 4 (init_tokenizer
      ("main \x7b path_mode = \"".toList ++ (List.replicate 32 'p' ++ ("\"".toList ++
        ((List.replicate 101 " command \"c\"".toList).flatten ++
          " \x7d".toList))))))).1.value = List.replicate 32 'p' ∧
    strcpy_fits PATH_MODE_SIZE (List.replicate 32 'p') = false ∧
    descriptor_fits atoi_decimal
      ("main \x7b path_mode = \"".toList ++ (List.replicate 32 'p' ++ ("\"".toList ++
        ((List.replicate 101 " command \"c\"".toList).flatten ++
          " \x7d".toList)))) = false := by
  decide!

/-- C12: in the descriptor `build { path_mode = "<37 characters>" }` the parse
comes, at the first statement position of the body of `build`, to the assignment
of a path mode of 37 characters: it does not fit `final_path_mode[32]`, the array
that `has_build` and `required_lightpath_version` follow.  The descriptor does not
fit. -/
theorem C12_long_path_mode_overruns_the_required_version :
    (next_token (init_tokenizer
      ("build \x7b path_mode = \"".toList ++ (List.replicate 37 'p' ++
        "\" \x7d".toList)))).1.value = "build".toList ∧
    (next_token (tokenizer_after 2 (init_tokenizer
      ("build \x7b path_mode = \"".toList ++ (List.replicate 37 'p' ++
        "\" \x7d".toList))))).1.value = "path_mode".toList ∧
    (next_token (tokenizer_after 3 (init_tokenizer
      ("build \x7b path_mode = \"".toList ++ (List.replicate 37 'p' ++
        "\" \x7d".toList))))).1.type = TOKEN_EQUALS ∧
    (next_token (tokenizer_after 4 (init_tokenizer
      ("build \x7b path_mode = \"".toList ++ (List.replicate 37 'p' ++
        "\" \x7d".toList))))).1.type = TOKEN_STRING ∧
    (next_token (tokenizer_after 4 (init_tokenizer
      ("build \x7b path_mode = \"".toList ++ (List.replicate 37 'p' ++
        "\" \x7d".toList))))).1.value = List.replicate 37 'p' ∧
    strcpy_fits PATH_MODE_SIZE (List.replicate 37 'p') = false ∧
    descriptor_fits atoi_decimal
      ("build \x7b path_mode = \"".toList ++ (List.replicate 37 'p' ++
        "\" \x7d".toList)) = false := by
  decide!

/-- C16: in the descriptor `a{}b{}c{}d{}e{}f{}g{}h{}i{}j{path_mode="<40
characters>build"}` the parse comes, in the body of the tenth custom block, to the
assignment of a path mode of 45 characters that ends in `build`: it does not fit
the `final_path_mode[32]` of `custom_funcs[9]`, the last block of the array that
`custom_func_names` follows.  The descriptor does not fit. -/
theorem C16_long_path_mode_overruns_the_names :
    (next_token (tokenizer_after 27 (init_tokenizer
      ("a\x7b\x7db\x7b\x7dc\x7b\x7dd\x7b\x7de\x7b\x7df\x7b\x7dg\x7b\x7dh\x7b\x7di\x7b\x7dj\x7bpath_mode=\"".toList ++
        (List.replicate 40 'p' ++ "build\"\x7d".toList))))).1.value = "j".toList ∧
    (next_token (tokenizer_after 29 (init_tokenizer
      ("a\x7b\x7db\x7b\x7dc\x7b\x7dd\x7b\x7de\x7b\x7df\x7b\x7dg\x7b\x7dh\x7b\x7di\x7b\x7dj\x7bpath_mode=\"".toList ++
        (List.replicate 40 'p' ++ "build\"\x7d".toList))))).1.value = "path_mode".toList ∧
    (next_token (tokenizer_after 30 (init_tokenizer
      ("a\x7b\x7db\x7b\x7dc\x7b\x7dd\x7b\x7de\x7b\x7df\x7b\x7dg\x7b\x7dh\x7b\x7di\x7b\x7dj\x7bpath_mode=\"".toList ++
        (List.replicate 40 'p' ++ "build\"\x7d".toList))))).1.type = TOKEN_EQUALS ∧
    (next_token (tokenizer_after 31 (init_tokenizer
      ("a\x7b\x7db\x7b\x7dc\x7b\x7dd\x7b\x7de\x7b\x7df\x7b\x7dg\x7b\x7dh\x7b\x7di\x7b\x7dj\x7bpath_mode=\"".toList ++
        (List.replicate 40 'p' ++ "build\"\x7d".toList))))).1.type = TOKEN_STRING ∧
    (next_token (tokenizer_after 31 (init_tokenizer
      ("a\x7b\x7db\x7b\x7dc\x7b\x7dd\x7b\x7de\x7b\x7df\x7b\x7dg\x7b\x7dh\x7b\x7di\x7b\x7dj\x7bpath_mode=\"".toList ++
        (List.replicate 40 'p' ++ "build\"\x7d".toList))))).1.value =
      List.replicate 40 'p' ++ "build".toList ∧
    strcpy_fits PATH_MODE_SIZE (List.replicate 40 'p' ++ "build".toList) = false ∧
    descriptor_fits atoi_decimal
      ("a\x7b\x7db\x7b\x7dc\x7b\x7dd\x7b\x7de\x7b\x7df\x7b\x7dg\x7b\x7dh\x7b\x7di\x7b\x7dj\x7bpath_mode=\"".toList ++
        (List.replicate 40 'p' ++ "build\"\x7d".toList)) = false := by
  decide!

/-- C19: in the descriptor `build { build path_mode = "<32 characters>" }` the
identifier `build` is read at a statement position of the body of `build` and the
turn sets the marker; the next turn comes to the assignment of a path mode of 32
characters, which with its terminating NUL does not fit `final_path_mode[32]`, the
array that `has_build` follows.  The descriptor does not fit. -/
theorem C19_long_path_mode_overruns_the_marker :
    parse_statement atoi_decimal "build".toList
      (tokenizer_after 2 (init_tokenizer
        ("build \x7b build path_mode = \"".toList ++ (List.replicate 32 'p' ++
          "\" \x7d".toList))))
      init_function_block 1 "application".toList =
      .next
        (tokenizer_after 3 (init_tokenizer
          ("build \x7b build path_mode = \"".toList ++ (List.replicate 32 'p' ++
            "\" \x7d".toList))))
        { init_function_block with has_build := true } 1 "application".toList ∧
    (next_token (tokenizer_after 3 (init_tokenizer
      ("build \x7b build path_mode = \"".toList ++ (List.replicate 32 'p' ++
        "\" \x7d".toList))))).1.value = "path_mode".toList ∧
    (next_token (tokenizer_after 4 (init_tokenizer
      ("build \x7b build path_mode = \"".toList ++ (List.replicate 32 'p' ++
        "\" \x7d".toList))))).1.type = TOKEN_EQUALS ∧
    (next_token (tokenizer_after 5 (init_tokenizer
      ("build \x7b build path_mode = \"".toList ++ (List.replicate 32 'p' ++
        "\" \x7d".toList))))).1.type = TOKEN_STRING ∧
    (next_token (tokenizer_after 5 (init_tokenizer
      ("build \x7b build path_mode = \"".toList ++ (List.replicate 32 'p' ++
        "\" \x7d".toList))))).1.value = List.replicate 32 'p' ∧
    statement_fits
      (tokenizer_after 3 (init_tokenizer
        ("build \x7b build path_mode = \"".toList ++ (List.replicate 32 'p' ++
          "\" \x7d".toList))))
      { init_function_block with has_build := true } "application".toList = false ∧
    descriptor_fits atoi_decimal
      ("build \x7b build path_mode = \"".toList ++ (List.replicate 32 'p' ++
        "\" \x7d".toList)) = false := by
  decide!

end LightPath
